import Mathlib

/-!
bcalc: tokenizer and recursive-descent evaluator

A shallow embedding of `src/bcalc.c` (the tokenizer `get_next_token`, the parser
`parse_factor` / `parse_term` / `parse_expression`, and the entry point `eval`), and theorems
about it.

Modelling choices:

* A line is the list of the characters of a C string *before* its terminator.
  Reading `input[pos]` is `charAt input pos`, which yields the NUL character at the
  terminator (index `input.length`). A line that is a C string has no NUL inside.
* `double` values are exact rationals (`ℚ`) in the first embedding; rounding, infinities
  and NaN are not modelled there. The only branch of the source that tests a `double` is
  `if (divisor == 0)` of `parse_term`, so a second embedding (`Arith.eval` and the
  definitions of the namespace `Arith`) takes the arithmetic of `double` as a parameter
  (`Arith V`: the conversion of an `int`, the four operations, and `==`). The first
  embedding is its instance at the exact arithmetic of `ℚ` (`eval_rat`); `Binary64` is
  the instance of IEEE 754 double precision with rounding to nearest, ties to even.
* `int decimal_point` is a 32-bit two's-complement integer: `decimal_point *= 10`
  wraps (`wrap32`).
* The module-level variables `input`, `pos` and `current_token` form the record
  `State`, threaded explicitly through every function.
* `fprintf(stderr, ...); exit(1)` is an `Except.error` carrying the message.
* The `while` loops of the tokenizer take as fuel the number of characters that are
  left; the mutually recursive parser takes an explicit fuel argument, and running
  out of it is the distinct outcome `Error.fuelExhausted`. `eval` gives the parser
  `evalFuel line`, which is enough for every line (`run_total`, `run_of_big`).

Proof devices: `lexList` is the tokenizer as a function of the characters left
(`get_next_token_eq`); `Big` is the relation between a procedure of the parser, the state it is
entered in and what it comes back with, free of fuel (`big_of_run`, `run_of_big`).
-/

namespace Bcalc

/-! # Definitions -/

/-! ## Data model -/

/-- The enumeration `TokenType` of the source. -/
inductive TokenType where
  | TOKEN_NUMBER
  | TOKEN_PLUS
  | TOKEN_MINUS
  | TOKEN_MULTIPLY
  | TOKEN_DIVIDE
  | TOKEN_LPAREN
  | TOKEN_RPAREN
  | TOKEN_END
  | TOKEN_INVALID
  deriving DecidableEq, Repr

/-- The struct `Token` of the source: a kind and a value (only used for numbers). -/
structure Token where
  type : TokenType
  value : ℚ
  deriving DecidableEq, Repr

/-- The module-level variables `input`, `pos` and `current_token`. -/
structure State where
  input : List Char
  pos : Nat
  current_token : Token
  deriving DecidableEq, Repr

/-- The ways a run of the parser stops without a value: one constructor for each
`fprintf(stderr, ...); exit(1)` of the source, and `fuelExhausted` for a run of the
model that is cut short by its fuel. -/
inductive Error where
  /-- The message "Error: Unexpected token" of `parse_factor`. -/
  | unexpectedToken
  /-- The message "Error: Expected closing parenthesis" of `parse_factor`. -/
  | expectedClosingParen
  /-- The message "Error: Division by zero" of `parse_term`. -/
  | divisionByZero
  /-- The message "Error: Unexpected token after expression" of `eval`. -/
  | unexpectedTokenAfterExpression
  /-- The model ran out of fuel (no counterpart in the source). -/
  | fuelExhausted
  deriving DecidableEq, Repr

/-- The error taxonomy of the specification (section 7). -/
inductive ErrorKind where
  | UnexpectedToken
  | MissingClosingParen
  | DivisionByZero
  deriving DecidableEq, Repr

/-- The kind of the specification's taxonomy an error of the source belongs to:
both "unexpected token" messages are `UnexpectedToken`. -/
def Error.kind : Error → Option ErrorKind
  | .unexpectedToken => some .UnexpectedToken
  | .unexpectedTokenAfterExpression => some .UnexpectedToken
  | .expectedClosingParen => some .MissingClosingParen
  | .divisionByZero => some .DivisionByZero
  | .fuelExhausted => none

/-! ## Characters -/

/-- The terminator of a C string. -/
def NUL : Char := Char.ofNat 0

/-- The read `input[pos]`: the character at `pos`, the terminator at the end. -/
def charAt (input : List Char) (pos : Nat) : Char :=
  input.getD pos NUL

/-- The `isspace` of `<ctype.h>` in the C locale: space, and `\t \n \v \f \r`. -/
def isspace (c : Char) : Bool :=
  c.toNat = 32 || (9 ≤ c.toNat && c.toNat ≤ 13)

/-- The `isdigit` of `<ctype.h>`. -/
def isdigit (c : Char) : Bool :=
  48 ≤ c.toNat && c.toNat ≤ 57

/-- The value `input[pos] - '0'` of a digit character. -/
def digitVal (c : Char) : ℚ :=
  ((c.toNat - 48 : Nat) : ℚ)

/-- A 32-bit `int` after an arithmetic operation: two's-complement wrap-around. -/
def wrap32 (x : Int) : Int :=
  (x + 2147483648) % 4294967296 - 2147483648

/-! ## Tokenizer -/

/-- The loop `while (input[pos] != '\0' && isspace(input[pos])) pos++;`, returning
the final `pos`. Every iteration needs a character before the terminator, so
`input.length - pos` iterations are all the loop can make. -/
def skip_spaces : Nat → List Char → Nat → Nat
  | 0, _, pos => pos
  | fuel + 1, input, pos =>
    if charAt input pos ≠ NUL ∧ isspace (charAt input pos) = true then
      skip_spaces fuel input (pos + 1)
    else pos

/-- The loop `while (isdigit(input[pos]) || (input[pos] == '.' && !decimal_point))`
of the number branch, on the variables `pos`, `token.value` and `decimal_point`. -/
def scan_number : Nat → List Char → Nat → ℚ → Int → Nat × ℚ × Int
  | 0, _, pos, value, decimal_point => (pos, value, decimal_point)
  | fuel + 1, input, pos, value, decimal_point =>
    if isdigit (charAt input pos) = true ∨ (charAt input pos = '.' ∧ decimal_point = 0) then
      if charAt input pos = '.' then
        scan_number fuel input (pos + 1) value 1
      else
        scan_number fuel input (pos + 1) (value * 10 + digitVal (charAt input pos))
          (if decimal_point ≠ 0 then wrap32 (decimal_point * 10) else decimal_point)
    else (pos, value, decimal_point)

/-- The function `get_next_token`: the token read at the cursor, and the state with the
cursor moved. -/
def get_next_token (st : State) : Token × State :=
  let pos := skip_spaces (st.input.length - st.pos) st.input st.pos
  let c := charAt st.input pos
  if c = NUL then
    (⟨.TOKEN_END, 0⟩, { st with pos := pos })
  else if isdigit c = true ∨ c = '.' then
    let r := scan_number (st.input.length - pos) st.input pos 0 0
    let value := if r.2.2 ≠ 0 then r.2.1 / (r.2.2 : ℚ) else r.2.1
    (⟨.TOKEN_NUMBER, value⟩, { st with pos := r.1 })
  else if c = '+' then (⟨.TOKEN_PLUS, 0⟩, { st with pos := pos + 1 })
  else if c = '-' then (⟨.TOKEN_MINUS, 0⟩, { st with pos := pos + 1 })
  else if c = '*' then (⟨.TOKEN_MULTIPLY, 0⟩, { st with pos := pos + 1 })
  else if c = '/' then (⟨.TOKEN_DIVIDE, 0⟩, { st with pos := pos + 1 })
  else if c = '(' then (⟨.TOKEN_LPAREN, 0⟩, { st with pos := pos + 1 })
  else if c = ')' then (⟨.TOKEN_RPAREN, 0⟩, { st with pos := pos + 1 })
  else (⟨.TOKEN_INVALID, 0⟩, { st with pos := pos })

/-- The function `next_token`: `current_token = get_next_token();`. -/
def next_token (st : State) : State :=
  { (get_next_token st).2 with current_token := (get_next_token st).1 }

/-! ## Parser -/

mutual

/-- The function `parse_factor`: a number, or a parenthesised expression. -/
def parse_factor : Nat → State → Except Error (ℚ × State)
  | 0, _ => .error .fuelExhausted
  | fuel + 1, st =>
    if st.current_token.type = .TOKEN_NUMBER then
      .ok (st.current_token.value, next_token st)
    else if st.current_token.type = .TOKEN_LPAREN then
      match parse_expression fuel (next_token st) with
      | .error e => .error e
      | .ok (result, st1) =>
        if st1.current_token.type ≠ .TOKEN_RPAREN then .error .expectedClosingParen
        else .ok (result, next_token st1)
    else .error .unexpectedToken

/-- The `while` loop of `parse_term`, on the variable `result`. -/
def parse_term_loop : Nat → ℚ → State → Except Error (ℚ × State)
  | 0, _, _ => .error .fuelExhausted
  | fuel + 1, result, st =>
    if st.current_token.type = .TOKEN_MULTIPLY then
      match parse_factor fuel (next_token st) with
      | .error e => .error e
      | .ok (v, st1) => parse_term_loop fuel (result * v) st1
    else if st.current_token.type = .TOKEN_DIVIDE then
      match parse_factor fuel (next_token st) with
      | .error e => .error e
      | .ok (divisor, st1) =>
        if divisor = 0 then .error .divisionByZero
        else parse_term_loop fuel (result / divisor) st1
    else .ok (result, st)

/-- The function `parse_term`: factors joined by `*` and `/`. -/
def parse_term : Nat → State → Except Error (ℚ × State)
  | 0, _ => .error .fuelExhausted
  | fuel + 1, st =>
    match parse_factor fuel st with
    | .error e => .error e
    | .ok (result, st1) => parse_term_loop fuel result st1

/-- The `while` loop of `parse_expression`, on the variable `result`. -/
def parse_expression_loop : Nat → ℚ → State → Except Error (ℚ × State)
  | 0, _, _ => .error .fuelExhausted
  | fuel + 1, result, st =>
    if st.current_token.type = .TOKEN_PLUS then
      match parse_term fuel (next_token st) with
      | .error e => .error e
      | .ok (v, st1) => parse_expression_loop fuel (result + v) st1
    else if st.current_token.type = .TOKEN_MINUS then
      match parse_term fuel (next_token st) with
      | .error e => .error e
      | .ok (v, st1) => parse_expression_loop fuel (result - v) st1
    else .ok (result, st)

/-- The function `parse_expression`: terms joined by `+` and `-`. -/
def parse_expression : Nat → State → Except Error (ℚ × State)
  | 0, _ => .error .fuelExhausted
  | fuel + 1, st =>
    match parse_term fuel st with
    | .error e => .error e
    | .ok (result, st1) => parse_expression_loop fuel result st1

end

/-- The fuel `eval` gives the parser for a line: three calls for each character
and three more, which is enough (`run_of_big`, `weight_startState`). -/
def evalFuel (line : List Char) : Nat :=
  3 * line.length + 3

/-- The function `eval`, started with the module-level variables at `g`: point the
tokenizer at `line`, fetch the first token, parse an expression and require the
end of the line. -/
def eval (g : State) (line : List Char) : Except Error ℚ :=
  match parse_expression (evalFuel line) (next_token { g with input := line, pos := 0 }) with
  | .error e => .error e
  | .ok (result, st) =>
    if st.current_token.type ≠ .TOKEN_END then .error .unexpectedTokenAfterExpression
    else .ok result

/-- The module-level variables at program start, zero-initialised: no line yet (the null
pointer, here the empty line), the cursor at 0 and a token of kind 0 and value 0. -/
def initState : State :=
  ⟨[], 0, ⟨.TOKEN_NUMBER, 0⟩⟩

/-- Equality of outcomes is decidable. -/
instance instDecidableEqExcept {ε α : Type} [DecidableEq ε] [DecidableEq α] :
    DecidableEq (Except ε α)
  | .ok a, .ok b => decidable_of_iff (a = b) (by simp)
  | .error a, .error b => decidable_of_iff (a = b) (by simp)
  | .ok _, .error _ => isFalse (by simp)
  | .error _, .ok _ => isFalse (by simp)

/-! ## The tokenizer as a function of the characters left -/

/-- The number of characters the whitespace loop passes over at the head of `s`. -/
def skipList : List Char → Nat
  | [] => 0
  | c :: r => if c ≠ NUL ∧ isspace c = true then skipList r + 1 else 0

/-- The number loop run over a list of characters: the number of characters it consumes, and the
final `token.value` and `decimal_point`. -/
def scanList : List Char → ℚ → Int → Nat × ℚ × Int
  | [], value, decimal_point => (0, value, decimal_point)
  | c :: r, value, decimal_point =>
    if isdigit c = true ∨ (c = '.' ∧ decimal_point = 0) then
      if c = '.' then
        ((scanList r value 1).1 + 1, (scanList r value 1).2)
      else
        ((scanList r (value * 10 + digitVal c)
            (if decimal_point ≠ 0 then wrap32 (decimal_point * 10) else decimal_point)).1 + 1,
         (scanList r (value * 10 + digitVal c)
            (if decimal_point ≠ 0 then wrap32 (decimal_point * 10) else decimal_point)).2)
    else (0, value, decimal_point)

/-- The tokenizer run over the characters left: the token, and the number of characters the
cursor moves by. It is `get_next_token` with `input + pos` for the input
(`get_next_token_eq`). -/
def lexList (s : List Char) : Token × Nat :=
  let w := skipList s
  let c := (s.drop w).headD NUL
  if c = NUL then (⟨.TOKEN_END, 0⟩, w)
  else if isdigit c = true ∨ c = '.' then
    let r := scanList (s.drop w) 0 0
    (⟨.TOKEN_NUMBER, if r.2.2 ≠ 0 then r.2.1 / (r.2.2 : ℚ) else r.2.1⟩, w + r.1)
  else if c = '+' then (⟨.TOKEN_PLUS, 0⟩, w + 1)
  else if c = '-' then (⟨.TOKEN_MINUS, 0⟩, w + 1)
  else if c = '*' then (⟨.TOKEN_MULTIPLY, 0⟩, w + 1)
  else if c = '/' then (⟨.TOKEN_DIVIDE, 0⟩, w + 1)
  else if c = '(' then (⟨.TOKEN_LPAREN, 0⟩, w + 1)
  else if c = ')' then (⟨.TOKEN_RPAREN, 0⟩, w + 1)
  else (⟨.TOKEN_INVALID, 0⟩, w)

/-! ## The runs of the parser, without fuel -/

/-- The five procedures of the parser: the three functions and the two `while` loops, a loop
together with the value of `result` it is entered with. -/
inductive Call where
  | factor
  | termLoop (result : ℚ)
  | term
  | exprLoop (result : ℚ)
  | expr

/-- The procedure `c` run with the given fuel. -/
def run (fuel : Nat) : Call → State → Except Error (ℚ × State)
  | .factor, st => parse_factor fuel st
  | .termLoop result, st => parse_term_loop fuel result st
  | .term, st => parse_term fuel st
  | .exprLoop result, st => parse_expression_loop fuel result st
  | .expr, st => parse_expression fuel st

/-- The relation `Big c st r`: the procedure `c` entered in state `st` comes back with `r`, a value
and a state or an error of the source. One rule for each path through each procedure. -/
inductive Big : Call → State → Except Error (ℚ × State) → Prop
  | number {st : State} (h : st.current_token.type = .TOKEN_NUMBER) :
      Big .factor st (.ok (st.current_token.value, next_token st))
  | parenErr {st : State} {e : Error} (h : st.current_token.type = .TOKEN_LPAREN)
      (he : Big .expr (next_token st) (.error e)) : Big .factor st (.error e)
  | parenOpen {st st1 : State} {v : ℚ} (h : st.current_token.type = .TOKEN_LPAREN)
      (he : Big .expr (next_token st) (.ok (v, st1)))
      (h1 : st1.current_token.type ≠ .TOKEN_RPAREN) : Big .factor st (.error .expectedClosingParen)
  | paren {st st1 : State} {v : ℚ} (h : st.current_token.type = .TOKEN_LPAREN)
      (he : Big .expr (next_token st) (.ok (v, st1)))
      (h1 : st1.current_token.type = .TOKEN_RPAREN) : Big .factor st (.ok (v, next_token st1))
  | unexpected {st : State} (h : st.current_token.type ≠ .TOKEN_NUMBER)
      (h1 : st.current_token.type ≠ .TOKEN_LPAREN) : Big .factor st (.error .unexpectedToken)
  | mulErr {st : State} {acc : ℚ} {e : Error} (h : st.current_token.type = .TOKEN_MULTIPLY)
      (hf : Big .factor (next_token st) (.error e)) : Big (.termLoop acc) st (.error e)
  | mul {st st1 : State} {acc v : ℚ} {r : Except Error (ℚ × State)}
      (h : st.current_token.type = .TOKEN_MULTIPLY)
      (hf : Big .factor (next_token st) (.ok (v, st1)))
      (hl : Big (.termLoop (acc * v)) st1 r) : Big (.termLoop acc) st r
  | divErr {st : State} {acc : ℚ} {e : Error} (h : st.current_token.type = .TOKEN_DIVIDE)
      (hf : Big .factor (next_token st) (.error e)) : Big (.termLoop acc) st (.error e)
  | divZero {st st1 : State} {acc : ℚ} (h : st.current_token.type = .TOKEN_DIVIDE)
      (hf : Big .factor (next_token st) (.ok (0, st1))) :
      Big (.termLoop acc) st (.error .divisionByZero)
  | div {st st1 : State} {acc v : ℚ} {r : Except Error (ℚ × State)}
      (h : st.current_token.type = .TOKEN_DIVIDE)
      (hf : Big .factor (next_token st) (.ok (v, st1))) (hv : v ≠ 0)
      (hl : Big (.termLoop (acc / v)) st1 r) : Big (.termLoop acc) st r
  | termDone {st : State} {acc : ℚ} (h : st.current_token.type ≠ .TOKEN_MULTIPLY)
      (h1 : st.current_token.type ≠ .TOKEN_DIVIDE) : Big (.termLoop acc) st (.ok (acc, st))
  | termErr {st : State} {e : Error} (hf : Big .factor st (.error e)) : Big .term st (.error e)
  | term {st st1 : State} {v : ℚ} {r : Except Error (ℚ × State)}
      (hf : Big .factor st (.ok (v, st1))) (hl : Big (.termLoop v) st1 r) : Big .term st r
  | plusErr {st : State} {acc : ℚ} {e : Error} (h : st.current_token.type = .TOKEN_PLUS)
      (ht : Big .term (next_token st) (.error e)) : Big (.exprLoop acc) st (.error e)
  | plus {st st1 : State} {acc v : ℚ} {r : Except Error (ℚ × State)}
      (h : st.current_token.type = .TOKEN_PLUS)
      (ht : Big .term (next_token st) (.ok (v, st1)))
      (hl : Big (.exprLoop (acc + v)) st1 r) : Big (.exprLoop acc) st r
  | minusErr {st : State} {acc : ℚ} {e : Error} (h : st.current_token.type = .TOKEN_MINUS)
      (ht : Big .term (next_token st) (.error e)) : Big (.exprLoop acc) st (.error e)
  | minus {st st1 : State} {acc v : ℚ} {r : Except Error (ℚ × State)}
      (h : st.current_token.type = .TOKEN_MINUS)
      (ht : Big .term (next_token st) (.ok (v, st1)))
      (hl : Big (.exprLoop (acc - v)) st1 r) : Big (.exprLoop acc) st r
  | exprDone {st : State} {acc : ℚ} (h : st.current_token.type ≠ .TOKEN_PLUS)
      (h1 : st.current_token.type ≠ .TOKEN_MINUS) : Big (.exprLoop acc) st (.ok (acc, st))
  | exprErr {st : State} {e : Error} (ht : Big .term st (.error e)) : Big .expr st (.error e)
  | expr {st st1 : State} {v : ℚ} {r : Except Error (ℚ × State)}
      (ht : Big .term st (.ok (v, st1))) (hl : Big (.exprLoop v) st1 r) : Big .expr st r

/-! ## Fuel: a measure of what is left to read -/

/-- What is left to read: the characters after the cursor, and the token held when it is an
operator, a parenthesis or a number. -/
def weight (st : State) : Nat :=
  (st.input.length - st.pos) +
    (if st.current_token.type ≠ .TOKEN_END ∧ st.current_token.type ≠ .TOKEN_INVALID then 1 else 0)

/-- The fuel that is enough for the procedure `c` entered in state `st`. -/
def bound : Call → State → Nat
  | .factor, st => 3 * weight st + 1
  | .termLoop _, st => 3 * weight st + 1
  | .term, st => 3 * weight st + 2
  | .exprLoop _, st => 3 * weight st + 1
  | .expr, st => 3 * weight st + 3

/-- The first state of `eval`: the cursor at the start of the line and the first token fetched. -/
def startState (g : State) (line : List Char) : State :=
  next_token { g with input := line, pos := 0 }

/-- What `eval` makes of the outcome of `parse_expression`. -/
def finish : Except Error (ℚ × State) → Except Error ℚ
  | .error e => .error e
  | .ok (result, st) =>
    if st.current_token.type ≠ .TOKEN_END then .error .unexpectedTokenAfterExpression
    else .ok result

/-! ### A text put in front of the line -/

/-- The state `st` seen from a line that has `p` in front. -/
def shift (p : List Char) (st : State) : State :=
  ⟨p ++ st.input, p.length + st.pos, st.current_token⟩

/-! ### A text put behind the line -/

/-- A text the number loop stops at: it is empty or starts with a character that is neither a
digit nor `.`. -/
def Stops (suf : List Char) : Prop :=
  ∀ c ∈ suf.head?, isdigit c = false ∧ c ≠ '.'

/-- The state `st` of a run on a line, seen from the line with `suf` behind it: a state that
holds `End` becomes the state that holds the first token of `suf`. -/
def extend (suf : List Char) (st : State) : State :=
  if st.current_token.type = .TOKEN_END then
    ⟨st.input ++ suf, st.input.length + (lexList suf).2, (lexList suf).1⟩
  else ⟨st.input ++ suf, st.pos, st.current_token⟩

/-- The states of a run on the line `e`: the cursor is within the line. -/
def OnLine (e : List Char) (st : State) : Prop :=
  st.input = e ∧ st.pos ≤ e.length

/-! ### States by the text read and the text left -/

/-- The state after `next_token` when `p` was read before and `s` was left. -/
def lexState (p s : List Char) : State :=
  ⟨p ++ s, p.length + (lexList s).2, (lexList s).1⟩

/-! ## Number literals -/

/-- A number literal: a text of digits with at most one `.`, not empty. -/
def IsNumberLiteral (a : List Char) : Prop :=
  a ≠ [] ∧ (∀ c ∈ a, isdigit c = true ∨ c = '.') ∧ a.count '.' ≤ 1

instance instDecidableIsNumberLiteral (a : List Char) : Decidable (IsNumberLiteral a) :=
  inferInstanceAs (Decidable (a ≠ [] ∧ (∀ c ∈ a, isdigit c = true ∨ c = '.') ∧ a.count '.' ≤ 1))

/-- The value the tokenizer gives the literal `a`: the value of the token it reads from a line
that holds `a` alone. -/
def numberValue (a : List Char) : ℚ :=
  (get_next_token ⟨a, 0, ⟨.TOKEN_END, 0⟩⟩).1.value

/-! ## Precedence and associativity -/

/-- The four binary operators. -/
inductive Op where
  | plus
  | minus
  | times
  | over
  deriving DecidableEq, Repr

/-- The character of an operator. -/
def Op.char : Op → Char
  | .plus => '+'
  | .minus => '-'
  | .times => '*'
  | .over => '/'

/-- The operation of an operator, in ordinary arithmetic. -/
def Op.apply : Op → ℚ → ℚ → ℚ
  | .plus, x, y => x + y
  | .minus, x, y => x - y
  | .times, x, y => x * y
  | .over, x, y => x / y

/-- The text `op1 n1 ... opk nk` of the operators and literals that follow the first literal of
a chain. -/
def chainTail : List (Op × List Char) → List Char
  | [] => []
  | x :: rest => x.1.char :: (x.2 ++ chainTail rest)

/-- The text `n0 op1 n1 ... opk nk` of a chain. -/
def chainText (n0 : List Char) (rest : List (Op × List Char)) : List Char :=
  n0 ++ chainTail rest

/-- The left fold `((v0 op1 n1) op2 n2) ... opk nk`. -/
def chainValue (v0 : ℚ) (rest : List (Op × List Char)) : ℚ :=
  rest.foldl (fun acc x => x.1.apply acc (numberValue x.2)) v0

/-! ## The value of a literal -/

/-- The natural number a text of digits denotes. -/
def digitsNat (ds : List Char) : Nat :=
  ds.foldl (fun n c => n * 10 + (c.toNat - 48)) 0

/-- The decimal number written `I.F`: the integer denoted by the digits of `I` followed by
those of `F`, divided by ten to the power of the length of `F`. -/
def decimalValue (I F : List Char) : ℚ :=
  (digitsNat (I ++ F) : ℚ) / 10 ^ F.length

/-- One digit read by the number loop, on `decimal_point`:
`if (decimal_point) decimal_point *= 10;`. -/
def pointStep (decimal_point : Int) : Int :=
  if decimal_point ≠ 0 then wrap32 (decimal_point * 10) else decimal_point

/-- The variable `decimal_point` after the `.` and `k` digits behind it. -/
def pointAfter (k : Nat) : Int :=
  pointStep^[k] 1

/-- The variable `token.value` after the digits `ds`, from `v`. -/
def valueAfter (v : ℚ) (ds : List Char) : ℚ :=
  ds.foldl (fun acc c => acc * 10 + digitVal c) v

/-! ## Expression trees -/

/-- A non-negative decimal literal: the digits before the point and, when there is a point, the
digits behind it. -/
structure Literal where
  whole : List Char
  frac : Option (List Char)
  deriving DecidableEq, Repr

/-- The text of a literal. -/
def Literal.text (l : Literal) : List Char :=
  match l.frac with
  | none => l.whole
  | some F => l.whole ++ '.' :: F

/-- The decimal number a literal denotes. -/
def Literal.value (l : Literal) : ℚ :=
  decimalValue l.whole (l.frac.getD [])

/-- A literal is made of digits, and has a digit before the point or a point. -/
def Literal.Valid (l : Literal) : Prop :=
  (∀ c ∈ l.whole, isdigit c = true) ∧ (∀ c ∈ l.frac.getD [], isdigit c = true) ∧
    (l.whole ≠ [] ∨ l.frac ≠ none)

/-- A literal with at most nine digits behind the point. -/
def Literal.Short (l : Literal) : Prop :=
  (l.frac.getD []).length ≤ 9

/-- An expression tree: literals, the binary operators `+`, `-` and `*`, and parentheses. -/
inductive Expr where
  | lit (l : Literal)
  | add (a b : Expr)
  | sub (a b : Expr)
  | mul (a b : Expr)
  | paren (a : Expr)
  deriving Repr

/-- The value of a tree under ordinary arithmetic. -/
def Expr.value : Expr → ℚ
  | .lit l => l.value
  | .add a b => a.value + b.value
  | .sub a b => a.value - b.value
  | .mul a b => a.value * b.value
  | .paren a => a.value

/-- The text `s`, in parentheses when `b` holds. -/
def parenIf (b : Bool) (s : List Char) : List Char :=
  if b then '(' :: (s ++ [')']) else s

/-- The infix text of a tree in a place of the grammar: level 0 is an expression, level 1 a term
(the right operand of `+` and `-`, the left operand of `*`), level 2 a factor (the right operand
of `*`). Parentheses are written where the grouping of the tree is not the one precedence and
left-associativity give, and for the `paren` nodes. -/
def Expr.render : Nat → Expr → List Char
  | _, .lit l => l.text
  | lvl, .add a b => parenIf (decide (0 < lvl)) (a.render 0 ++ '+' :: b.render 1)
  | lvl, .sub a b => parenIf (decide (0 < lvl)) (a.render 0 ++ '-' :: b.render 1)
  | lvl, .mul a b => parenIf (decide (1 < lvl)) (a.render 1 ++ '*' :: b.render 2)
  | _, .paren a => '(' :: (a.render 0 ++ [')'])

/-- Every literal of the tree is valid and short. -/
def Expr.Valid : Expr → Prop
  | .lit l => l.Valid ∧ l.Short
  | .add a b => a.Valid ∧ b.Valid
  | .sub a b => a.Valid ∧ b.Valid
  | .mul a b => a.Valid ∧ b.Valid
  | .paren a => a.Valid

/-- The text `s` is read by `parse_factor` as a factor of value `v`. -/
def FactorText (s : List Char) (v : ℚ) : Prop :=
  ∀ (p rest : List Char), Stops rest →
    Big .factor (lexState p (s ++ rest)) (.ok (v, lexState (p ++ s) rest))

/-- The text `s` is read by `parse_term` as the start of a term, of value `v`: the run goes on as
the loop of `parse_term` entered behind `s` with `v`. -/
def TermText (s : List Char) (v : ℚ) : Prop :=
  ∀ (p rest : List Char) (r : Except Error (ℚ × State)), Stops rest →
    Big (.termLoop v) (lexState (p ++ s) rest) r → Big .term (lexState p (s ++ rest)) r

/-- The text `s` is read by `parse_expression` as the start of an expression, of value `v`, when
no `*` or `/` follows: the run goes on as the loop of `parse_expression` entered behind `s`
with `v`. -/
def ExprText (s : List Char) (v : ℚ) : Prop :=
  ∀ (p rest : List Char) (r : Except Error (ℚ × State)), Stops rest →
    (lexList rest).1.type ≠ .TOKEN_MULTIPLY → (lexList rest).1.type ≠ .TOKEN_DIVIDE →
    Big (.exprLoop v) (lexState (p ++ s) rest) r → Big .expr (lexState p (s ++ rest)) r

/-! ## Termination -/

/-- An outcome of the source: a value, or one of the four errors it reports. -/
def IsOutcome {α : Type} : Except Error α → Prop
  | .ok _ => True
  | .error e => e ≠ .fuelExhausted

/-! ## Characters the tokenizer knows -/

/-- The characters the tokenizer makes something of: whitespace, digits, `.`, the four
operators and the two parentheses. -/
def Classified (c : Char) : Prop :=
  isspace c = true ∨ isdigit c = true ∨ c = '.' ∨ c = '+' ∨ c = '-' ∨ c = '*' ∨ c = '/' ∨
    c = '(' ∨ c = ')'

instance instDecidableClassified (c : Char) : Decidable (Classified c) :=
  inferInstanceAs (Decidable (isspace c = true ∨ isdigit c = true ∨ c = '.' ∨ c = '+' ∨
    c = '-' ∨ c = '*' ∨ c = '/' ∨ c = '(' ∨ c = ')'))

/-- The state after `get_next_token`. -/
def cursorAfter (st : State) : State :=
  (get_next_token st).2

/-- What holds of the states of a run on the line `line`: every character before the cursor is
one the tokenizer knows, the token `End` is held only at the end of the line, and the tokens
`LParen` and `Divide` are held only when the line has a `(` and a `/`. -/
def Tracked (line : List Char) (st : State) : Prop :=
  st.input = line ∧ (∀ c ∈ line.take st.pos, Classified c) ∧
    (st.current_token.type = .TOKEN_END → line.length ≤ st.pos) ∧
    (st.current_token.type = .TOKEN_LPAREN → '(' ∈ line) ∧
    (st.current_token.type = .TOKEN_DIVIDE → '/' ∈ line)

/-! ## Whitespace around a line -/

/-- An outcome with its state mapped by `φ`. -/
def mapState (φ : State → State) : Except Error (ℚ × State) → Except Error (ℚ × State)
  | .ok (v, st) => .ok (v, φ st)
  | .error e => .error e

/-- The state `st` of a run on a line, seen from the line with `w1` in front and `w2` behind:
the cursor moves by the length of `w1`, and a state that holds `End` at the end of the line has
its cursor at the end of the longer line. -/
def pad (w1 w2 : List Char) (st : State) : State :=
  ⟨w1 ++ (st.input ++ w2),
    w1.length + (if st.current_token.type = .TOKEN_END ∧ st.input.length ≤ st.pos
      then st.input.length + w2.length else st.pos),
    st.current_token⟩

/-! ## The embedding over any arithmetic of `double` -/

/-- The arithmetic of the C type `double`, as far as the source uses it, on a type `V` of
values: the conversion of an `int` (the source's `token.value * 10`,
`token.value /= decimal_point` and `divisor == 0` convert their `int` operand first), the four
operations, and the comparison `==`. The arithmetic of IEEE 754 is one instance (`Binary64`),
the exact arithmetic of `ℚ` another. -/
class Arith (V : Type) where
  /-- The conversion of an `int` to a `double`. -/
  ofInt : Int → V
  /-- The sum `x + y`. -/
  add : V → V → V
  /-- The difference `x - y`. -/
  sub : V → V → V
  /-- The product `x * y`. -/
  mul : V → V → V
  /-- The quotient `x / y`. -/
  div : V → V → V
  /-- The comparison `x == y`. -/
  eq : V → V → Bool

namespace Arith

/-- The struct `Token` of the source, with values in `V`. -/
structure Token (V : Type) where
  type : TokenType
  value : V
  deriving DecidableEq, Repr

/-- The module-level variables `input`, `pos` and `current_token`, with values in `V`. -/
structure State (V : Type) where
  input : List Char
  pos : Nat
  current_token : Token V
  deriving DecidableEq, Repr

section
variable {V : Type} [Arith V]

/-- The loop `while (isdigit(input[pos]) || (input[pos] == '.' && !decimal_point))`
of the number branch, on the variables `pos`, `token.value` and `decimal_point`:
`token.value = token.value * 10 + (input[pos] - '0')` in the arithmetic of `V`. -/
def scan_number : Nat → List Char → Nat → V → Int → Nat × V × Int
  | 0, _, pos, value, decimal_point => (pos, value, decimal_point)
  | fuel + 1, input, pos, value, decimal_point =>
    if isdigit (charAt input pos) = true ∨ (charAt input pos = '.' ∧ decimal_point = 0) then
      if charAt input pos = '.' then
        scan_number fuel input (pos + 1) value 1
      else
        scan_number fuel input (pos + 1)
          (add (mul value (ofInt 10)) (ofInt (((charAt input pos).toNat : Int) - 48)))
          (if decimal_point ≠ 0 then wrap32 (decimal_point * 10) else decimal_point)
    else (pos, value, decimal_point)

/-- The function `get_next_token`: the token read at the cursor, and the state with the
cursor moved. -/
def get_next_token (st : State V) : Token V × State V :=
  let pos := skip_spaces (st.input.length - st.pos) st.input st.pos
  let c := charAt st.input pos
  if c = NUL then
    (⟨.TOKEN_END, ofInt 0⟩, { st with pos := pos })
  else if isdigit c = true ∨ c = '.' then
    let r := scan_number (st.input.length - pos) st.input pos (ofInt 0 : V) 0
    let value := if r.2.2 ≠ 0 then div r.2.1 (ofInt r.2.2) else r.2.1
    (⟨.TOKEN_NUMBER, value⟩, { st with pos := r.1 })
  else if c = '+' then (⟨.TOKEN_PLUS, ofInt 0⟩, { st with pos := pos + 1 })
  else if c = '-' then (⟨.TOKEN_MINUS, ofInt 0⟩, { st with pos := pos + 1 })
  else if c = '*' then (⟨.TOKEN_MULTIPLY, ofInt 0⟩, { st with pos := pos + 1 })
  else if c = '/' then (⟨.TOKEN_DIVIDE, ofInt 0⟩, { st with pos := pos + 1 })
  else if c = '(' then (⟨.TOKEN_LPAREN, ofInt 0⟩, { st with pos := pos + 1 })
  else if c = ')' then (⟨.TOKEN_RPAREN, ofInt 0⟩, { st with pos := pos + 1 })
  else (⟨.TOKEN_INVALID, ofInt 0⟩, { st with pos := pos })

/-- The function `next_token`: `current_token = get_next_token();`. -/
def next_token (st : State V) : State V :=
  { (get_next_token st).2 with current_token := (get_next_token st).1 }

mutual

/-- The function `parse_factor`: a number, or a parenthesised expression. -/
def parse_factor : Nat → State V → Except Error (V × State V)
  | 0, _ => .error .fuelExhausted
  | fuel + 1, st =>
    if st.current_token.type = .TOKEN_NUMBER then
      .ok (st.current_token.value, next_token st)
    else if st.current_token.type = .TOKEN_LPAREN then
      match parse_expression fuel (next_token st) with
      | .error e => .error e
      | .ok (result, st1) =>
        if st1.current_token.type ≠ .TOKEN_RPAREN then .error .expectedClosingParen
        else .ok (result, next_token st1)
    else .error .unexpectedToken

/-- The `while` loop of `parse_term`, on the variable `result`; the test `divisor == 0` is the
comparison of `V` with the converted `int` 0. -/
def parse_term_loop : Nat → V → State V → Except Error (V × State V)
  | 0, _, _ => .error .fuelExhausted
  | fuel + 1, result, st =>
    if st.current_token.type = .TOKEN_MULTIPLY then
      match parse_factor fuel (next_token st) with
      | .error e => .error e
      | .ok (v, st1) => parse_term_loop fuel (mul result v) st1
    else if st.current_token.type = .TOKEN_DIVIDE then
      match parse_factor fuel (next_token st) with
      | .error e => .error e
      | .ok (divisor, st1) =>
        if eq divisor (ofInt 0) = true then .error .divisionByZero
        else parse_term_loop fuel (div result divisor) st1
    else .ok (result, st)

/-- The function `parse_term`: factors joined by `*` and `/`. -/
def parse_term : Nat → State V → Except Error (V × State V)
  | 0, _ => .error .fuelExhausted
  | fuel + 1, st =>
    match parse_factor fuel st with
    | .error e => .error e
    | .ok (result, st1) => parse_term_loop fuel result st1

/-- The `while` loop of `parse_expression`, on the variable `result`. -/
def parse_expression_loop : Nat → V → State V → Except Error (V × State V)
  | 0, _, _ => .error .fuelExhausted
  | fuel + 1, result, st =>
    if st.current_token.type = .TOKEN_PLUS then
      match parse_term fuel (next_token st) with
      | .error e => .error e
      | .ok (v, st1) => parse_expression_loop fuel (add result v) st1
    else if st.current_token.type = .TOKEN_MINUS then
      match parse_term fuel (next_token st) with
      | .error e => .error e
      | .ok (v, st1) => parse_expression_loop fuel (sub result v) st1
    else .ok (result, st)

/-- The function `parse_expression`: terms joined by `+` and `-`. -/
def parse_expression : Nat → State V → Except Error (V × State V)
  | 0, _ => .error .fuelExhausted
  | fuel + 1, st =>
    match parse_term fuel st with
    | .error e => .error e
    | .ok (result, st1) => parse_expression_loop fuel result st1

end

/-- The function `eval`, started with the module-level variables at `g`: point the
tokenizer at `line`, fetch the first token, parse an expression and require the
end of the line. The fuel is that of the embedding above, `evalFuel line`. -/
def eval (g : State V) (line : List Char) : Except Error V :=
  match parse_expression (evalFuel line) (next_token { g with input := line, pos := 0 }) with
  | .error e => .error e
  | .ok (result, st) =>
    if st.current_token.type ≠ .TOKEN_END then .error .unexpectedTokenAfterExpression
    else .ok result

/-- The number loop run over a list of characters: the number of characters it consumes, and the
final `token.value` and `decimal_point`. -/
def scanList : List Char → V → Int → Nat × V × Int
  | [], value, decimal_point => (0, value, decimal_point)
  | c :: r, value, decimal_point =>
    if isdigit c = true ∨ (c = '.' ∧ decimal_point = 0) then
      if c = '.' then
        ((scanList r value 1).1 + 1, (scanList r value 1).2)
      else
        ((scanList r (add (mul value (ofInt 10)) (ofInt ((c.toNat : Int) - 48)))
            (if decimal_point ≠ 0 then wrap32 (decimal_point * 10) else decimal_point)).1 + 1,
         (scanList r (add (mul value (ofInt 10)) (ofInt ((c.toNat : Int) - 48)))
            (if decimal_point ≠ 0 then wrap32 (decimal_point * 10) else decimal_point)).2)
    else (0, value, decimal_point)

/-- The five procedures of the parser: the three functions and the two `while` loops, a loop
together with the value of `result` it is entered with. -/
inductive Call (V : Type) where
  | factor
  | termLoop (result : V)
  | term
  | exprLoop (result : V)
  | expr

/-- The procedure `c` run with the given fuel. -/
def run (fuel : Nat) : Call V → State V → Except Error (V × State V)
  | .factor, st => parse_factor fuel st
  | .termLoop result, st => parse_term_loop fuel result st
  | .term, st => parse_term fuel st
  | .exprLoop result, st => parse_expression_loop fuel result st
  | .expr, st => parse_expression fuel st

/-- The relation `Big c st r`: the procedure `c` entered in state `st` comes back with `r`, a value
and a state or an error of the source. One rule for each path through each procedure. -/
inductive Big : Call V → State V → Except Error (V × State V) → Prop
  | number {st : State V} (h : st.current_token.type = .TOKEN_NUMBER) :
      Big .factor st (.ok (st.current_token.value, next_token st))
  | parenErr {st : State V} {e : Error} (h : st.current_token.type = .TOKEN_LPAREN)
      (he : Big .expr (next_token st) (.error e)) : Big .factor st (.error e)
  | parenOpen {st st1 : State V} {v : V} (h : st.current_token.type = .TOKEN_LPAREN)
      (he : Big .expr (next_token st) (.ok (v, st1)))
      (h1 : st1.current_token.type ≠ .TOKEN_RPAREN) : Big .factor st (.error .expectedClosingParen)
  | paren {st st1 : State V} {v : V} (h : st.current_token.type = .TOKEN_LPAREN)
      (he : Big .expr (next_token st) (.ok (v, st1)))
      (h1 : st1.current_token.type = .TOKEN_RPAREN) : Big .factor st (.ok (v, next_token st1))
  | unexpected {st : State V} (h : st.current_token.type ≠ .TOKEN_NUMBER)
      (h1 : st.current_token.type ≠ .TOKEN_LPAREN) : Big .factor st (.error .unexpectedToken)
  | mulErr {st : State V} {acc : V} {e : Error} (h : st.current_token.type = .TOKEN_MULTIPLY)
      (hf : Big .factor (next_token st) (.error e)) : Big (.termLoop acc) st (.error e)
  | mul {st st1 : State V} {acc v : V} {r : Except Error (V × State V)}
      (h : st.current_token.type = .TOKEN_MULTIPLY)
      (hf : Big .factor (next_token st) (.ok (v, st1)))
      (hl : Big (.termLoop (mul acc v)) st1 r) : Big (.termLoop acc) st r
  | divErr {st : State V} {acc : V} {e : Error} (h : st.current_token.type = .TOKEN_DIVIDE)
      (hf : Big .factor (next_token st) (.error e)) : Big (.termLoop acc) st (.error e)
  | divZero {st st1 : State V} {acc v : V} (h : st.current_token.type = .TOKEN_DIVIDE)
      (hf : Big .factor (next_token st) (.ok (v, st1))) (hv : eq v (ofInt 0) = true) :
      Big (.termLoop acc) st (.error .divisionByZero)
  | div {st st1 : State V} {acc v : V} {r : Except Error (V × State V)}
      (h : st.current_token.type = .TOKEN_DIVIDE)
      (hf : Big .factor (next_token st) (.ok (v, st1))) (hv : ¬ eq v (ofInt 0) = true)
      (hl : Big (.termLoop (div acc v)) st1 r) : Big (.termLoop acc) st r
  | termDone {st : State V} {acc : V} (h : st.current_token.type ≠ .TOKEN_MULTIPLY)
      (h1 : st.current_token.type ≠ .TOKEN_DIVIDE) : Big (.termLoop acc) st (.ok (acc, st))
  | termErr {st : State V} {e : Error} (hf : Big .factor st (.error e)) : Big .term st (.error e)
  | term {st st1 : State V} {v : V} {r : Except Error (V × State V)}
      (hf : Big .factor st (.ok (v, st1))) (hl : Big (.termLoop v) st1 r) : Big .term st r
  | plusErr {st : State V} {acc : V} {e : Error} (h : st.current_token.type = .TOKEN_PLUS)
      (ht : Big .term (next_token st) (.error e)) : Big (.exprLoop acc) st (.error e)
  | plus {st st1 : State V} {acc v : V} {r : Except Error (V × State V)}
      (h : st.current_token.type = .TOKEN_PLUS)
      (ht : Big .term (next_token st) (.ok (v, st1)))
      (hl : Big (.exprLoop (add acc v)) st1 r) : Big (.exprLoop acc) st r
  | minusErr {st : State V} {acc : V} {e : Error} (h : st.current_token.type = .TOKEN_MINUS)
      (ht : Big .term (next_token st) (.error e)) : Big (.exprLoop acc) st (.error e)
  | minus {st st1 : State V} {acc v : V} {r : Except Error (V × State V)}
      (h : st.current_token.type = .TOKEN_MINUS)
      (ht : Big .term (next_token st) (.ok (v, st1)))
      (hl : Big (.exprLoop (sub acc v)) st1 r) : Big (.exprLoop acc) st r
  | exprDone {st : State V} {acc : V} (h : st.current_token.type ≠ .TOKEN_PLUS)
      (h1 : st.current_token.type ≠ .TOKEN_MINUS) : Big (.exprLoop acc) st (.ok (acc, st))
  | exprErr {st : State V} {e : Error} (ht : Big .term st (.error e)) : Big .expr st (.error e)
  | expr {st st1 : State V} {v : V} {r : Except Error (V × State V)}
      (ht : Big .term st (.ok (v, st1))) (hl : Big (.exprLoop v) st1 r) : Big .expr st r

/-- What is left to read: the characters after the cursor, and the token held when it is an
operator, a parenthesis or a number. -/
def weight (st : State V) : Nat :=
  (st.input.length - st.pos) +
    (if st.current_token.type ≠ .TOKEN_END ∧ st.current_token.type ≠ .TOKEN_INVALID then 1 else 0)

/-- The fuel that is enough for the procedure `c` entered in state `st`. -/
def bound : Call V → State V → Nat
  | .factor, st => 3 * weight st + 1
  | .termLoop _, st => 3 * weight st + 1
  | .term, st => 3 * weight st + 2
  | .exprLoop _, st => 3 * weight st + 1
  | .expr, st => 3 * weight st + 3

/-- The first state of `eval`: the cursor at the start of the line and the first token fetched. -/
def startState (g : State V) (line : List Char) : State V :=
  next_token { g with input := line, pos := 0 }

/-- What `eval` makes of the outcome of `parse_expression`. -/
def finish : Except Error (V × State V) → Except Error V
  | .error e => .error e
  | .ok (result, st) =>
    if st.current_token.type ≠ .TOKEN_END then .error .unexpectedTokenAfterExpression
    else .ok result

/-- The state `st` seen from a line that has `p` in front. -/
def shift (p : List Char) (st : State V) : State V :=
  ⟨p ++ st.input, p.length + st.pos, st.current_token⟩

/-- The states of a run on the line `e`: the cursor is within the line. -/
def OnLine (e : List Char) (st : State V) : Prop :=
  st.input = e ∧ st.pos ≤ e.length

end

section
variable (V : Type) [Arith V]

/-- The module-level variables at program start, zero-initialised. -/
def initState : State V :=
  ⟨[], 0, ⟨.TOKEN_NUMBER, ofInt 0⟩⟩

/-- The tokenizer run over the characters left: the token, and the number of characters the
cursor moves by. It is `get_next_token` with `input + pos` for the input
(`get_next_token_eq_any`). -/
def lexList (s : List Char) : Token V × Nat :=
  let w := skipList s
  let c := (s.drop w).headD NUL
  if c = NUL then (⟨.TOKEN_END, ofInt 0⟩, w)
  else if isdigit c = true ∨ c = '.' then
    let r := scanList (s.drop w) (ofInt 0 : V) 0
    (⟨.TOKEN_NUMBER, if r.2.2 ≠ 0 then div r.2.1 (ofInt r.2.2) else r.2.1⟩, w + r.1)
  else if c = '+' then (⟨.TOKEN_PLUS, ofInt 0⟩, w + 1)
  else if c = '-' then (⟨.TOKEN_MINUS, ofInt 0⟩, w + 1)
  else if c = '*' then (⟨.TOKEN_MULTIPLY, ofInt 0⟩, w + 1)
  else if c = '/' then (⟨.TOKEN_DIVIDE, ofInt 0⟩, w + 1)
  else if c = '(' then (⟨.TOKEN_LPAREN, ofInt 0⟩, w + 1)
  else if c = ')' then (⟨.TOKEN_RPAREN, ofInt 0⟩, w + 1)
  else (⟨.TOKEN_INVALID, ofInt 0⟩, w)

/-- The state after `next_token` when `p` was read before and `s` was left. -/
def lexState (p s : List Char) : State V :=
  ⟨p ++ s, p.length + (lexList V s).2, (lexList V s).1⟩

end

/-- The state `st` of a run on a line, seen from the line with `suf` behind it: a state that
holds `End` becomes the state that holds the first token of `suf`. -/
def extend {V : Type} [Arith V] (suf : List Char) (st : State V) : State V :=
  if st.current_token.type = .TOKEN_END then
    ⟨st.input ++ suf, st.input.length + (lexList V suf).2, (lexList V suf).1⟩
  else ⟨st.input ++ suf, st.pos, st.current_token⟩

end Arith

/-- The exact arithmetic of the rationals. -/
instance ratArith : Arith ℚ where
  ofInt i := (i : ℚ)
  add x y := x + y
  sub x y := x - y
  mul x y := x * y
  div x y := x / y
  eq x y := decide (x = y)

/-! ## The arithmetic of IEEE 754 double precision -/

/-- A `double` of IEEE 754 (binary64): a finite number, given by its sign and its magnitude (a
rational `mag ≥ 0`; the sign tells `-0` from `+0`), an infinity, or a NaN. -/
inductive Binary64 where
  | finite (neg : Bool) (mag : ℚ)
  | inf (neg : Bool)
  | nan
  deriving DecidableEq

namespace Binary64

/-- The power `2 ^ e`, for an integer `e`. -/
def pow2 (e : Int) : ℚ :=
  if 0 ≤ e then ((2 ^ e.toNat : Nat) : ℚ) else 1 / ((2 ^ (-e).toNat : Nat) : ℚ)

/-- The number of binary digits of `n` (`fuel` bounds the number of halvings; `n` itself is
enough). -/
def bitLength : Nat → Nat → Nat
  | 0, _ => 0
  | fuel + 1, n => if n = 0 then 0 else bitLength fuel (n / 2) + 1

/-- The exponent of a rational `q > 0`: the `e` with `2 ^ e ≤ q < 2 ^ (e + 1)`. It is the
difference of the lengths of numerator and denominator, or one less. -/
def exponent (q : ℚ) : Int :=
  if pow2 ((bitLength q.num.toNat q.num.toNat : Int) - (bitLength q.den q.den : Int)) ≤ q then
    (bitLength q.num.toNat q.num.toNat : Int) - (bitLength q.den q.den : Int)
  else (bitLength q.num.toNat q.num.toNat : Int) - (bitLength q.den q.den : Int) - 1

/-- The integer nearest to `x ≥ 0`, and the even one of the two nearest when `x` lies half-way
between them. -/
def nearestEven (x : ℚ) : Nat :=
  if x - ((x.num.toNat / x.den : Nat) : ℚ) < 1 / 2 then x.num.toNat / x.den
  else if 1 / 2 < x - ((x.num.toNat / x.den : Nat) : ℚ) then x.num.toNat / x.den + 1
  else if (x.num.toNat / x.den) % 2 = 0 then x.num.toNat / x.den
  else x.num.toNat / x.den + 1

/-- Rounding to nearest, ties to even (the default rounding mode): the `double` of sign `neg`
for the magnitude `q ≥ 0`. The result has 53 significant bits at the exponent of `q`, and is a
multiple of `2 ^ -1074` below the exponent -1022 (subnormal numbers); a result of `2 ^ 1024` or
more is an infinity. -/
def round (neg : Bool) (q : ℚ) : Binary64 :=
  if q = 0 then .finite neg 0
  else if pow2 1024 ≤
      (nearestEven (q / pow2 (max (exponent q) (-1022) - 52)) : ℚ)
        * pow2 (max (exponent q) (-1022) - 52) then .inf neg
  else .finite neg ((nearestEven (q / pow2 (max (exponent q) (-1022) - 52)) : ℚ)
        * pow2 (max (exponent q) (-1022) - 52))

/-- The rational a finite `double` stands for. -/
def signed (neg : Bool) (mag : ℚ) : ℚ :=
  if neg = true then -mag else mag

/-- The `double` for the exact result `q` of an operation; `zneg` is the sign of the result
when `q` is 0. -/
def ofRat (q : ℚ) (zneg : Bool) : Binary64 :=
  if q = 0 then .finite zneg 0
  else if q < 0 then round true (-q)
  else round false q

/-- The conversion of an `int`. -/
def ofInt (i : Int) : Binary64 :=
  ofRat (i : ℚ) false

/-- The sum: an exact zero sum is `-0` only when both operands are `-0`. -/
def add : Binary64 → Binary64 → Binary64
  | .nan, _ => .nan
  | _, .nan => .nan
  | .inf s, .inf t => if s = t then .inf s else .nan
  | .inf s, .finite _ _ => .inf s
  | .finite _ _, .inf t => .inf t
  | .finite s a, .finite t b => ofRat (signed s a + signed t b) (s && t)

/-- The operand with its sign changed. -/
def neg : Binary64 → Binary64
  | .finite s a => .finite (!s) a
  | .inf s => .inf (!s)
  | .nan => .nan

/-- The difference `x - y`, which is `x + (-y)`. -/
def sub (x y : Binary64) : Binary64 :=
  add x (neg y)

/-- The product: the sign is the exclusive or of the signs. -/
def mul : Binary64 → Binary64 → Binary64
  | .nan, _ => .nan
  | _, .nan => .nan
  | .inf s, .inf t => .inf (s != t)
  | .inf s, .finite t b => if b = 0 then .nan else .inf (s != t)
  | .finite s a, .inf t => if a = 0 then .nan else .inf (s != t)
  | .finite s a, .finite t b => round (s != t) (a * b)

/-- The quotient: the sign is the exclusive or of the signs; a non-zero number divided by zero
is an infinity, `0 / 0` and the quotient of two infinities are NaN. -/
def div : Binary64 → Binary64 → Binary64
  | .nan, _ => .nan
  | _, .nan => .nan
  | .inf _, .inf _ => .nan
  | .inf s, .finite t _ => .inf (s != t)
  | .finite s _, .inf t => .finite (s != t) 0
  | .finite s a, .finite t b =>
    if b = 0 then (if a = 0 then .nan else .inf (s != t))
    else round (s != t) (a / b)

/-- The comparison `x == y`: of the numbers the operands stand for, so `-0 == +0`; a NaN
compares unequal to everything. -/
def eq : Binary64 → Binary64 → Bool
  | .finite s a, .finite t b => decide (signed s a = signed t b)
  | .inf s, .inf t => decide (s = t)
  | _, _ => false

end Binary64

/-- The arithmetic of IEEE 754 double precision. -/
instance binary64Arith : Arith Binary64 where
  ofInt := Binary64.ofInt
  add := Binary64.add
  sub := Binary64.sub
  mul := Binary64.mul
  div := Binary64.div
  eq := Binary64.eq

/-! ### The embedding over `ℚ` as an instance -/

/-- A state of the embedding over the arithmetic of `ℚ`, as a state of the first embedding. -/
def toState (st : Arith.State ℚ) : State :=
  ⟨st.input, st.pos, ⟨st.current_token.type, st.current_token.value⟩⟩

/-- An outcome of a procedure of the parser over the arithmetic of `ℚ`, as an outcome in the
first embedding. -/
def toOutcome : Except Error (ℚ × Arith.State ℚ) → Except Error (ℚ × State)
  | .error e => .error e
  | .ok (v, st) => .ok (v, toState st)

/-! # Theorems -/

/-! ## The tokenizer as a function of the characters left -/

theorem charAt_eq_headD (input : List Char) (pos : Nat) :
    charAt input pos = (input.drop pos).headD NUL := by
  simp [charAt, List.getD_eq_getElem?_getD, List.headD_eq_head?_getD, List.head?_drop]

theorem charAt_of_drop_nil {input : List Char} {pos : Nat} (h : input.drop pos = []) :
    charAt input pos = NUL := by
  rw [charAt_eq_headD, h]; rfl

theorem charAt_of_drop_cons {input : List Char} {pos : Nat} {c : Char} {r : List Char}
    (h : input.drop pos = c :: r) : charAt input pos = c := by
  rw [charAt_eq_headD, h]; rfl

theorem drop_succ_of_drop_cons {input : List Char} {pos : Nat} {c : Char} {r : List Char}
    (h : input.drop pos = c :: r) : input.drop (pos + 1) = r := by
  have : input.drop (pos + 1) = (input.drop pos).drop 1 := by
    rw [List.drop_drop, Nat.add_comm]
  rw [this, h]; rfl

theorem skip_spaces_eq (s : List Char) : ∀ (input : List Char) (pos fuel : Nat),
    input.drop pos = s → s.length ≤ fuel → skip_spaces fuel input pos = pos + skipList s := by
  induction s with
  | nil =>
    intro input pos fuel h _
    cases fuel with
    | zero => simp [skip_spaces, skipList]
    | succ f => simp [skip_spaces, skipList, charAt_of_drop_nil h]
  | cons c r ih =>
    intro input pos fuel h hf
    cases fuel with
    | zero => simp at hf
    | succ f =>
      have hr := drop_succ_of_drop_cons h
      simp only [List.length_cons, Nat.add_le_add_iff_right] at hf
      simp only [skip_spaces, skipList, charAt_of_drop_cons h]
      split
      · rw [ih input (pos + 1) f hr hf]; omega
      · rfl

theorem scan_number_eq (s : List Char) : ∀ (input : List Char) (pos fuel : Nat) (v : ℚ) (dp : Int),
    input.drop pos = s → s.length ≤ fuel →
    scan_number fuel input pos v dp = (pos + (scanList s v dp).1, (scanList s v dp).2) := by
  induction s with
  | nil =>
    intro input pos fuel v dp h _
    have hc := charAt_of_drop_nil h
    cases fuel with
    | zero => simp [scan_number, scanList]
    | succ f =>
      have h1 : isdigit NUL = false := by decide
      have h2 : NUL ≠ '.' := by decide
      simp [scan_number, scanList, hc, h1, h2]
  | cons c r ih =>
    intro input pos fuel v dp h hf
    cases fuel with
    | zero => simp at hf
    | succ f =>
      have hr := drop_succ_of_drop_cons h
      simp only [List.length_cons, Nat.add_le_add_iff_right] at hf
      simp only [scan_number, scanList, charAt_of_drop_cons h]
      split
      · split
        · rw [ih input (pos + 1) f _ _ hr hf]; simp; omega
        · rw [ih input (pos + 1) f _ _ hr hf]; simp; omega
      · rfl

theorem skipList_le (s : List Char) : skipList s ≤ s.length := by
  induction s with
  | nil => simp [skipList]
  | cons c r ih =>
    simp only [skipList, List.length_cons]
    split <;> omega

theorem scanList_le (s : List Char) : ∀ (v : ℚ) (dp : Int), (scanList s v dp).1 ≤ s.length := by
  induction s with
  | nil => simp [scanList]
  | cons c r ih =>
    intro v dp
    simp only [scanList, List.length_cons]
    split
    · split
      · have := ih v 1; simp only []; omega
      · have := ih (v * 10 + digitVal c) (if dp ≠ 0 then wrap32 (dp * 10) else dp)
        simp only []; omega
    · simp

theorem get_next_token_eq (st : State) :
    get_next_token st =
      ((lexList (st.input.drop st.pos)).1,
        { st with pos := st.pos + (lexList (st.input.drop st.pos)).2 }) := by
  have hlen : (st.input.drop st.pos).length ≤ st.input.length - st.pos := by simp
  have hskip := skip_spaces_eq (st.input.drop st.pos) st.input st.pos _ rfl hlen
  have hw := skipList_le (st.input.drop st.pos)
  have hdrop : st.input.drop (st.pos + skipList (st.input.drop st.pos))
      = (st.input.drop st.pos).drop (skipList (st.input.drop st.pos)) := by
    rw [List.drop_drop, Nat.add_comm]
  have hlen2 : ((st.input.drop st.pos).drop (skipList (st.input.drop st.pos))).length
      ≤ st.input.length - (st.pos + skipList (st.input.drop st.pos)) := by
    simp
  have hscan := scan_number_eq _ st.input (st.pos + skipList (st.input.drop st.pos)) _ 0 0
    hdrop hlen2
  simp only [get_next_token, lexList, hskip, hscan, charAt_eq_headD, hdrop]
  repeat' split
  all_goals simp [Nat.add_assoc]

/-- The state after `next_token`, by the characters left. -/
theorem next_token_eq (st : State) :
    next_token st =
      ⟨st.input, st.pos + (lexList (st.input.drop st.pos)).2,
        (lexList (st.input.drop st.pos)).1⟩ := by
  simp [next_token, get_next_token_eq]

theorem next_token_input (st : State) : (next_token st).input = st.input := by
  rw [next_token_eq]

/-- The token fetched does not depend on the token held before. -/
theorem next_token_congr (input : List Char) (pos : Nat) (t t' : Token) :
    next_token ⟨input, pos, t⟩ = next_token ⟨input, pos, t'⟩ := by
  simp [next_token_eq]

/-! ## The runs of the parser, without fuel -/

/-- A run that does not run out of fuel is a run of `Big`. -/
theorem big_of_run : ∀ (n : Nat) (c : Call) (st : State) (r : Except Error (ℚ × State)),
    run n c st = r → r ≠ .error .fuelExhausted → Big c st r := by
  intro n
  induction n with
  | zero =>
    intro c st r h hr
    cases c <;> simp [run, parse_factor, parse_term_loop, parse_term, parse_expression_loop,
      parse_expression] at h <;> exact absurd h.symm hr
  | succ n ih =>
    intro c st r h hr
    cases c with
    | factor =>
      simp only [run, parse_factor] at h
      by_cases h1 : st.current_token.type = .TOKEN_NUMBER
      · simp only [h1, if_true] at h
        subst h; exact Big.number h1
      · by_cases h2 : st.current_token.type = .TOKEN_LPAREN
        · simp only [h2, if_true] at h
          simp only [show (TokenType.TOKEN_LPAREN = TokenType.TOKEN_NUMBER) = False by simp, if_false] at h
          cases hE : parse_expression n (next_token st) with
          | error e =>
            rw [hE] at h; simp only at h; subst h
            exact Big.parenErr h2 (ih .expr _ _ hE hr)
          | ok p =>
            obtain ⟨v, st1⟩ := p
            rw [hE] at h; simp only at h
            have hB := ih .expr _ _ hE (by simp)
            by_cases h3 : st1.current_token.type = .TOKEN_RPAREN
            · simp only [h3, ne_eq, not_true_eq_false, if_false] at h
              subst h; exact Big.paren h2 hB h3
            · simp only [h3, ne_eq, not_false_eq_true, if_true] at h
              subst h; exact Big.parenOpen h2 hB h3
        · simp only [h1, h2, if_false] at h
          subst h; exact Big.unexpected h1 h2
    | termLoop acc =>
      simp only [run, parse_term_loop] at h
      by_cases h1 : st.current_token.type = .TOKEN_MULTIPLY
      · simp only [h1, if_true] at h
        cases hF : parse_factor n (next_token st) with
        | error e =>
          rw [hF] at h; simp only at h; subst h
          exact Big.mulErr h1 (ih .factor _ _ hF hr)
        | ok p =>
          obtain ⟨v, st1⟩ := p
          rw [hF] at h; simp only at h
          exact Big.mul h1 (ih .factor _ _ hF (by simp)) (ih (.termLoop _) _ _ h hr)
      · by_cases h2 : st.current_token.type = .TOKEN_DIVIDE
        · simp only [h2, if_true] at h
          simp only [show (TokenType.TOKEN_DIVIDE = TokenType.TOKEN_MULTIPLY) = False by simp, if_false] at h
          cases hF : parse_factor n (next_token st) with
          | error e =>
            rw [hF] at h; simp only at h; subst h
            exact Big.divErr h2 (ih .factor _ _ hF hr)
          | ok p =>
            obtain ⟨v, st1⟩ := p
            rw [hF] at h; simp only at h
            have hB := ih .factor _ _ hF (by simp)
            by_cases h3 : v = 0
            · simp only [h3, if_true] at h
              subst h; subst h3; exact Big.divZero h2 hB
            · simp only [h3, if_false] at h
              exact Big.div h2 hB h3 (ih (.termLoop _) _ _ h hr)
        · simp only [h1, h2, if_false] at h
          subst h; exact Big.termDone h1 h2
    | term =>
      simp only [run, parse_term] at h
      cases hF : parse_factor n st with
      | error e =>
        rw [hF] at h; simp only at h; subst h
        exact Big.termErr (ih .factor _ _ hF hr)
      | ok p =>
        obtain ⟨v, st1⟩ := p
        rw [hF] at h; simp only at h
        exact Big.term (ih .factor _ _ hF (by simp)) (ih (.termLoop _) _ _ h hr)
    | exprLoop acc =>
      simp only [run, parse_expression_loop] at h
      by_cases h1 : st.current_token.type = .TOKEN_PLUS
      · simp only [h1, if_true] at h
        cases hT : parse_term n (next_token st) with
        | error e =>
          rw [hT] at h; simp only at h; subst h
          exact Big.plusErr h1 (ih .term _ _ hT hr)
        | ok p =>
          obtain ⟨v, st1⟩ := p
          rw [hT] at h; simp only at h
          exact Big.plus h1 (ih .term _ _ hT (by simp)) (ih (.exprLoop _) _ _ h hr)
      · by_cases h2 : st.current_token.type = .TOKEN_MINUS
        · simp only [h2, if_true] at h
          simp only [show (TokenType.TOKEN_MINUS = TokenType.TOKEN_PLUS) = False by simp, if_false] at h
          cases hT : parse_term n (next_token st) with
          | error e =>
            rw [hT] at h; simp only at h; subst h
            exact Big.minusErr h2 (ih .term _ _ hT hr)
          | ok p =>
            obtain ⟨v, st1⟩ := p
            rw [hT] at h; simp only at h
            exact Big.minus h2 (ih .term _ _ hT (by simp)) (ih (.exprLoop _) _ _ h hr)
        · simp only [h1, h2, if_false] at h
          subst h; exact Big.exprDone h1 h2
    | expr =>
      simp only [run, parse_expression] at h
      cases hT : parse_term n st with
      | error e =>
        rw [hT] at h; simp only at h; subst h
        exact Big.exprErr (ih .term _ _ hT hr)
      | ok p =>
        obtain ⟨v, st1⟩ := p
        rw [hT] at h; simp only at h
        exact Big.expr (ih .term _ _ hT (by simp)) (ih (.exprLoop _) _ _ h hr)

/-! ## Fuel: a measure of what is left to read -/

theorem scanList_pos (c : Char) (r : List Char) (v : ℚ) (h : isdigit c = true ∨ c = '.') :
    0 < (scanList (c :: r) v 0).1 := by
  have h' : isdigit c = true ∨ (c = '.' ∧ (0 : Int) = 0) := by
    rcases h with h | h
    · exact Or.inl h
    · exact Or.inr ⟨h, rfl⟩
  rw [scanList, if_pos h']
  split <;> simp

theorem headD_ne_nul_length {s : List Char} (h : s.headD NUL ≠ NUL) : 0 < s.length := by
  cases s with
  | nil => exact absurd rfl h
  | cons c r => simp

theorem lexList_le (s : List Char) : (lexList s).2 ≤ s.length := by
  have hw := skipList_le s
  have hs := scanList_le (s.drop (skipList s)) 0 0
  have hl : (s.drop (skipList s)).length = s.length - skipList s := by simp
  simp only [lexList]
  by_cases hc : (s.drop (skipList s)).headD NUL = NUL
  · simp only [hc, if_true]; exact hw
  · have hpos := headD_ne_nul_length hc
    simp only [hc, if_false]
    repeat' split
    all_goals simp only []
    all_goals omega

/-- Every token but `End` and `Invalid` moves the cursor. -/
theorem lexList_pos (s : List Char) (h1 : (lexList s).1.type ≠ .TOKEN_END)
    (h2 : (lexList s).1.type ≠ .TOKEN_INVALID) : 0 < (lexList s).2 := by
  simp only [lexList] at h1 h2 ⊢
  by_cases hc : (s.drop (skipList s)).headD NUL = NUL
  · simp only [hc, if_true] at h1; exact absurd rfl h1
  · simp only [hc, if_false] at h2 ⊢
    by_cases hd : isdigit ((s.drop (skipList s)).headD NUL) = true
        ∨ (s.drop (skipList s)).headD NUL = '.'
    · simp only [hd, if_true]
      cases hs : s.drop (skipList s) with
      | nil => rw [hs] at hc; exact absurd rfl hc
      | cons c r =>
        rw [hs] at hd
        have := scanList_pos c r 0 hd
        omega
    · simp only [hd, if_false] at h2 ⊢
      repeat' split
      all_goals simp only []
      all_goals first
        | omega
        | (simp only [*, if_false] at h2; exact absurd rfl h2)

theorem weight_next_le (st : State) : weight (next_token st) ≤ st.input.length - st.pos := by
  have hle := lexList_le (st.input.drop st.pos)
  have hlen : (st.input.drop st.pos).length = st.input.length - st.pos := by simp
  rw [next_token_eq]
  simp only [weight]
  split
  · rename_i h
    have := lexList_pos _ h.1 h.2
    omega
  · omega

theorem weight_next_le_weight (st : State) : weight (next_token st) ≤ weight st :=
  Nat.le_trans (weight_next_le st) (Nat.le_add_right _ _)

theorem weight_next_lt (st : State) (h1 : st.current_token.type ≠ .TOKEN_END)
    (h2 : st.current_token.type ≠ .TOKEN_INVALID) : weight (next_token st) + 1 ≤ weight st := by
  have := weight_next_le st
  have hw : weight st = (st.input.length - st.pos) + 1 := by
    simp [weight, h1, h2]
  omega

/-- A procedure that returns leaves no more to read than it found. -/
theorem big_weight_le {c : Call} {st : State} {r : Except Error (ℚ × State)} (h : Big c st r) :
    ∀ (v : ℚ) (st1 : State), r = .ok (v, st1) → weight st1 ≤ weight st := by
  induction h with
  | number h =>
    intro v st1 hr; cases hr; exact weight_next_le_weight _
  | parenErr h he ih => intro v st1 hr; cases hr
  | parenOpen h he h1 ih => intro v st1 hr; cases hr
  | paren h he h1 ih =>
    intro v st1 hr; cases hr
    exact Nat.le_trans (weight_next_le_weight _)
      (Nat.le_trans (ih _ _ rfl) (weight_next_le_weight _))
  | unexpected h h1 => intro v st1 hr; cases hr
  | mulErr h hf ih => intro v st1 hr; cases hr
  | mul h hf hl ih1 ih2 =>
    intro v st1 hr
    exact Nat.le_trans (ih2 _ _ hr) (Nat.le_trans (ih1 _ _ rfl) (weight_next_le_weight _))
  | divErr h hf ih => intro v st1 hr; cases hr
  | divZero h hf ih => intro v st1 hr; cases hr
  | div h hf hv hl ih1 ih2 =>
    intro v st1 hr
    exact Nat.le_trans (ih2 _ _ hr) (Nat.le_trans (ih1 _ _ rfl) (weight_next_le_weight _))
  | termDone h h1 => intro v st1 hr; cases hr; exact Nat.le_refl _
  | termErr hf ih => intro v st1 hr; cases hr
  | term hf hl ih1 ih2 =>
    intro v st1 hr
    exact Nat.le_trans (ih2 _ _ hr) (ih1 _ _ rfl)
  | plusErr h ht ih => intro v st1 hr; cases hr
  | plus h ht hl ih1 ih2 =>
    intro v st1 hr
    exact Nat.le_trans (ih2 _ _ hr) (Nat.le_trans (ih1 _ _ rfl) (weight_next_le_weight _))
  | minusErr h ht ih => intro v st1 hr; cases hr
  | minus h ht hl ih1 ih2 =>
    intro v st1 hr
    exact Nat.le_trans (ih2 _ _ hr) (Nat.le_trans (ih1 _ _ rfl) (weight_next_le_weight _))
  | exprDone h h1 => intro v st1 hr; cases hr; exact Nat.le_refl _
  | exprErr ht ih => intro v st1 hr; cases hr
  | expr ht hl ih1 ih2 =>
    intro v st1 hr
    exact Nat.le_trans (ih2 _ _ hr) (ih1 _ _ rfl)

theorem exists_succ_of_pos {m : Nat} (h : 0 < m) : ∃ k, m = k + 1 :=
  ⟨m - 1, by omega⟩

/-- A run of `Big` is the run of the procedure with any fuel from `bound` on. -/
theorem run_of_big {c : Call} {st : State} {r : Except Error (ℚ × State)} (h : Big c st r) :
    ∀ m, bound c st ≤ m → run m c st = r := by
  induction h with
  | @number st h =>
    intro m hm
    obtain ⟨k, rfl⟩ := exists_succ_of_pos (m := m) (by simp only [bound] at hm; omega)
    simp [run, parse_factor, h]
  | @parenErr st e h he ih =>
    intro m hm
    obtain ⟨k, rfl⟩ := exists_succ_of_pos (m := m) (by simp only [bound] at hm; omega)
    have hlt := weight_next_lt st (by rw [h]; simp) (by rw [h]; simp)
    have h1 := ih k (by simp only [bound] at hm ⊢; omega)
    simp only [run] at h1
    simp [run, parse_factor, h, h1]
  | @parenOpen st st1 v h he hp ih =>
    intro m hm
    obtain ⟨k, rfl⟩ := exists_succ_of_pos (m := m) (by simp only [bound] at hm; omega)
    have hlt := weight_next_lt st (by rw [h]; simp) (by rw [h]; simp)
    have h1 := ih k (by simp only [bound] at hm ⊢; omega)
    simp only [run] at h1
    simp [run, parse_factor, h, h1, hp]
  | @paren st st1 v h he hp ih =>
    intro m hm
    obtain ⟨k, rfl⟩ := exists_succ_of_pos (m := m) (by simp only [bound] at hm; omega)
    have hlt := weight_next_lt st (by rw [h]; simp) (by rw [h]; simp)
    have h1 := ih k (by simp only [bound] at hm ⊢; omega)
    simp only [run] at h1
    simp [run, parse_factor, h, h1, hp]
  | @unexpected st h h1 =>
    intro m hm
    obtain ⟨k, rfl⟩ := exists_succ_of_pos (m := m) (by simp only [bound] at hm; omega)
    simp [run, parse_factor, h, h1]
  | @mulErr st acc e h hf ih =>
    intro m hm
    obtain ⟨k, rfl⟩ := exists_succ_of_pos (m := m) (by simp only [bound] at hm; omega)
    have hlt := weight_next_lt st (by rw [h]; simp) (by rw [h]; simp)
    have h1 := ih k (by simp only [bound] at hm ⊢; omega)
    simp only [run] at h1
    simp [run, parse_term_loop, h, h1]
  | @mul st st1 acc v r h hf hl ih1 ih2 =>
    intro m hm
    obtain ⟨k, rfl⟩ := exists_succ_of_pos (m := m) (by simp only [bound] at hm; omega)
    have hlt := weight_next_lt st (by rw [h]; simp) (by rw [h]; simp)
    have hw := big_weight_le hf _ _ rfl
    have h1 := ih1 k (by simp only [bound] at hm ⊢; omega)
    have h2 := ih2 k (by simp only [bound] at hm ⊢; omega)
    simp only [run] at h1 h2
    simp [run, parse_term_loop, h, h1, h2]
  | @divErr st acc e h hf ih =>
    intro m hm
    obtain ⟨k, rfl⟩ := exists_succ_of_pos (m := m) (by simp only [bound] at hm; omega)
    have hlt := weight_next_lt st (by rw [h]; simp) (by rw [h]; simp)
    have h1 := ih k (by simp only [bound] at hm ⊢; omega)
    simp only [run] at h1
    simp [run, parse_term_loop, h, h1]
  | @divZero st st1 acc h hf ih =>
    intro m hm
    obtain ⟨k, rfl⟩ := exists_succ_of_pos (m := m) (by simp only [bound] at hm; omega)
    have hlt := weight_next_lt st (by rw [h]; simp) (by rw [h]; simp)
    have h1 := ih k (by simp only [bound] at hm ⊢; omega)
    simp only [run] at h1
    simp [run, parse_term_loop, h, h1]
  | @div st st1 acc v r h hf hv hl ih1 ih2 =>
    intro m hm
    obtain ⟨k, rfl⟩ := exists_succ_of_pos (m := m) (by simp only [bound] at hm; omega)
    have hlt := weight_next_lt st (by rw [h]; simp) (by rw [h]; simp)
    have hw := big_weight_le hf _ _ rfl
    have h1 := ih1 k (by simp only [bound] at hm ⊢; omega)
    have h2 := ih2 k (by simp only [bound] at hm ⊢; omega)
    simp only [run] at h1 h2
    simp [run, parse_term_loop, h, h1, h2, hv]
  | @termDone st acc h h1 =>
    intro m hm
    obtain ⟨k, rfl⟩ := exists_succ_of_pos (m := m) (by simp only [bound] at hm; omega)
    simp [run, parse_term_loop, h, h1]
  | @termErr st e hf ih =>
    intro m hm
    obtain ⟨k, rfl⟩ := exists_succ_of_pos (m := m) (by simp only [bound] at hm; omega)
    have h1 := ih k (by simp only [bound] at hm ⊢; omega)
    simp only [run] at h1
    simp [run, parse_term, h1]
  | @term st st1 v r hf hl ih1 ih2 =>
    intro m hm
    obtain ⟨k, rfl⟩ := exists_succ_of_pos (m := m) (by simp only [bound] at hm; omega)
    have hw := big_weight_le hf _ _ rfl
    have h1 := ih1 k (by simp only [bound] at hm ⊢; omega)
    have h2 := ih2 k (by simp only [bound] at hm ⊢; omega)
    simp only [run] at h1 h2
    simp [run, parse_term, h1, h2]
  | @plusErr st acc e h ht ih =>
    intro m hm
    obtain ⟨k, rfl⟩ := exists_succ_of_pos (m := m) (by simp only [bound] at hm; omega)
    have hlt := weight_next_lt st (by rw [h]; simp) (by rw [h]; simp)
    have h1 := ih k (by simp only [bound] at hm ⊢; omega)
    simp only [run] at h1
    simp [run, parse_expression_loop, h, h1]
  | @plus st st1 acc v r h ht hl ih1 ih2 =>
    intro m hm
    obtain ⟨k, rfl⟩ := exists_succ_of_pos (m := m) (by simp only [bound] at hm; omega)
    have hlt := weight_next_lt st (by rw [h]; simp) (by rw [h]; simp)
    have hw := big_weight_le ht _ _ rfl
    have h1 := ih1 k (by simp only [bound] at hm ⊢; omega)
    have h2 := ih2 k (by simp only [bound] at hm ⊢; omega)
    simp only [run] at h1 h2
    simp [run, parse_expression_loop, h, h1, h2]
  | @minusErr st acc e h ht ih =>
    intro m hm
    obtain ⟨k, rfl⟩ := exists_succ_of_pos (m := m) (by simp only [bound] at hm; omega)
    have hlt := weight_next_lt st (by rw [h]; simp) (by rw [h]; simp)
    have h1 := ih k (by simp only [bound] at hm ⊢; omega)
    simp only [run] at h1
    simp [run, parse_expression_loop, h, h1]
  | @minus st st1 acc v r h ht hl ih1 ih2 =>
    intro m hm
    obtain ⟨k, rfl⟩ := exists_succ_of_pos (m := m) (by simp only [bound] at hm; omega)
    have hlt := weight_next_lt st (by rw [h]; simp) (by rw [h]; simp)
    have hw := big_weight_le ht _ _ rfl
    have h1 := ih1 k (by simp only [bound] at hm ⊢; omega)
    have h2 := ih2 k (by simp only [bound] at hm ⊢; omega)
    simp only [run] at h1 h2
    simp [run, parse_expression_loop, h, h1, h2]
  | @exprDone st acc h h1 =>
    intro m hm
    obtain ⟨k, rfl⟩ := exists_succ_of_pos (m := m) (by simp only [bound] at hm; omega)
    simp [run, parse_expression_loop, h, h1]
  | @exprErr st e ht ih =>
    intro m hm
    obtain ⟨k, rfl⟩ := exists_succ_of_pos (m := m) (by simp only [bound] at hm; omega)
    have h1 := ih k (by simp only [bound] at hm ⊢; omega)
    simp only [run] at h1
    simp [run, parse_expression, h1]
  | @expr st st1 v r ht hl ih1 ih2 =>
    intro m hm
    obtain ⟨k, rfl⟩ := exists_succ_of_pos (m := m) (by simp only [bound] at hm; omega)
    have hw := big_weight_le ht _ _ rfl
    have h1 := ih1 k (by simp only [bound] at hm ⊢; omega)
    have h2 := ih2 k (by simp only [bound] at hm ⊢; omega)
    simp only [run] at h1 h2
    simp [run, parse_expression, h1, h2]

theorem eval_eq (g : State) (line : List Char) :
    eval g line = finish (parse_expression (evalFuel line) (startState g line)) := by
  simp only [eval, finish, startState]

theorem weight_startState (g : State) (line : List Char) :
    weight (startState g line) ≤ line.length := by
  have := weight_next_le { g with input := line, pos := 0 }
  simpa [startState] using this

/-- The outcome of `eval` from a run of `Big` of `parse_expression`. -/
theorem eval_of_big {g : State} {line : List Char} {r : Except Error (ℚ × State)}
    (h : Big .expr (startState g line) r) : eval g line = finish r := by
  have hw := weight_startState g line
  have := run_of_big h (evalFuel line) (by simp only [bound, evalFuel]; omega)
  simp only [run] at this
  rw [eval_eq, this]

theorem big_termLoop_end {acc : ℚ} {st : State} {r : Except Error (ℚ × State)}
    (h : Big (.termLoop acc) st r) (he : st.current_token.type = .TOKEN_END) : r = .ok (acc, st) := by
  cases h <;> simp_all

theorem big_exprLoop_end {acc : ℚ} {st : State} {r : Except Error (ℚ × State)}
    (h : Big (.exprLoop acc) st r) (he : st.current_token.type = .TOKEN_END) : r = .ok (acc, st) := by
  cases h <;> simp_all

/-- A run that returns is also a run from the states mapped by `φ`, when `φ` commutes with
`next_token` and keeps the token held, but for states holding `End`: there the token of `φ st`
is only required (when `inert` holds) to be none of the four operators. Without `inert` the
runs moved are those of `parse_factor` and those that do not end on `End`. -/
theorem big_transfer (φ : State → State) (Inv : State → Prop) (inert : Prop)
    (hInv : ∀ st, Inv st → Inv (next_token st))
    (hnext : ∀ st, Inv st → st.current_token.type ≠ .TOKEN_END →
      next_token (φ st) = φ (next_token st))
    (htok : ∀ st, Inv st → st.current_token.type ≠ .TOKEN_END →
      (φ st).current_token = st.current_token)
    (hend : inert → ∀ st, Inv st → st.current_token.type = .TOKEN_END →
      (φ st).current_token.type ≠ .TOKEN_MULTIPLY ∧ (φ st).current_token.type ≠ .TOKEN_DIVIDE ∧
      (φ st).current_token.type ≠ .TOKEN_PLUS ∧ (φ st).current_token.type ≠ .TOKEN_MINUS)
    {c : Call} {st : State} {r : Except Error (ℚ × State)} (h : Big c st r) :
    ∀ (v : ℚ) (st1 : State), r = .ok (v, st1) → Inv st →
      (inert ∨ c = .factor ∨ st1.current_token.type ≠ .TOKEN_END) →
      Big c (φ st) (.ok (v, φ st1)) ∧ Inv st1 := by
  induction h with
  | @number st h =>
    intro v st1 hr hI _
    cases hr
    have hne : st.current_token.type ≠ .TOKEN_END := by rw [h]; simp
    have hB := @Big.number (φ st) (by rw [htok st hI hne]; exact h)
    rw [hnext st hI hne, htok st hI hne] at hB
    exact ⟨hB, hInv st hI⟩
  | parenErr h he ih => intro v st1 hr; cases hr
  | parenOpen h he h1 ih => intro v st1 hr; cases hr
  | @paren st st1 v h he h1 ih =>
    intro v' st2 hr hI _
    cases hr
    have hne : st.current_token.type ≠ .TOKEN_END := by rw [h]; simp
    have hne1 : st1.current_token.type ≠ .TOKEN_END := by rw [h1]; simp
    obtain ⟨hB, hI1⟩ := ih _ _ rfl (hInv st hI) (Or.inr (Or.inr hne1))
    rw [← hnext st hI hne] at hB
    have hB2 := @Big.paren (φ st) _ _ (by rw [htok st hI hne]; exact h) hB
      (by rw [htok st1 hI1 hne1]; exact h1)
    rw [hnext st1 hI1 hne1] at hB2
    exact ⟨hB2, hInv st1 hI1⟩
  | unexpected h h1 => intro v st1 hr; cases hr
  | mulErr h hf ih => intro v st1 hr; cases hr
  | @mul st st1 acc v r h hf hl ih1 ih2 =>
    intro v' st2 hr hI hc
    have hne : st.current_token.type ≠ .TOKEN_END := by rw [h]; simp
    obtain ⟨hB1, hI1⟩ := ih1 _ _ rfl (hInv st hI) (Or.inr (Or.inl rfl))
    have hc2 : inert ∨ Call.termLoop (acc * v) = .factor ∨ st2.current_token.type ≠ .TOKEN_END := by
      rcases hc with hc | hc | hc
      · exact Or.inl hc
      · cases hc
      · exact Or.inr (Or.inr hc)
    obtain ⟨hB2, hI2⟩ := ih2 _ _ hr hI1 hc2
    rw [← hnext st hI hne] at hB1
    exact ⟨Big.mul (by rw [htok st hI hne]; exact h) hB1 hB2, hI2⟩
  | divErr h hf ih => intro v st1 hr; cases hr
  | divZero h hf ih => intro v st1 hr; cases hr
  | @div st st1 acc v r h hf hv hl ih1 ih2 =>
    intro v' st2 hr hI hc
    have hne : st.current_token.type ≠ .TOKEN_END := by rw [h]; simp
    obtain ⟨hB1, hI1⟩ := ih1 _ _ rfl (hInv st hI) (Or.inr (Or.inl rfl))
    have hc2 : inert ∨ Call.termLoop (acc / v) = .factor ∨ st2.current_token.type ≠ .TOKEN_END := by
      rcases hc with hc | hc | hc
      · exact Or.inl hc
      · cases hc
      · exact Or.inr (Or.inr hc)
    obtain ⟨hB2, hI2⟩ := ih2 _ _ hr hI1 hc2
    rw [← hnext st hI hne] at hB1
    exact ⟨Big.div (by rw [htok st hI hne]; exact h) hB1 hv hB2, hI2⟩
  | @termDone st acc h h1 =>
    intro v st1 hr hI hc
    cases hr
    refine ⟨?_, hI⟩
    by_cases hE : st.current_token.type = .TOKEN_END
    · have hin : inert := by
        rcases hc with hc | hc | hc
        · exact hc
        · cases hc
        · exact absurd hE hc
      obtain ⟨a, b, _, _⟩ := hend hin st hI hE
      exact Big.termDone a b
    · exact Big.termDone (by rw [htok st hI hE]; exact h) (by rw [htok st hI hE]; exact h1)
  | termErr hf ih => intro v st1 hr; cases hr
  | @term st st1 v r hf hl ih1 ih2 =>
    intro v' st2 hr hI hc
    obtain ⟨hB1, hI1⟩ := ih1 _ _ rfl hI (Or.inr (Or.inl rfl))
    have hc2 : inert ∨ Call.termLoop v = .factor ∨ st2.current_token.type ≠ .TOKEN_END := by
      rcases hc with hc | hc | hc
      · exact Or.inl hc
      · cases hc
      · exact Or.inr (Or.inr hc)
    obtain ⟨hB2, hI2⟩ := ih2 _ _ hr hI1 hc2
    exact ⟨Big.term hB1 hB2, hI2⟩
  | plusErr h ht ih => intro v st1 hr; cases hr
  | @plus st st1 acc v r h ht hl ih1 ih2 =>
    intro v' st2 hr hI hc
    have hne : st.current_token.type ≠ .TOKEN_END := by rw [h]; simp
    have hc1 : inert ∨ Call.term = .factor ∨ st1.current_token.type ≠ .TOKEN_END := by
      rcases hc with hc | hc | hc
      · exact Or.inl hc
      · cases hc
      · refine Or.inr (Or.inr ?_)
        intro hE
        have := big_exprLoop_end hl hE
        rw [hr] at this
        cases this
        exact hc hE
    have hc2 : inert ∨ Call.exprLoop (acc + v) = .factor ∨ st2.current_token.type ≠ .TOKEN_END := by
      rcases hc with hc | hc | hc
      · exact Or.inl hc
      · cases hc
      · exact Or.inr (Or.inr hc)
    obtain ⟨hB1, hI1⟩ := ih1 _ _ rfl (hInv st hI) hc1
    obtain ⟨hB2, hI2⟩ := ih2 _ _ hr hI1 hc2
    rw [← hnext st hI hne] at hB1
    exact ⟨Big.plus (by rw [htok st hI hne]; exact h) hB1 hB2, hI2⟩
  | minusErr h ht ih => intro v st1 hr; cases hr
  | @minus st st1 acc v r h ht hl ih1 ih2 =>
    intro v' st2 hr hI hc
    have hne : st.current_token.type ≠ .TOKEN_END := by rw [h]; simp
    have hc1 : inert ∨ Call.term = .factor ∨ st1.current_token.type ≠ .TOKEN_END := by
      rcases hc with hc | hc | hc
      · exact Or.inl hc
      · cases hc
      · refine Or.inr (Or.inr ?_)
        intro hE
        have := big_exprLoop_end hl hE
        rw [hr] at this
        cases this
        exact hc hE
    have hc2 : inert ∨ Call.exprLoop (acc - v) = .factor ∨ st2.current_token.type ≠ .TOKEN_END := by
      rcases hc with hc | hc | hc
      · exact Or.inl hc
      · cases hc
      · exact Or.inr (Or.inr hc)
    obtain ⟨hB1, hI1⟩ := ih1 _ _ rfl (hInv st hI) hc1
    obtain ⟨hB2, hI2⟩ := ih2 _ _ hr hI1 hc2
    rw [← hnext st hI hne] at hB1
    exact ⟨Big.minus (by rw [htok st hI hne]; exact h) hB1 hB2, hI2⟩
  | @exprDone st acc h h1 =>
    intro v st1 hr hI hc
    cases hr
    refine ⟨?_, hI⟩
    by_cases hE : st.current_token.type = .TOKEN_END
    · have hin : inert := by
        rcases hc with hc | hc | hc
        · exact hc
        · cases hc
        · exact absurd hE hc
      obtain ⟨_, _, a, b⟩ := hend hin st hI hE
      exact Big.exprDone a b
    · exact Big.exprDone (by rw [htok st hI hE]; exact h) (by rw [htok st hI hE]; exact h1)
  | exprErr ht ih => intro v st1 hr; cases hr
  | @expr st st1 v r ht hl ih1 ih2 =>
    intro v' st2 hr hI hc
    have hc1 : inert ∨ Call.term = .factor ∨ st1.current_token.type ≠ .TOKEN_END := by
      rcases hc with hc | hc | hc
      · exact Or.inl hc
      · cases hc
      · refine Or.inr (Or.inr ?_)
        intro hE
        have := big_exprLoop_end hl hE
        rw [hr] at this
        cases this
        exact hc hE
    have hc2 : inert ∨ Call.exprLoop v = .factor ∨ st2.current_token.type ≠ .TOKEN_END := by
      rcases hc with hc | hc | hc
      · exact Or.inl hc
      · cases hc
      · exact Or.inr (Or.inr hc)
    obtain ⟨hB1, hI1⟩ := ih1 _ _ rfl hI hc1
    obtain ⟨hB2, hI2⟩ := ih2 _ _ hr hI1 hc2
    exact ⟨Big.expr hB1 hB2, hI2⟩

/-! ### A text put in front of the line -/

theorem skipList_append (s t : List Char) :
    skipList (s ++ t) = if skipList s = s.length then s.length + skipList t else skipList s := by
  induction s with
  | nil => simp [skipList]
  | cons c r ih =>
    rw [List.cons_append]
    simp only [skipList, List.length_cons]
    by_cases hc : c ≠ NUL ∧ isspace c = true
    · simp only [if_pos hc, ih]
      by_cases hr : skipList r = r.length
      · simp only [hr, if_true]; omega
      · have hr1 : ¬ (skipList r + 1 = r.length + 1) := by omega
        simp only [hr, hr1, if_false]
    · simp only [if_neg hc]
      simp

theorem scanList_append (s suf : List Char) (hsuf : Stops suf) : ∀ (v : ℚ) (dp : Int),
    scanList (s ++ suf) v dp = scanList s v dp := by
  induction s with
  | nil =>
    intro v dp
    cases suf with
    | nil => rfl
    | cons c r =>
      have := hsuf c (by simp)
      simp [scanList, this.1, this.2]
  | cons c r ih =>
    intro v dp
    rw [List.cons_append]
    simp only [scanList, ih]

theorem skipList_eq_length_of_drop_nil {s : List Char} (h : s.drop (skipList s) = []) :
    skipList s = s.length := by
  have := skipList_le s
  have h2 := congrArg List.length h
  simp at h2
  omega

theorem headD_drop_ne_nul {s : List Char} (hs : ∀ c ∈ s, c ≠ NUL) (n : Nat)
    (h : s.drop n ≠ []) : (s.drop n).headD NUL ≠ NUL := by
  cases hd : s.drop n with
  | nil => exact absurd hd h
  | cons c r =>
    have : c ∈ s := List.mem_of_mem_drop (by rw [hd]; simp)
    simpa using hs c this

/-- The token read from a text with no NUL in it is the token read when more text follows,
unless it is `End`: then the token read is the first one of the text that follows. -/
theorem lexList_append (s suf : List Char) (hs : ∀ c ∈ s, c ≠ NUL) (hsuf : Stops suf) :
    lexList (s ++ suf) =
      if (lexList s).1.type = .TOKEN_END then ((lexList suf).1, s.length + (lexList suf).2)
      else lexList s := by
  by_cases hw : skipList s = s.length
  · have hd : s.drop (skipList s) = [] := by rw [hw]; simp
    have hE : (lexList s).1.type = .TOKEN_END := by
      simp [lexList, hd]
    have hd2 : (s ++ suf).drop (s.length + skipList suf) = suf.drop (skipList suf) := by
      simp [List.drop_append]
    rw [if_pos hE]
    simp only [lexList, skipList_append, hw, if_true, hd2]
    repeat' split
    all_goals simp [Nat.add_assoc]
  · have hd : s.drop (skipList s) ≠ [] := fun h => hw (skipList_eq_length_of_drop_nil h)
    have hn := headD_drop_ne_nul hs _ hd
    have hE : (lexList s).1.type ≠ .TOKEN_END := by
      simp only [lexList, hn, if_false]
      repeat' split
      all_goals simp
    have hle := skipList_le s
    have hd2 : (s ++ suf).drop (skipList s) = s.drop (skipList s) ++ suf := by
      rw [List.drop_append_of_le_length hle]
    have hh : (s.drop (skipList s) ++ suf).headD NUL = (s.drop (skipList s)).headD NUL := by
      cases hx : s.drop (skipList s) with
      | nil => exact absurd hx hd
      | cons c r => rfl
    rw [if_neg hE]
    simp only [lexList, skipList_append, hw, if_false, hd2, hh, scanList_append _ _ hsuf]

theorem onLine_next_token {e : List Char} {st : State} (h : OnLine e st) :
    OnLine e (next_token st) := by
  obtain ⟨h1, h2⟩ := h
  have hle := lexList_le (st.input.drop st.pos)
  have hlen : (st.input.drop st.pos).length = st.input.length - st.pos := by simp
  subst h1
  rw [next_token_eq]
  refine ⟨rfl, ?_⟩
  simp only []
  omega

theorem next_token_mk (p s : List Char) (t : Token) :
    next_token ⟨p ++ s, p.length, t⟩ = lexState p s := by
  simp [next_token_eq, lexState]

theorem startState_eq (g : State) (line : List Char) : startState g line = lexState [] line := by
  have := next_token_mk [] line g.current_token
  simpa [startState] using this

/-- Fetching the next token of `lexState p s` when the token held is the text `a`. -/
theorem next_token_lexState (p a s : List Char) (h : (lexList (a ++ s)).2 = a.length) :
    next_token (lexState p (a ++ s)) = lexState (p ++ a) s := by
  have := next_token_mk (p ++ a) s (lexList (a ++ s)).1
  rw [← this]
  simp [lexState, h]

theorem onLine_lexState (s : List Char) : OnLine s (lexState [] s) := by
  have := lexList_le s
  simp only [OnLine, lexState]
  simp
  omega

/-! ### The tokens of single characters and of whitespace -/

theorem lexList_lparen (r : List Char) : lexList ('(' :: r) = (⟨.TOKEN_LPAREN, 0⟩, 1) := by
  simp [lexList, skipList, isspace, isdigit, NUL]

theorem lexList_rparen (r : List Char) : lexList (')' :: r) = (⟨.TOKEN_RPAREN, 0⟩, 1) := by
  simp [lexList, skipList, isspace, isdigit, NUL]

theorem lexList_plus (r : List Char) : lexList ('+' :: r) = (⟨.TOKEN_PLUS, 0⟩, 1) := by
  simp [lexList, skipList, isspace, isdigit, NUL]

theorem lexList_minus (r : List Char) : lexList ('-' :: r) = (⟨.TOKEN_MINUS, 0⟩, 1) := by
  simp [lexList, skipList, isspace, isdigit, NUL]

theorem lexList_star (r : List Char) : lexList ('*' :: r) = (⟨.TOKEN_MULTIPLY, 0⟩, 1) := by
  simp [lexList, skipList, isspace, isdigit, NUL]

theorem lexList_slash (r : List Char) : lexList ('/' :: r) = (⟨.TOKEN_DIVIDE, 0⟩, 1) := by
  simp [lexList, skipList, isspace, isdigit, NUL]

theorem lexList_nil : lexList [] = (⟨.TOKEN_END, 0⟩, 0) := by
  simp [lexList, skipList]

theorem ne_nul_of_isspace {c : Char} (h : isspace c = true) : c ≠ NUL := by
  intro hc
  rw [hc] at h
  exact absurd h (by decide)

theorem skipList_spaces (ws : List Char) (h : ∀ c ∈ ws, isspace c = true) :
    skipList ws = ws.length := by
  induction ws with
  | nil => rfl
  | cons c r ih =>
    have hc := h c (by simp)
    have hr := ih (fun x hx => h x (by simp [hx]))
    simp [skipList, hc, ne_nul_of_isspace hc, hr]

/-- Whitespace before a text is passed over. -/
theorem lexList_spaces (ws s : List Char) (h : ∀ c ∈ ws, isspace c = true) :
    lexList (ws ++ s) = ((lexList s).1, ws.length + (lexList s).2) := by
  have hw := skipList_spaces ws h
  have hd : (ws ++ s).drop (ws.length + skipList s) = s.drop (skipList s) := by
    simp [List.drop_append]
  simp only [lexList, skipList_append, hw, if_true, hd]
  repeat' split
  all_goals simp [Nat.add_assoc]

theorem big_expr_of_factor_error {st : State} {e : Error} (h : Big .factor st (.error e)) :
    Big .expr st (.error e) :=
  Big.exprErr (Big.termErr h)

/-! ## Claims about malformed lines -/

/-- C9: for every line that is empty or made of whitespace only, the first token fetched is
`End` and `eval` fails with the "Unexpected token" error of `parse_factor`; it returns no
number. -/
theorem eval_blank_line (g : State) (line : List Char) (h : ∀ c ∈ line, isspace c = true) :
    (startState g line).current_token.type = .TOKEN_END ∧
      eval g line = .error .unexpectedToken ∧
      Error.kind .unexpectedToken = some .UnexpectedToken := by
  have hl : lexList line = (⟨.TOKEN_END, 0⟩, line.length) := by
    have := lexList_spaces line [] h
    simpa [lexList_nil] using this
  have ht : (startState g line).current_token.type = .TOKEN_END := by
    rw [startState_eq]; simp [lexState, hl]
  have hp : Big .factor (startState g line) (.error .unexpectedToken) :=
    Big.unexpected (by rw [ht]; simp) (by rw [ht]; simp)
  rw [eval_of_big (big_expr_of_factor_error hp)]
  exact ⟨ht, rfl, rfl⟩

/-- Witness for C9 on a line of a space, a tab and a newline. -/
theorem eval_blank_line_witness :
    eval initState [' ', '\t', '\n'] = .error .unexpectedToken :=
  (eval_blank_line initState [' ', '\t', '\n'] (by decide)).2.1

/-- C10: for every line whose first character after leading whitespace is `-` or `+`, `eval`
fails with the "Unexpected token" error and returns no value; and `parse_factor` entered with
the token `Minus` or `Plus` fails with that error, whatever fuel it has. In particular `-3` and
`2*-3` fail. -/
theorem eval_leading_sign (g : State) (ws rest : List Char) (c : Char)
    (hws : ∀ x ∈ ws, isspace x = true) (hc : c = '-' ∨ c = '+') :
    eval g (ws ++ c :: rest) = .error .unexpectedToken ∧
      (∀ (fuel : Nat) (st : State),
        st.current_token.type = .TOKEN_MINUS ∨ st.current_token.type = .TOKEN_PLUS →
        parse_factor (fuel + 1) st = .error .unexpectedToken) ∧
      eval g ['-', '3'] = .error .unexpectedToken ∧
      eval g ['2', '*', '-', '3'] = .error .unexpectedToken := by
  have key : ∀ (ws rest : List Char) (c : Char), (∀ x ∈ ws, isspace x = true) →
      (c = '-' ∨ c = '+') → eval g (ws ++ c :: rest) = .error .unexpectedToken := by
    intro ws rest c hws hc
    have ht : (startState g (ws ++ c :: rest)).current_token.type = .TOKEN_MINUS ∨
        (startState g (ws ++ c :: rest)).current_token.type = .TOKEN_PLUS := by
      rw [startState_eq]
      rcases hc with hc | hc
      · left; subst hc; simp [lexState, lexList_spaces _ _ hws, lexList_minus]
      · right; subst hc; simp [lexState, lexList_spaces _ _ hws, lexList_plus]
    have hp : Big .factor (startState g (ws ++ c :: rest)) (.error .unexpectedToken) := by
      rcases ht with ht | ht
      · exact Big.unexpected (by rw [ht]; simp) (by rw [ht]; simp)
      · exact Big.unexpected (by rw [ht]; simp) (by rw [ht]; simp)
    rw [eval_of_big (big_expr_of_factor_error hp)]
    rfl
  refine ⟨key ws rest c hws hc, ?_, ?_, ?_⟩
  · intro fuel st hst
    rcases hst with hst | hst <;> simp [parse_factor, hst]
  · exact key [] ['3'] '-' (by simp) (Or.inl rfl)
  · have h1 : next_token (lexState [] ['2', '*', '-', '3']) = lexState ['2'] ['*', '-', '3'] :=
      next_token_lexState [] ['2'] ['*', '-', '3'] (by decide)
    have h2 : next_token (lexState ['2'] ['*', '-', '3']) = lexState ['2', '*'] ['-', '3'] :=
      next_token_lexState ['2'] ['*'] ['-', '3'] (by decide)
    have hf : Big .factor (lexState ['2', '*'] ['-', '3']) (.error .unexpectedToken) :=
      Big.unexpected (by simp [lexState, lexList_minus]) (by simp [lexState, lexList_minus])
    have hl : Big (.termLoop (lexState [] ['2', '*', '-', '3']).current_token.value)
        (lexState ['2'] ['*', '-', '3']) (.error .unexpectedToken) :=
      Big.mulErr (by simp [lexState, lexList_star]) (by rw [h2]; exact hf)
    have hn : Big .factor (lexState [] ['2', '*', '-', '3'])
        (.ok ((lexState [] ['2', '*', '-', '3']).current_token.value,
          next_token (lexState [] ['2', '*', '-', '3']))) :=
      Big.number (by decide)
    rw [h1] at hn
    have hE := Big.exprErr (Big.term hn hl)
    rw [← startState_eq g] at hE
    rw [eval_of_big hE]
    rfl

/-- Witness for C10 on the line ` -3`. -/
theorem eval_leading_sign_witness :
    eval initState ([' '] ++ '-' :: ['3']) = .error .unexpectedToken :=
  (eval_leading_sign initState [' '] ['3'] '-' (by decide) (Or.inl rfl)).1

/-! ### A state that does not hold `End`, seen from a longer line -/

theorem stops_rparen (r : List Char) : Stops (')' :: r) := by
  intro c hc
  simp at hc
  subst hc
  decide

theorem stops_slash (r : List Char) : Stops ('/' :: r) := by
  intro c hc
  simp at hc
  subst hc
  decide

/-! ## Number literals -/

theorem isspace_of_isdigit {c : Char} (h : isdigit c = true) : isspace c = false := by
  simp only [isdigit, Bool.and_eq_true, decide_eq_true_eq] at h
  simp only [isspace, Bool.or_eq_false_iff, decide_eq_false_iff_not, Bool.and_eq_false_iff]
  omega

theorem ne_nul_of_isdigit {c : Char} (h : isdigit c = true) : c ≠ NUL := by
  intro hc
  rw [hc] at h
  exact absurd h (by decide)

theorem ne_dot_of_isdigit {c : Char} (h : isdigit c = true) : c ≠ '.' := by
  intro hc
  rw [hc] at h
  exact absurd h (by decide)

/-- The number loop runs through a text of digits. -/
theorem scanList_digits (s : List Char) (hs : ∀ c ∈ s, isdigit c = true) :
    ∀ (v : ℚ) (dp : Int), (scanList s v dp).1 = s.length := by
  induction s with
  | nil => intro v dp; rfl
  | cons c r ih =>
    intro v dp
    have hc := hs c (by simp)
    have hr := ih (fun x hx => hs x (by simp [hx]))
    simp [scanList, hc, ne_dot_of_isdigit hc, hr]

/-- The number loop started with no `.` seen runs through a text of digits and one `.`. -/
theorem scanList_literal (s : List Char) (hs : ∀ c ∈ s, isdigit c = true ∨ c = '.')
    (hcount : s.count '.' ≤ 1) : ∀ (v : ℚ), (scanList s v 0).1 = s.length := by
  induction s with
  | nil => intro v; rfl
  | cons c r ih =>
    intro v
    by_cases hc : c = '.'
    · subst hc
      have hr : ∀ x ∈ r, isdigit x = true := by
        intro x hx
        rcases hs x (by simp [hx]) with h | h
        · exact h
        · subst h
          have : 0 < r.count '.' := List.count_pos_iff.mpr hx
          simp at hcount
          omega
      simp [scanList, scanList_digits r hr]
    · have hd : isdigit c = true := by
        rcases hs c (by simp) with h | h
        · exact h
        · exact absurd h hc
      have hcount' : r.count '.' ≤ 1 := by
        have := List.count_le_count_cons (l := r) (a := '.') (b := c)
        omega
      have hr := ih (fun x hx => hs x (by simp [hx])) hcount'
      simp [scanList, hd, hc, hr]

/-- A literal, whatever text the number loop stops at follows it, is read as one `Number` token
with the value of the literal. -/
theorem lexList_literal (a rest : List Char) (ha : IsNumberLiteral a) (hrest : Stops rest) :
    lexList (a ++ rest) = (⟨.TOKEN_NUMBER, numberValue a⟩, a.length) := by
  obtain ⟨hne, hall, hcount⟩ := ha
  have hnul : ∀ c ∈ a, c ≠ NUL := by
    intro c hc
    rcases hall c hc with h | h
    · exact ne_nul_of_isdigit h
    · subst h; decide
  obtain ⟨c, r, rfl⟩ := List.exists_cons_of_ne_nil hne
  have hc := hall c (by simp)
  have hsp : isspace c = false := by
    rcases hc with h | h
    · exact isspace_of_isdigit h
    · subst h; decide
  have hscan := scanList_literal (c :: r) hall hcount 0
  have hl : lexList (c :: r) = (⟨.TOKEN_NUMBER, numberValue (c :: r)⟩, (c :: r).length) := by
    have hv : numberValue (c :: r) = (lexList (c :: r)).1.value := by
      simp [numberValue, get_next_token_eq]
    rw [hv]
    simp only [lexList, skipList, hsp, Bool.false_eq_true, and_false, if_false, List.drop_zero,
      List.headD_cons, hnul c (by simp), hc, if_true, hscan, Nat.zero_add]
  rw [lexList_append _ _ hnul hrest, hl]
  simp

/-- The run of `parse_factor` on a literal. -/
theorem big_factor_literal (p a rest : List Char) (ha : IsNumberLiteral a) (hrest : Stops rest) :
    Big .factor (lexState p (a ++ rest)) (.ok (numberValue a, lexState (p ++ a) rest)) := by
  have hl := lexList_literal a rest ha hrest
  have hn := next_token_lexState p a rest (by rw [hl])
  have hB := @Big.number (lexState p (a ++ rest)) (by simp [lexState, hl])
  rw [hn] at hB
  simpa [lexState, hl] using hB

theorem stops_nil : Stops [] := by
  intro c hc
  simp at hc

theorem stops_plus (r : List Char) : Stops ('+' :: r) := by
  intro c hc
  simp at hc
  subst hc
  decide

theorem stops_minus (r : List Char) : Stops ('-' :: r) := by
  intro c hc
  simp at hc
  subst hc
  decide

theorem stops_star (r : List Char) : Stops ('*' :: r) := by
  intro c hc
  simp at hc
  subst hc
  decide

theorem stops_lparen (r : List Char) : Stops ('(' :: r) := by
  intro c hc
  simp at hc
  subst hc
  decide

theorem eval_congr (g g' : State) (line : List Char) : eval g line = eval g' line := by
  rw [eval_eq, eval_eq, startState_eq, startState_eq]

/-! ### States on the single-character tokens -/

theorem type_lexState_nil (p : List Char) : (lexState p []).current_token.type = .TOKEN_END := by
  simp [lexState, lexList_nil]

theorem type_lexState_plus (p r : List Char) :
    (lexState p ('+' :: r)).current_token.type = .TOKEN_PLUS := by
  simp [lexState, lexList_plus]

theorem type_lexState_minus (p r : List Char) :
    (lexState p ('-' :: r)).current_token.type = .TOKEN_MINUS := by
  simp [lexState, lexList_minus]

theorem type_lexState_star (p r : List Char) :
    (lexState p ('*' :: r)).current_token.type = .TOKEN_MULTIPLY := by
  simp [lexState, lexList_star]

theorem type_lexState_slash (p r : List Char) :
    (lexState p ('/' :: r)).current_token.type = .TOKEN_DIVIDE := by
  simp [lexState, lexList_slash]

theorem type_lexState_lparen (p r : List Char) :
    (lexState p ('(' :: r)).current_token.type = .TOKEN_LPAREN := by
  simp [lexState, lexList_lparen]

theorem type_lexState_rparen (p r : List Char) :
    (lexState p (')' :: r)).current_token.type = .TOKEN_RPAREN := by
  simp [lexState, lexList_rparen]

theorem next_lexState_plus (p r : List Char) :
    next_token (lexState p ('+' :: r)) = lexState (p ++ ['+']) r :=
  next_token_lexState p ['+'] r (by simp [lexList_plus])

theorem next_lexState_minus (p r : List Char) :
    next_token (lexState p ('-' :: r)) = lexState (p ++ ['-']) r :=
  next_token_lexState p ['-'] r (by simp [lexList_minus])

theorem next_lexState_star (p r : List Char) :
    next_token (lexState p ('*' :: r)) = lexState (p ++ ['*']) r :=
  next_token_lexState p ['*'] r (by simp [lexList_star])

theorem next_lexState_slash (p r : List Char) :
    next_token (lexState p ('/' :: r)) = lexState (p ++ ['/']) r :=
  next_token_lexState p ['/'] r (by simp [lexList_slash])

theorem next_lexState_lparen (p r : List Char) :
    next_token (lexState p ('(' :: r)) = lexState (p ++ ['(']) r :=
  next_token_lexState p ['('] r (by simp [lexList_lparen])

theorem next_lexState_rparen (p r : List Char) :
    next_token (lexState p (')' :: r)) = lexState (p ++ [')']) r :=
  next_token_lexState p [')'] r (by simp [lexList_rparen])

/-- The outcome of `eval` from a run of `parse_expression` that ends at the end of the line. -/
theorem eval_of_big_end {g : State} {line : List Char} {v : ℚ} {p : List Char}
    (h : Big .expr (lexState [] line) (.ok (v, lexState p []))) : eval g line = .ok v := by
  rw [← startState_eq g] at h
  rw [eval_of_big h]
  simp [finish, type_lexState_nil]

/-! ## Precedence and associativity -/

/-- C2: for all number literals `a`, `b`, `c`, with the values the tokenizer gives them, `eval`
of `a+b*c` returns `va + (vb * vc)` and `eval` of `(a+b)*c` returns `(va + vb) * vc`; in
particular `2+3*4` gives 14 and `(2+3)*4` gives 20. -/
theorem eval_precedence (g : State) (a b c : List Char) (ha : IsNumberLiteral a)
    (hb : IsNumberLiteral b) (hc : IsNumberLiteral c) :
    eval g (a ++ ['+'] ++ b ++ ['*'] ++ c)
        = .ok (numberValue a + numberValue b * numberValue c) ∧
      eval g (['('] ++ a ++ ['+'] ++ b ++ [')', '*'] ++ c)
        = .ok ((numberValue a + numberValue b) * numberValue c) ∧
      eval g ['2', '+', '3', '*', '4'] = .ok 14 ∧
      eval g ['(', '2', '+', '3', ')', '*', '4'] = .ok 20 := by
  refine ⟨?_, ?_, ?_, ?_⟩
  · have hFa := big_factor_literal [] a ('+' :: (b ++ '*' :: c)) ha (stops_plus _)
    have hTa := Big.term hFa (Big.termDone (by simp [type_lexState_plus])
      (by simp [type_lexState_plus]))
    have hFb := big_factor_literal ([] ++ a ++ ['+']) b ('*' :: c) hb (stops_star _)
    have hFc := big_factor_literal ([] ++ a ++ ['+'] ++ b ++ ['*']) c [] hc stops_nil
    rw [List.append_nil, ← next_lexState_star] at hFc
    have hLb := @Big.mul _ _ (numberValue b) _ _ (type_lexState_star _ _) hFc
      (Big.termDone (by simp [type_lexState_nil]) (by simp [type_lexState_nil]))
    have hTb := Big.term hFb hLb
    rw [← next_lexState_plus] at hTb
    have hL := @Big.plus _ _ (numberValue a) _ _ (type_lexState_plus _ _) hTb
      (Big.exprDone (by simp [type_lexState_nil]) (by simp [type_lexState_nil]))
    have hE := Big.expr hTa hL
    have hline : a ++ ['+'] ++ b ++ ['*'] ++ c = a ++ '+' :: (b ++ '*' :: c) := by simp
    rw [hline]
    simp only [List.append_nil] at hE
    exact eval_of_big_end hE
  · have hFa := big_factor_literal ([] ++ ['(']) a ('+' :: (b ++ ')' :: '*' :: c)) ha
      (stops_plus _)
    have hTa := Big.term hFa (Big.termDone (by simp [type_lexState_plus])
      (by simp [type_lexState_plus]))
    have hFb := big_factor_literal ([] ++ ['('] ++ a ++ ['+']) b (')' :: '*' :: c) hb
      (stops_rparen _)
    have hTb := Big.term hFb (Big.termDone (by simp [type_lexState_rparen])
      (by simp [type_lexState_rparen]))
    rw [← next_lexState_plus] at hTb
    have hL := @Big.plus _ _ (numberValue a) _ _ (type_lexState_plus _ _) hTb
      (Big.exprDone (by simp [type_lexState_rparen]) (by simp [type_lexState_rparen]))
    have hE := Big.expr hTa hL
    rw [← next_lexState_lparen] at hE
    have hP := Big.paren (type_lexState_lparen _ _) hE (type_lexState_rparen _ _)
    rw [next_lexState_rparen] at hP
    have hFc := big_factor_literal ([] ++ ['('] ++ a ++ ['+'] ++ b ++ [')'] ++ ['*']) c [] hc
      stops_nil
    rw [List.append_nil, ← next_lexState_star] at hFc
    have hLc := @Big.mul _ _ (numberValue a + numberValue b) _ _ (type_lexState_star _ _) hFc
      (Big.termDone (by simp [type_lexState_nil]) (by simp [type_lexState_nil]))
    have hT := Big.term hP hLc
    have hE2 := Big.expr hT
      (Big.exprDone (by simp [type_lexState_nil]) (by simp [type_lexState_nil]))
    have hline : ['('] ++ a ++ ['+'] ++ b ++ [')', '*'] ++ c
        = '(' :: (a ++ '+' :: (b ++ ')' :: '*' :: c)) := by simp
    rw [hline]
    simp only [List.append_nil] at hE2
    exact eval_of_big_end hE2
  · rw [eval_congr g initState]; decide!
  · rw [eval_congr g initState]; decide!

/-- Witness for C2 with the literals `1.5`, `20` and `4.`. -/
theorem eval_precedence_witness :
    eval initState (['1', '.', '5'] ++ ['+'] ++ ['2', '0'] ++ ['*'] ++ ['4', '.'])
      = .ok (numberValue ['1', '.', '5'] + numberValue ['2', '0'] * numberValue ['4', '.']) :=
  (eval_precedence initState ['1', '.', '5'] ['2', '0'] ['4', '.']
    (by decide) (by decide) (by decide)).1

theorem stops_chainTail (rest : List (Op × List Char)) : Stops (chainTail rest) := by
  cases rest with
  | nil => exact stops_nil
  | cons x r =>
    obtain ⟨o, n⟩ := x
    cases o
    · exact stops_plus _
    · exact stops_minus _
    · exact stops_star _
    · exact stops_slash _

theorem type_chainTail_additive (p : List Char) (rest : List (Op × List Char))
    (h : ∀ x ∈ rest, x.1 = .plus ∨ x.1 = .minus) :
    (lexState p (chainTail rest)).current_token.type ≠ .TOKEN_MULTIPLY ∧
      (lexState p (chainTail rest)).current_token.type ≠ .TOKEN_DIVIDE := by
  cases rest with
  | nil => simp [chainTail, type_lexState_nil]
  | cons x r =>
    obtain ⟨o, n⟩ := x
    rcases h (o, n) (by simp) with ho | ho
    · simp only at ho; subst ho; simp [chainTail, Op.char, type_lexState_plus]
    · simp only at ho; subst ho; simp [chainTail, Op.char, type_lexState_minus]

/-- The loop of `parse_expression` on a chain of `+` and `-`. -/
theorem big_exprLoop_chain (rest : List (Op × List Char)) :
    ∀ (p : List Char) (acc : ℚ), (∀ x ∈ rest, IsNumberLiteral x.2) →
      (∀ x ∈ rest, x.1 = .plus ∨ x.1 = .minus) →
      Big (.exprLoop acc) (lexState p (chainTail rest))
        (.ok (chainValue acc rest, lexState (p ++ chainTail rest) [])) := by
  induction rest with
  | nil =>
    intro p acc _ _
    simp only [chainTail, chainValue, List.foldl_nil, List.append_nil]
    exact Big.exprDone (by simp [type_lexState_nil]) (by simp [type_lexState_nil])
  | cons x r ih =>
    intro p acc hlit hops
    obtain ⟨o, n⟩ := x
    have hn : IsNumberLiteral n := hlit (o, n) (by simp)
    have hlit' : ∀ x ∈ r, IsNumberLiteral x.2 := fun x hx => hlit x (by simp [hx])
    have hops' : ∀ x ∈ r, x.1 = .plus ∨ x.1 = .minus := fun x hx => hops x (by simp [hx])
    have hF := big_factor_literal (p ++ [o.char]) n (chainTail r) hn (stops_chainTail r)
    have hty := type_chainTail_additive (p ++ [o.char] ++ n) r hops'
    have hT := Big.term hF (Big.termDone hty.1 hty.2)
    rcases hops (o, n) (by simp) with ho | ho
    · simp only at ho; subst ho
      have hL := ih (p ++ ['+'] ++ n) (acc + numberValue n) hlit' hops'
      simp only [Op.char] at hT
      rw [← next_lexState_plus] at hT
      have := Big.plus (type_lexState_plus _ _) hT hL
      simpa [chainTail, chainValue, Op.char, Op.apply] using this
    · simp only at ho; subst ho
      have hL := ih (p ++ ['-'] ++ n) (acc - numberValue n) hlit' hops'
      simp only [Op.char] at hT
      rw [← next_lexState_minus] at hT
      have := Big.minus (type_lexState_minus _ _) hT hL
      simpa [chainTail, chainValue, Op.char, Op.apply] using this

/-- The loop of `parse_term` on a chain of `*` and `/` with no divisor of value zero. -/
theorem big_termLoop_chain (rest : List (Op × List Char)) :
    ∀ (p : List Char) (acc : ℚ), (∀ x ∈ rest, IsNumberLiteral x.2) →
      (∀ x ∈ rest, x.1 = .times ∨ x.1 = .over) →
      (∀ x ∈ rest, x.1 = .over → numberValue x.2 ≠ 0) →
      Big (.termLoop acc) (lexState p (chainTail rest))
        (.ok (chainValue acc rest, lexState (p ++ chainTail rest) [])) := by
  induction rest with
  | nil =>
    intro p acc _ _ _
    simp only [chainTail, chainValue, List.foldl_nil, List.append_nil]
    exact Big.termDone (by simp [type_lexState_nil]) (by simp [type_lexState_nil])
  | cons x r ih =>
    intro p acc hlit hops hnz
    obtain ⟨o, n⟩ := x
    have hn : IsNumberLiteral n := hlit (o, n) (by simp)
    have hlit' : ∀ x ∈ r, IsNumberLiteral x.2 := fun x hx => hlit x (by simp [hx])
    have hops' : ∀ x ∈ r, x.1 = .times ∨ x.1 = .over := fun x hx => hops x (by simp [hx])
    have hnz' : ∀ x ∈ r, x.1 = .over → numberValue x.2 ≠ 0 := fun x hx => hnz x (by simp [hx])
    have hF := big_factor_literal (p ++ [o.char]) n (chainTail r) hn (stops_chainTail r)
    rcases hops (o, n) (by simp) with ho | ho
    · simp only at ho; subst ho
      have hL := ih (p ++ ['*'] ++ n) (acc * numberValue n) hlit' hops' hnz'
      simp only [Op.char] at hF
      rw [← next_lexState_star] at hF
      have := Big.mul (type_lexState_star _ _) hF hL
      simpa [chainTail, chainValue, Op.char, Op.apply] using this
    · simp only at ho; subst ho
      have hL := ih (p ++ ['/'] ++ n) (acc / numberValue n) hlit' hops' hnz'
      simp only [Op.char] at hF
      rw [← next_lexState_slash] at hF
      have := Big.div (type_lexState_slash _ _) hF (hnz (.over, n) (by simp) rfl) hL
      simpa [chainTail, chainValue, Op.char, Op.apply] using this

/-- C3: for every chain of number literals `n0 op1 n1 ... opk nk` whose operators are all `+` or
`-`, or all `*` or `/` with no divisor literal of value zero, `eval` returns the left fold
`((n0 op1 n1) op2 n2) ... opk nk` (the literals with the values the tokenizer gives them); in
particular `8-3-2` gives 3 and `16/4/2` gives 2. -/
theorem eval_left_assoc (g : State) (n0 : List Char) (rest : List (Op × List Char))
    (h0 : IsNumberLiteral n0) (hlit : ∀ x ∈ rest, IsNumberLiteral x.2)
    (hops : (∀ x ∈ rest, x.1 = .plus ∨ x.1 = .minus) ∨
      ((∀ x ∈ rest, x.1 = .times ∨ x.1 = .over) ∧
        ∀ x ∈ rest, x.1 = .over → numberValue x.2 ≠ 0)) :
    eval g (chainText n0 rest) = .ok (chainValue (numberValue n0) rest) ∧
      eval g ['8', '-', '3', '-', '2'] = .ok 3 ∧
      eval g ['1', '6', '/', '4', '/', '2'] = .ok 2 := by
  refine ⟨?_, ?_, ?_⟩
  · have hF := big_factor_literal [] n0 (chainTail rest) h0 (stops_chainTail rest)
    rcases hops with hadd | ⟨hmul, hnz⟩
    · have hty := type_chainTail_additive ([] ++ n0) rest hadd
      have hT := Big.term hF (Big.termDone hty.1 hty.2)
      have hE := Big.expr hT (big_exprLoop_chain rest ([] ++ n0) _ hlit hadd)
      exact eval_of_big_end hE
    · have hT := Big.term hF (big_termLoop_chain rest ([] ++ n0) _ hlit hmul hnz)
      have hE := Big.expr hT
        (Big.exprDone (by simp [type_lexState_nil]) (by simp [type_lexState_nil]))
      exact eval_of_big_end hE
  · rw [eval_congr g initState]; decide!
  · rw [eval_congr g initState]; decide!

/-- Witness for C3 on the chain `16/4/2`. -/
theorem eval_left_assoc_witness :
    eval initState (chainText ['1', '6'] [(.over, ['4']), (.over, ['2'])])
      = .ok (chainValue (numberValue ['1', '6']) [(.over, ['4']), (.over, ['2'])]) :=
  (eval_left_assoc initState ['1', '6'] [(.over, ['4']), (.over, ['2'])] (by decide)
    (by decide) (Or.inr ⟨by decide, by decide!⟩)).1

/-! ## The value of a literal -/

/-- The number loop on a text that starts with the digits `ds`. -/
theorem scanList_digits_append (ds rest : List Char) (hds : ∀ c ∈ ds, isdigit c = true) :
    ∀ (v : ℚ) (dp : Int),
      scanList (ds ++ rest) v dp =
        ((scanList rest (valueAfter v ds) (pointStep^[ds.length] dp)).1 + ds.length,
          (scanList rest (valueAfter v ds) (pointStep^[ds.length] dp)).2) := by
  induction ds with
  | nil => intro v dp; simp [valueAfter]
  | cons c r ih =>
    intro v dp
    have hc := hds c (by simp)
    have hr := ih (fun x hx => hds x (by simp [hx]))
    rw [List.cons_append]
    simp only [scanList, hc, true_or, if_true, ne_dot_of_isdigit hc, if_false, hr,
      List.length_cons, Function.iterate_succ, Function.comp_apply, valueAfter,
      List.foldl_cons, pointStep]
    simp [Nat.add_assoc]

theorem pointStep_zero_iterate (k : Nat) : pointStep^[k] 0 = 0 := by
  induction k with
  | zero => rfl
  | succ n ih => rw [Function.iterate_succ, Function.comp_apply]; simpa [pointStep] using ih

/-- The number loop on a text that starts with `I.F`, both texts of digits. -/
theorem scanList_decimal (I F rest : List Char) (hI : ∀ c ∈ I, isdigit c = true)
    (hF : ∀ c ∈ F, isdigit c = true) :
    scanList (I ++ '.' :: (F ++ rest)) 0 0 =
      ((scanList rest (valueAfter 0 (I ++ F)) (pointAfter F.length)).1 + (I.length + 1 + F.length),
        (scanList rest (valueAfter 0 (I ++ F)) (pointAfter F.length)).2) := by
  rw [scanList_digits_append I _ hI, pointStep_zero_iterate]
  have hdot : isdigit '.' = false := by decide
  simp only [scanList, hdot, Bool.false_eq_true, false_or, and_self, if_true]
  rw [scanList_digits_append F _ hF]
  simp [valueAfter, pointAfter, Nat.add_assoc, Nat.add_comm, Nat.add_left_comm]

theorem valueAfter_cast (ds : List Char) : ∀ (n : Nat),
    valueAfter (n : ℚ) ds = ((ds.foldl (fun n c => n * 10 + (c.toNat - 48)) n : Nat) : ℚ) := by
  induction ds with
  | nil => intro n; rfl
  | cons c r ih =>
    intro n
    simp only [valueAfter, List.foldl_cons] at ih ⊢
    rw [← ih]
    simp [digitVal]

theorem valueAfter_zero (ds : List Char) : valueAfter 0 ds = (digitsNat ds : ℚ) := by
  have := valueAfter_cast ds 0
  simpa [digitsNat] using this

/-- Up to nine digits behind the point, `decimal_point` is the power of ten. -/
theorem pointAfter_eq (k : Nat) (hk : k ≤ 9) : pointAfter k = 10 ^ k := by
  interval_cases k <;> decide

/-- Up to 31 digits behind the point, `decimal_point` is not zero. -/
theorem pointAfter_ne_zero (k : Nat) (hk : k ≤ 31) : pointAfter k ≠ 0 := by
  interval_cases k <;> decide

/-- From 32 digits behind the point on, `decimal_point` is zero again. -/
theorem pointAfter_eq_zero (k : Nat) (hk : 32 ≤ k) : pointAfter k = 0 := by
  obtain ⟨d, rfl⟩ : ∃ d, k = d + 32 := ⟨k - 32, by omega⟩
  have h32 : pointAfter 32 = 0 := by decide
  simp only [pointAfter] at h32 ⊢
  rw [Function.iterate_add_apply, h32, pointStep_zero_iterate]

theorem scanList_stop (rest : List Char) (v : ℚ) (dp : Int)
    (h : ∀ c ∈ rest.head?, isdigit c = false ∧ (c = '.' → dp ≠ 0)) :
    scanList rest v dp = (0, v, dp) := by
  cases rest with
  | nil => rfl
  | cons c r =>
    obtain ⟨h1, h2⟩ := h c (by simp)
    have : ¬ (isdigit c = true ∨ (c = '.' ∧ dp = 0)) := by
      rintro (h | ⟨h, h'⟩)
      · rw [h1] at h; exact absurd h (by simp)
      · exact h2 h h'
    rw [scanList, if_neg this]

theorem lexList_of_head (c : Char) (s : List Char) (hc : isdigit c = true ∨ c = '.') :
    lexList (c :: s) =
      (⟨.TOKEN_NUMBER, if (scanList (c :: s) 0 0).2.2 ≠ 0
          then (scanList (c :: s) 0 0).2.1 / ((scanList (c :: s) 0 0).2.2 : ℚ)
          else (scanList (c :: s) 0 0).2.1⟩, (scanList (c :: s) 0 0).1) := by
  have hsp : isspace c = false := by
    rcases hc with h | h
    · exact isspace_of_isdigit h
    · subst h; decide
  have hn : c ≠ NUL := by
    rcases hc with h | h
    · exact ne_nul_of_isdigit h
    · subst h; decide
  simp only [lexList, skipList, hsp, Bool.false_eq_true, and_false, if_false, List.drop_zero,
    List.headD_cons, hn, hc, if_true, Nat.zero_add]

/-- The token read from a text that starts with `I.F`: when the text that follows does not
start with a digit, nor with a `.` that the loop would accept, it is a `Number`, its value the
digits read over `decimal_point` (when that is not zero), and the cursor moves behind `F`. -/
theorem lexList_decimal (I F rest : List Char) (hI : ∀ c ∈ I, isdigit c = true)
    (hF : ∀ c ∈ F, isdigit c = true)
    (hrest : ∀ c ∈ rest.head?, isdigit c = false ∧ (c = '.' → pointAfter F.length ≠ 0)) :
    lexList (I ++ '.' :: (F ++ rest)) =
      (⟨.TOKEN_NUMBER, if pointAfter F.length ≠ 0
          then valueAfter 0 (I ++ F) / (pointAfter F.length : ℚ)
          else valueAfter 0 (I ++ F)⟩, I.length + 1 + F.length) := by
  have hs := scanList_decimal I F rest hI hF
  rw [scanList_stop rest _ _ hrest] at hs
  cases I with
  | nil =>
    rw [List.nil_append] at hs ⊢
    rw [lexList_of_head '.' _ (Or.inr rfl), hs]
    simp
  | cons c r =>
    rw [List.cons_append] at hs ⊢
    rw [lexList_of_head c _ (Or.inl (hI c (by simp))), hs]
    simp

/-- The token read from a text that starts with the digits `I`, not followed by a digit or
a `.`. -/
theorem lexList_integer (I rest : List Char) (hI : ∀ c ∈ I, isdigit c = true) (hne : I ≠ [])
    (hrest : Stops rest) :
    lexList (I ++ rest) = (⟨.TOKEN_NUMBER, valueAfter 0 I⟩, I.length) := by
  have hs := scanList_digits_append I rest hI 0 0
  rw [pointStep_zero_iterate, scanList_stop rest _ _
    (fun c hc => ⟨(hrest c hc).1, fun h => absurd h (hrest c hc).2⟩)] at hs
  obtain ⟨c, r, rfl⟩ := List.exists_cons_of_ne_nil hne
  rw [List.cons_append] at hs ⊢
  rw [lexList_of_head c _ (Or.inl (hI c (by simp))), hs]
  simp

/-- With at most nine digits behind the point, the value of the token is the decimal number
written. -/
theorem lexList_decimal_short (I F rest : List Char) (hI : ∀ c ∈ I, isdigit c = true)
    (hF : ∀ c ∈ F, isdigit c = true) (hlen : F.length ≤ 9)
    (hrest : ∀ c ∈ rest.head?, isdigit c = false) :
    lexList (I ++ '.' :: (F ++ rest)) = (⟨.TOKEN_NUMBER, decimalValue I F⟩, I.length + 1 + F.length) := by
  have hp := pointAfter_ne_zero F.length (by omega)
  rw [lexList_decimal I F rest hI hF (fun c hc => ⟨hrest c hc, fun _ => hp⟩)]
  simp only [hp, ne_eq, not_false_eq_true, if_true, decimalValue, valueAfter_zero,
    pointAfter_eq F.length hlen]
  simp

theorem lexList_integer_value (I rest : List Char) (hI : ∀ c ∈ I, isdigit c = true)
    (hne : I ≠ []) (hrest : Stops rest) :
    lexList (I ++ rest) = (⟨.TOKEN_NUMBER, decimalValue I []⟩, I.length) := by
  rw [lexList_integer I rest hI hne hrest]
  simp [decimalValue, valueAfter_zero]

/-- The run of `parse_factor` on a text the tokenizer reads as one `Number` token. -/
theorem big_factor_number (p a rest : List Char) (v : ℚ)
    (hl : lexList (a ++ rest) = (⟨.TOKEN_NUMBER, v⟩, a.length)) :
    Big .factor (lexState p (a ++ rest)) (.ok (v, lexState (p ++ a) rest)) := by
  have hn := next_token_lexState p a rest (by rw [hl])
  have hB := @Big.number (lexState p (a ++ rest)) (by simp [lexState, hl])
  rw [hn] at hB
  simpa [lexState, hl] using hB

/-- With at most nine digits behind the point, `get_next_token` at a literal `I.F` that no digit
follows returns the `Number` token of the decimal number written and leaves the cursor behind
the literal. -/
theorem get_next_token_decimal_short (st : State) (I F rest : List Char)
    (hst : st.input.drop st.pos = I ++ '.' :: (F ++ rest))
    (hI : ∀ c ∈ I, isdigit c = true) (hF : ∀ c ∈ F, isdigit c = true) (hlen : F.length ≤ 9)
    (hrest : ∀ c ∈ rest.head?, isdigit c = false) :
    (get_next_token st).1 = ⟨.TOKEN_NUMBER, decimalValue I F⟩ ∧
      (get_next_token st).2.pos = st.pos + (I.length + 1 + F.length) := by
  rw [get_next_token_eq, hst, lexList_decimal_short I F rest hI hF hlen hrest]
  exact ⟨rfl, rfl⟩

/-- At a literal of digits only that neither a digit nor a `.` follows, `get_next_token`
returns the `Number` token of the integer written and leaves the cursor behind the literal. -/
theorem get_next_token_integer (st : State) (I rest : List Char)
    (hst : st.input.drop st.pos = I ++ rest)
    (hI : ∀ c ∈ I, isdigit c = true) (hne : I ≠ []) (hrest : Stops rest) :
    (get_next_token st).1 = ⟨.TOKEN_NUMBER, decimalValue I []⟩ ∧
      (get_next_token st).2.pos = st.pos + I.length := by
  rw [get_next_token_eq, hst, lexList_integer_value I rest hI hne hrest]
  exact ⟨rfl, rfl⟩

/-- C5: at the literal `0.0000000001`, with ten digits behind the point, `get_next_token`
returns a `Number` token whose value is 1/1410065408 and not the decimal number 1/10^10 that the
literal denotes: `decimal_point` has left the range of a 32-bit `int`. -/
theorem get_next_token_ten_digit_fraction :
    (get_next_token ⟨['0', '.', '0', '0', '0', '0', '0', '0', '0', '0', '0', '1'], 0,
        ⟨.TOKEN_END, 0⟩⟩).1 = ⟨.TOKEN_NUMBER, 1 / 1410065408⟩ ∧
      decimalValue ['0'] ['0', '0', '0', '0', '0', '0', '0', '0', '0', '1'] = 1 / 10000000000 ∧
      (get_next_token ⟨['0', '.', '0', '0', '0', '0', '0', '0', '0', '0', '0', '1'], 0,
        ⟨.TOKEN_END, 0⟩⟩).1.value ≠
        decimalValue ['0'] ['0', '0', '0', '0', '0', '0', '0', '0', '0', '1'] := by
  decide!

/-- With at most nine digits in `b`, the number scan at the start of `a.b.c` (whatever the
text `c`) stops before the second `.`: the token is the `Number` of the decimal number `a.b`, the cursor is on the second
`.`, and `eval` fails with the "Unexpected token after expression" error. -/
theorem eval_second_point_short (g : State) (a b c : List Char)
    (ha : ∀ x ∈ a, isdigit x = true) (hb : ∀ x ∈ b, isdigit x = true)
    (hlen : b.length ≤ 9) :
    (get_next_token ⟨a ++ '.' :: (b ++ '.' :: c), 0, g.current_token⟩).1
        = ⟨.TOKEN_NUMBER, decimalValue a b⟩ ∧
      (get_next_token ⟨a ++ '.' :: (b ++ '.' :: c), 0, g.current_token⟩).2.pos
        = a.length + 1 + b.length ∧
      eval g (a ++ '.' :: (b ++ '.' :: c)) = .error .unexpectedTokenAfterExpression := by
  have hrest : ∀ x ∈ ('.' :: c).head?, isdigit x = false := by
    intro x hx
    simp at hx
    subst hx
    decide
  have hg := get_next_token_decimal_short ⟨a ++ '.' :: (b ++ '.' :: c), 0, g.current_token⟩
    a b ('.' :: c) rfl ha hb hlen hrest
  refine ⟨hg.1, by simpa using hg.2, ?_⟩
  have hl := lexList_decimal_short a b ('.' :: c) ha hb hlen hrest
  have hline : a ++ '.' :: (b ++ '.' :: c) = (a ++ '.' :: b) ++ '.' :: c := by simp
  have hlen2 : (a ++ '.' :: b).length = a.length + 1 + b.length := by
    simp only [List.length_append, List.length_cons]; omega
  rw [hline, ← hlen2] at hl
  have hF := big_factor_number [] (a ++ '.' :: b) ('.' :: c) (decimalValue a b) hl
  have hty : ∀ p, (lexState p ('.' :: c)).current_token.type = .TOKEN_NUMBER := by
    intro p
    simp [lexState, lexList_of_head '.' c (Or.inr rfl)]
  have hT := Big.term hF (Big.termDone (by rw [hty]; simp) (by rw [hty]; simp))
  have hE := Big.expr hT (Big.exprDone (by rw [hty]; simp) (by rw [hty]; simp))
  rw [← hline, ← startState_eq g] at hE
  rw [eval_of_big hE]
  simp [finish, hty]

/-- C6: on the line `0.` followed by 32 zeros and `.5`, the number scan does not stop before
the second `.` (the character at index 34): after 32 digits behind the first point the 32-bit
`decimal_point` is zero again, the second `.` is read as a first one, and one `Number` token of
value 5/10 takes the whole line of 36 characters, so `eval` returns 1/2 instead of failing. -/
theorem eval_second_point_accepted :
    (get_next_token ⟨['0', '.'] ++ List.replicate 32 '0' ++ ['.', '5'], 0, ⟨.TOKEN_END, 0⟩⟩).2.pos
        = 36 ∧
      (get_next_token ⟨['0', '.'] ++ List.replicate 32 '0' ++ ['.', '5'], 0, ⟨.TOKEN_END, 0⟩⟩).1
        = ⟨.TOKEN_NUMBER, 1 / 2⟩ ∧
      eval initState (['0', '.'] ++ List.replicate 32 '0' ++ ['.', '5']) = .ok (1 / 2) := by
  decide!

/-! ## Expression trees -/

theorem termText_of_factorText {s : List Char} {v : ℚ} (h : FactorText s v) : TermText s v :=
  fun p rest _ hrest hl => Big.term (h p rest hrest) hl

theorem exprText_of_termText {s : List Char} {v : ℚ} (h : TermText s v) : ExprText s v := by
  intro p rest r hrest h1 h2 hl
  exact Big.expr (h p rest _ hrest (Big.termDone (by simpa [lexState] using h1)
    (by simpa [lexState] using h2))) hl

theorem factorText_paren {s : List Char} {v : ℚ} (h : ExprText s v) :
    FactorText ('(' :: (s ++ [')'])) v := by
  intro p rest _
  have hE := h (p ++ ['(']) (')' :: rest) _ (stops_rparen rest) (by simp [lexList_rparen])
    (by simp [lexList_rparen])
    (Big.exprDone (by simp [type_lexState_rparen]) (by simp [type_lexState_rparen]))
  rw [← next_lexState_lparen] at hE
  have hP := Big.paren (type_lexState_lparen _ _) hE (type_lexState_rparen _ _)
  rw [next_lexState_rparen] at hP
  simpa using hP

theorem termText_mul {s1 s2 : List Char} {v1 v2 : ℚ} (h1 : TermText s1 v1)
    (h2 : FactorText s2 v2) : TermText (s1 ++ '*' :: s2) (v1 * v2) := by
  intro p rest r hrest hl
  have hF := h2 (p ++ s1 ++ ['*']) rest hrest
  rw [← next_lexState_star] at hF
  have hl' : Big (.termLoop (v1 * v2)) (lexState (p ++ s1 ++ ['*'] ++ s2) rest) r := by
    simpa using hl
  have hL := Big.mul (type_lexState_star _ _) hF hl'
  have := h1 p ('*' :: (s2 ++ rest)) r (stops_star _) hL
  simpa using this

theorem exprText_add {s1 s2 : List Char} {v1 v2 : ℚ} (h1 : ExprText s1 v1)
    (h2 : TermText s2 v2) : ExprText (s1 ++ '+' :: s2) (v1 + v2) := by
  intro p rest r hrest hm hd hl
  have hT := h2 (p ++ s1 ++ ['+']) rest _ hrest
    (Big.termDone (by simpa [lexState] using hm) (by simpa [lexState] using hd))
  rw [← next_lexState_plus] at hT
  have hl' : Big (.exprLoop (v1 + v2)) (lexState (p ++ s1 ++ ['+'] ++ s2) rest) r := by
    simpa using hl
  have hL := Big.plus (type_lexState_plus _ _) hT hl'
  have := h1 p ('+' :: (s2 ++ rest)) r (stops_plus _) (by simp [lexList_plus])
    (by simp [lexList_plus]) hL
  simpa using this

theorem exprText_sub {s1 s2 : List Char} {v1 v2 : ℚ} (h1 : ExprText s1 v1)
    (h2 : TermText s2 v2) : ExprText (s1 ++ '-' :: s2) (v1 - v2) := by
  intro p rest r hrest hm hd hl
  have hT := h2 (p ++ s1 ++ ['-']) rest _ hrest
    (Big.termDone (by simpa [lexState] using hm) (by simpa [lexState] using hd))
  rw [← next_lexState_minus] at hT
  have hl' : Big (.exprLoop (v1 - v2)) (lexState (p ++ s1 ++ ['-'] ++ s2) rest) r := by
    simpa using hl
  have hL := Big.minus (type_lexState_minus _ _) hT hl'
  have := h1 p ('-' :: (s2 ++ rest)) r (stops_minus _) (by simp [lexList_minus])
    (by simp [lexList_minus]) hL
  simpa using this

/-- The token read at a valid literal with at most nine digits behind the point. -/
theorem lexList_text (l : Literal) (hv : l.Valid) (hs : l.Short) (rest : List Char)
    (hrest : Stops rest) :
    lexList (l.text ++ rest) = (⟨.TOKEN_NUMBER, l.value⟩, l.text.length) := by
  obtain ⟨hw, hf, hne⟩ := hv
  cases hfr : l.frac with
  | none =>
    have hne' : l.whole ≠ [] := by
      rcases hne with h | h
      · exact h
      · exact absurd hfr h
    simp only [Literal.text, Literal.value, hfr, Option.getD_none]
    exact lexList_integer_value l.whole rest hw hne' hrest
  | some F =>
    simp only [hfr, Option.getD_some] at hf
    simp only [Literal.Short, hfr, Option.getD_some] at hs
    simp only [Literal.text, Literal.value, hfr, Option.getD_some]
    have hl := lexList_decimal_short l.whole F rest hw hf hs (fun c hc => (hrest c hc).1)
    have hlen : (l.whole ++ '.' :: F).length = l.whole.length + 1 + F.length := by
      simp only [List.length_append, List.length_cons]; omega
    have hline : l.whole ++ '.' :: (F ++ rest) = (l.whole ++ '.' :: F) ++ rest := by simp
    rw [hline] at hl
    rw [hl, hlen]

theorem factorText_literal (l : Literal) (hv : l.Valid) (hs : l.Short) :
    FactorText l.text l.value :=
  fun p rest hrest => big_factor_number p l.text rest l.value (lexList_text l hv hs rest hrest)

/-- The three readings of the text of a valid tree. -/
theorem render_texts (t : Expr) (ht : t.Valid) :
    FactorText (t.render 2) t.value ∧ TermText (t.render 1) t.value ∧
      ExprText (t.render 0) t.value := by
  induction t with
  | lit l =>
    have hF := factorText_literal l ht.1 ht.2
    exact ⟨hF, termText_of_factorText hF, exprText_of_termText (termText_of_factorText hF)⟩
  | add a b iha ihb =>
    have hE : ExprText (a.render 0 ++ '+' :: b.render 1) (a.value + b.value) :=
      exprText_add (iha ht.1).2.2 (ihb ht.2).2.1
    have hF := factorText_paren hE
    exact ⟨hF, termText_of_factorText hF, hE⟩
  | sub a b iha ihb =>
    have hE : ExprText (a.render 0 ++ '-' :: b.render 1) (a.value - b.value) :=
      exprText_sub (iha ht.1).2.2 (ihb ht.2).2.1
    have hF := factorText_paren hE
    exact ⟨hF, termText_of_factorText hF, hE⟩
  | mul a b iha ihb =>
    have hT : TermText (a.render 1 ++ '*' :: b.render 2) (a.value * b.value) :=
      termText_mul (iha ht.1).2.1 (ihb ht.2).1
    have hE := exprText_of_termText hT
    exact ⟨factorText_paren hE, hT, hE⟩
  | paren a iha =>
    have hF := factorText_paren (iha ht).2.2
    exact ⟨hF, termText_of_factorText hF, exprText_of_termText (termText_of_factorText hF)⟩

/-- For every tree of literals with at most nine digits behind the point, `+`, `-`, `*` and
parentheses, `eval` of the infix text of the tree returns the value of the tree. -/
theorem eval_render_short (g : State) (t : Expr) (ht : t.Valid) :
    eval g (t.render 0) = .ok t.value := by
  have h := (render_texts t ht).2.2 [] [] _ stops_nil (by simp [lexList_nil])
    (by simp [lexList_nil])
    (Big.exprDone (by simp [type_lexState_nil]) (by simp [type_lexState_nil]))
  simp only [List.append_nil, List.nil_append] at h
  exact eval_of_big_end h

/-- The text of a valid literal is a number literal. -/
theorem isNumberLiteral_text (l : Literal) (hv : l.Valid) : IsNumberLiteral l.text := by
  obtain ⟨hw, hf, hne⟩ := hv
  have hcw : l.whole.count '.' = 0 :=
    List.count_eq_zero.mpr (fun h => ne_dot_of_isdigit (hw _ h) rfl)
  cases hfr : l.frac with
  | none =>
    have hne' : l.whole ≠ [] := by
      rcases hne with h | h
      · exact h
      · exact absurd hfr h
    simp only [Literal.text, hfr]
    exact ⟨hne', fun c hc => Or.inl (hw c hc), by omega⟩
  | some F =>
    simp only [hfr, Option.getD_some] at hf
    have hcf : F.count '.' = 0 :=
      List.count_eq_zero.mpr (fun h => ne_dot_of_isdigit (hf _ h) rfl)
    simp only [Literal.text, hfr]
    refine ⟨by simp, ?_, ?_⟩
    · intro c hc
      simp only [List.mem_append, List.mem_cons] at hc
      rcases hc with h | h | h
      · exact Or.inl (hw c h)
      · exact Or.inr h
      · exact Or.inl (hf c h)
    · simp [List.count_append, List.count_cons, hcw, hcf]

/-- The value the tokenizer gives a valid literal with at most nine digits behind the point is
the decimal number the literal denotes. -/
theorem numberValue_text (l : Literal) (hv : l.Valid) (hs : l.Short) :
    numberValue l.text = l.value := by
  have h1 := lexList_literal l.text [] (isNumberLiteral_text l hv) stops_nil
  have h2 := lexList_text l hv hs [] stops_nil
  rw [h1] at h2
  simpa using congrArg (fun x => x.1.value) h2

/-- C1: the tree that is the one literal `0.0000000001` has the infix text `0.0000000001` and
the value 1/10^10, and `eval` of its text returns 1/1410065408, which is not its value:
`decimal_point` has left the range of a 32-bit `int` at the tenth digit behind the point. -/
theorem eval_render_long_fraction :
    (Expr.lit ⟨['0'], some ['0', '0', '0', '0', '0', '0', '0', '0', '0', '1']⟩).render 0
        = ['0', '.', '0', '0', '0', '0', '0', '0', '0', '0', '0', '1'] ∧
      (Expr.lit ⟨['0'], some ['0', '0', '0', '0', '0', '0', '0', '0', '0', '1']⟩).value
        = 1 / 10000000000 ∧
      eval initState
          ((Expr.lit ⟨['0'], some ['0', '0', '0', '0', '0', '0', '0', '0', '0', '1']⟩).render 0)
        = .ok (1 / 1410065408) ∧
      eval initState
          ((Expr.lit ⟨['0'], some ['0', '0', '0', '0', '0', '0', '0', '0', '0', '1']⟩).render 0)
        ≠ .ok (Expr.lit ⟨['0'], some ['0', '0', '0', '0', '0', '0', '0', '0', '0', '1']⟩).value := by
  decide!

/-! ## Termination -/

/-- With the fuel of `bound`, no procedure of the parser runs out of fuel. -/
theorem run_total : ∀ (n : Nat) (c : Call) (st : State), bound c st ≤ n →
    run n c st ≠ .error .fuelExhausted := by
  intro n
  induction n with
  | zero =>
    intro c st hb
    cases c <;> simp [bound] at hb
  | succ n ih =>
    intro c st hb
    cases c with
    | factor =>
      simp only [run, parse_factor]
      by_cases h1 : st.current_token.type = .TOKEN_NUMBER
      · simp [h1]
      · by_cases h2 : st.current_token.type = .TOKEN_LPAREN
        · have hlt := weight_next_lt st (by rw [h2]; simp) (by rw [h2]; simp)
          have hE := ih .expr (next_token st) (by simp only [bound] at hb ⊢; omega)
          simp only [run] at hE
          rw [if_neg h1, if_pos h2]
          cases hp : parse_expression n (next_token st) with
          | error e => rw [hp] at hE; simpa using hE
          | ok p =>
            obtain ⟨v, st1⟩ := p
            simp only []
            split <;> simp
        · simp [h1, h2]
    | termLoop acc =>
      simp only [run, parse_term_loop]
      by_cases h1 : st.current_token.type = .TOKEN_MULTIPLY
      · have hlt := weight_next_lt st (by rw [h1]; simp) (by rw [h1]; simp)
        have hF := ih .factor (next_token st) (by simp only [bound] at hb ⊢; omega)
        simp only [run] at hF
        rw [if_pos h1]
        cases hp : parse_factor n (next_token st) with
        | error e => rw [hp] at hF; simpa using hF
        | ok p =>
          obtain ⟨v, st1⟩ := p
          have hw := big_weight_le (big_of_run n .factor _ _ hp (by simp)) _ _ rfl
          have hL := ih (.termLoop (acc * v)) st1 (by simp only [bound] at hb ⊢; omega)
          simpa [run] using hL
      · by_cases h2 : st.current_token.type = .TOKEN_DIVIDE
        · have hlt := weight_next_lt st (by rw [h2]; simp) (by rw [h2]; simp)
          have hF := ih .factor (next_token st) (by simp only [bound] at hb ⊢; omega)
          simp only [run] at hF
          rw [if_neg h1, if_pos h2]
          cases hp : parse_factor n (next_token st) with
          | error e => rw [hp] at hF; simpa using hF
          | ok p =>
            obtain ⟨v, st1⟩ := p
            have hw := big_weight_le (big_of_run n .factor _ _ hp (by simp)) _ _ rfl
            have hL := ih (.termLoop (acc / v)) st1 (by simp only [bound] at hb ⊢; omega)
            simp only [run] at hL
            simp only []
            split
            · simp
            · exact hL
        · simp [h1, h2]
    | term =>
      simp only [run, parse_term]
      have hF := ih .factor st (by simp only [bound] at hb ⊢; omega)
      simp only [run] at hF
      cases hp : parse_factor n st with
      | error e => rw [hp] at hF; simpa using hF
      | ok p =>
        obtain ⟨v, st1⟩ := p
        have hw := big_weight_le (big_of_run n .factor _ _ hp (by simp)) _ _ rfl
        have hL := ih (.termLoop v) st1 (by simp only [bound] at hb ⊢; omega)
        simpa [run] using hL
    | exprLoop acc =>
      simp only [run, parse_expression_loop]
      by_cases h1 : st.current_token.type = .TOKEN_PLUS
      · have hlt := weight_next_lt st (by rw [h1]; simp) (by rw [h1]; simp)
        have hT := ih .term (next_token st) (by simp only [bound] at hb ⊢; omega)
        simp only [run] at hT
        rw [if_pos h1]
        cases hp : parse_term n (next_token st) with
        | error e => rw [hp] at hT; simpa using hT
        | ok p =>
          obtain ⟨v, st1⟩ := p
          have hw := big_weight_le (big_of_run n .term _ _ hp (by simp)) _ _ rfl
          have hL := ih (.exprLoop (acc + v)) st1 (by simp only [bound] at hb ⊢; omega)
          simpa [run] using hL
      · by_cases h2 : st.current_token.type = .TOKEN_MINUS
        · have hlt := weight_next_lt st (by rw [h2]; simp) (by rw [h2]; simp)
          have hT := ih .term (next_token st) (by simp only [bound] at hb ⊢; omega)
          simp only [run] at hT
          rw [if_neg h1, if_pos h2]
          cases hp : parse_term n (next_token st) with
          | error e => rw [hp] at hT; simpa using hT
          | ok p =>
            obtain ⟨v, st1⟩ := p
            have hw := big_weight_le (big_of_run n .term _ _ hp (by simp)) _ _ rfl
            have hL := ih (.exprLoop (acc - v)) st1 (by simp only [bound] at hb ⊢; omega)
            simpa [run] using hL
        · simp [h1, h2]
    | expr =>
      simp only [run, parse_expression]
      have hT := ih .term st (by simp only [bound] at hb ⊢; omega)
      simp only [run] at hT
      cases hp : parse_term n st with
      | error e => rw [hp] at hT; simpa using hT
      | ok p =>
        obtain ⟨v, st1⟩ := p
        have hw := big_weight_le (big_of_run n .term _ _ hp (by simp)) _ _ rfl
        have hL := ih (.exprLoop v) st1 (by simp only [bound] at hb ⊢; omega)
        simpa [run] using hL

/-- The run of `parse_expression` inside `eval` does not run out of fuel. -/
theorem parse_expression_evalFuel (g : State) (line : List Char) :
    parse_expression (evalFuel line) (startState g line) ≠ .error .fuelExhausted := by
  have hw := weight_startState g line
  have := run_total (evalFuel line) .expr (startState g line)
    (by simp only [bound, evalFuel]; omega)
  simpa [run] using this

/-- Every line has a run of `Big` of `parse_expression`, and `eval` returns what `finish` makes
of it. -/
theorem exists_big_eval (g : State) (line : List Char) :
    ∃ r, Big .expr (startState g line) r ∧ eval g line = finish r := by
  have h := parse_expression_evalFuel g line
  have hB := big_of_run (evalFuel line) .expr (startState g line) _ rfl
    (by simpa [run] using h)
  exact ⟨_, hB, eval_of_big hB⟩

/-- A run of `Big` does not end on the fuel error. -/
theorem big_ne_fuelExhausted {c : Call} {st : State} {r : Except Error (ℚ × State)}
    (h : Big c st r) : r ≠ .error .fuelExhausted := by
  have := run_total (bound c st) c st (Nat.le_refl _)
  rw [run_of_big h _ (Nat.le_refl _)] at this
  exact this

/-- The function `eval` returns a value or one of the four errors of the source. -/
theorem eval_isOutcome (g : State) (line : List Char) : IsOutcome (eval g line) := by
  obtain ⟨r, hB, he⟩ := exists_big_eval g line
  have hr := big_ne_fuelExhausted hB
  rw [he]
  cases r with
  | error e =>
    simp only [finish, IsOutcome]
    intro h; exact hr (by rw [h])
  | ok p =>
    obtain ⟨v, st1⟩ := p
    simp only [finish]
    split <;> simp [IsOutcome]

/-! ## The loops of the tokenizer end within their fuel -/

theorem skipList_exit (s : List Char) :
    ¬ ((s.drop (skipList s)).headD NUL ≠ NUL ∧ isspace ((s.drop (skipList s)).headD NUL) = true) := by
  induction s with
  | nil => simp [skipList]
  | cons c r ih =>
    by_cases hc : c ≠ NUL ∧ isspace c = true
    · rw [skipList, if_pos hc]
      simpa using ih
    · rw [skipList, if_neg hc]
      simpa using hc

theorem scanList_exit (s : List Char) : ∀ (v : ℚ) (dp : Int),
    ¬ (isdigit ((s.drop (scanList s v dp).1).headD NUL) = true ∨
      ((s.drop (scanList s v dp).1).headD NUL = '.' ∧ (scanList s v dp).2.2 = 0)) := by
  induction s with
  | nil =>
    intro v dp
    have h1 : isdigit NUL = false := by decide
    have h2 : NUL ≠ '.' := by decide
    simp [scanList, h1, h2]
  | cons c r ih =>
    intro v dp
    by_cases hc : isdigit c = true ∨ (c = '.' ∧ dp = 0)
    · by_cases hd : c = '.'
      · have := ih v 1
        rw [scanList, if_pos hc, if_pos hd]
        simpa using this
      · have := ih (v * 10 + digitVal c) (if dp ≠ 0 then wrap32 (dp * 10) else dp)
        rw [scanList, if_pos hc, if_neg hd]
        simpa using this
    · rw [scanList, if_neg hc]
      simpa using hc

/-- The whitespace loop, with the fuel `get_next_token` gives it, stops where its condition is
false. -/
theorem skip_spaces_exit (input : List Char) (pos : Nat) :
    ¬ (charAt input (skip_spaces (input.length - pos) input pos) ≠ NUL ∧
      isspace (charAt input (skip_spaces (input.length - pos) input pos)) = true) := by
  have h := skip_spaces_eq (input.drop pos) input pos (input.length - pos) rfl (by simp)
  have hd : input.drop (pos + skipList (input.drop pos))
      = (input.drop pos).drop (skipList (input.drop pos)) := by
    rw [List.drop_drop, Nat.add_comm]
  rw [h, charAt_eq_headD, hd]
  exact skipList_exit _

/-- The number loop, with the fuel `get_next_token` gives it, stops where its condition is
false. -/
theorem scan_number_exit (input : List Char) (pos : Nat) (v : ℚ) (dp : Int) :
    ¬ (isdigit (charAt input (scan_number (input.length - pos) input pos v dp).1) = true ∨
      (charAt input (scan_number (input.length - pos) input pos v dp).1 = '.' ∧
        (scan_number (input.length - pos) input pos v dp).2.2 = 0)) := by
  have h := scan_number_eq (input.drop pos) input pos (input.length - pos) v dp rfl (by simp)
  have hd : input.drop (pos + (scanList (input.drop pos) v dp).1)
      = (input.drop pos).drop (scanList (input.drop pos) v dp).1 := by
    rw [List.drop_drop, Nat.add_comm]
  rw [h, charAt_eq_headD]
  simp only []
  rw [hd]
  exact scanList_exit _ v dp

/-! ## Claims about termination, state and the cursor -/

/-- C12: for every line, `eval` ends with a number or with one of the four errors of the
source, never with the model's fuel used up: with the fuel `bound c st` no procedure of the
parser runs out of fuel, and the two loops of the tokenizer stop, within the fuel
`get_next_token` gives them, at a cursor where their condition is false. The measure behind
`bound` counts the characters left and the token held, so a token `Invalid`, which does not
move the cursor, still costs nothing: the parser fails on it. -/
theorem eval_terminates (g : State) (line : List Char) :
    ((∃ v, eval g line = .ok v) ∨ (∃ e, eval g line = .error e ∧ e ≠ .fuelExhausted)) ∧
      (∀ (c : Call) (st : State), run (bound c st) c st ≠ .error .fuelExhausted) ∧
      (∀ (input : List Char) (pos : Nat),
        ¬ (charAt input (skip_spaces (input.length - pos) input pos) ≠ NUL ∧
          isspace (charAt input (skip_spaces (input.length - pos) input pos)) = true)) ∧
      (∀ (input : List Char) (pos : Nat) (v : ℚ) (dp : Int),
        ¬ (isdigit (charAt input (scan_number (input.length - pos) input pos v dp).1) = true ∨
          (charAt input (scan_number (input.length - pos) input pos v dp).1 = '.' ∧
            (scan_number (input.length - pos) input pos v dp).2.2 = 0))) := by
  refine ⟨?_, fun c st => run_total _ c st (Nat.le_refl _), skip_spaces_exit, scan_number_exit⟩
  have h := eval_isOutcome g line
  cases he : eval g line with
  | ok v => exact Or.inl ⟨v, rfl⟩
  | error e =>
    rw [he] at h
    exact Or.inr ⟨e, rfl, h⟩

/-- C13: for every line and any two values of the module-level variables before the call,
`eval` has the same outcome: it starts from the same state, the cursor at 0 and the first token
of the line fetched. -/
theorem eval_independent_of_state (g g' : State) (line : List Char) :
    eval g line = eval g' line ∧ startState g line = startState g' line := by
  refine ⟨?_, ?_⟩
  · rw [eval_eq, eval_eq, startState_eq, startState_eq]
  · rw [startState_eq, startState_eq]

/-- C14: for every state whose cursor is not behind the terminator of the line, one call of
`get_next_token` leaves the cursor at or after where it was and not behind the terminator, on
the same line. -/
theorem get_next_token_cursor (st : State) (h : st.pos ≤ st.input.length) :
    st.pos ≤ (get_next_token st).2.pos ∧ (get_next_token st).2.pos ≤ st.input.length ∧
      (get_next_token st).2.input = st.input := by
  have hle := lexList_le (st.input.drop st.pos)
  have hlen : (st.input.drop st.pos).length = st.input.length - st.pos := by simp
  rw [get_next_token_eq]
  refine ⟨?_, ?_, rfl⟩
  · simp only []
    omega
  · simp only []
    omega

/-- Witness for C14 on the line `12+3` with the cursor at 1. -/
theorem get_next_token_cursor_witness :
    1 ≤ (get_next_token ⟨['1', '2', '+', '3'], 1, ⟨.TOKEN_END, 0⟩⟩).2.pos ∧
      (get_next_token ⟨['1', '2', '+', '3'], 1, ⟨.TOKEN_END, 0⟩⟩).2.pos ≤ 4 :=
  ⟨(get_next_token_cursor ⟨['1', '2', '+', '3'], 1, ⟨.TOKEN_END, 0⟩⟩ (by decide)).1,
    (get_next_token_cursor ⟨['1', '2', '+', '3'], 1, ⟨.TOKEN_END, 0⟩⟩ (by decide)).2.1⟩

theorem get_next_token_at_end (st : State) (h : st.input.drop st.pos = []) :
    get_next_token st = (⟨.TOKEN_END, 0⟩, st) := by
  rw [get_next_token_eq, h, lexList_nil]
  simp

/-- C15: when only whitespace lies between the cursor and the terminator, `get_next_token`
returns `End` and leaves the cursor on the terminator, and every further call returns `End`
again and leaves the state as it is. -/
theorem get_next_token_end (st : State) (hpos : st.pos ≤ st.input.length)
    (h : ∀ c ∈ st.input.drop st.pos, isspace c = true) :
    (get_next_token st).1 = ⟨.TOKEN_END, 0⟩ ∧
      (get_next_token st).2.pos = st.input.length ∧
      ∀ k : Nat, get_next_token (cursorAfter^[k] (cursorAfter st))
        = (⟨.TOKEN_END, 0⟩, cursorAfter st) := by
  have hl : lexList (st.input.drop st.pos)
      = (⟨.TOKEN_END, 0⟩, (st.input.drop st.pos).length) := by
    have := lexList_spaces (st.input.drop st.pos) [] h
    simpa [lexList_nil] using this
  have hg : get_next_token st = (⟨.TOKEN_END, 0⟩, { st with pos := st.input.length }) := by
    rw [get_next_token_eq, hl]
    simp only [List.length_drop]
    congr 2
    omega
  have h1 : get_next_token (cursorAfter st) = (⟨.TOKEN_END, 0⟩, cursorAfter st) := by
    apply get_next_token_at_end
    simp [cursorAfter, hg]
  have hfix : ∀ k : Nat, cursorAfter^[k] (cursorAfter st) = cursorAfter st := by
    intro k
    induction k with
    | zero => rfl
    | succ n ih =>
      rw [Function.iterate_succ_apply', ih]
      show (get_next_token (cursorAfter st)).2 = cursorAfter st
      rw [h1]
  refine ⟨by rw [hg], by rw [hg], ?_⟩
  intro k
  rw [hfix k, h1]

/-- Witness for C15 on the line `7` followed by a space and a newline, the cursor at 1. -/
theorem get_next_token_end_witness :
    (get_next_token ⟨['7', ' ', '\n'], 1, ⟨.TOKEN_NUMBER, 7⟩⟩).1 = ⟨.TOKEN_END, 0⟩ ∧
      (get_next_token ⟨['7', ' ', '\n'], 1, ⟨.TOKEN_NUMBER, 7⟩⟩).2.pos = 3 :=
  ⟨(get_next_token_end ⟨['7', ' ', '\n'], 1, ⟨.TOKEN_NUMBER, 7⟩⟩ (by decide) (by decide)).1,
    (get_next_token_end ⟨['7', ' ', '\n'], 1, ⟨.TOKEN_NUMBER, 7⟩⟩ (by decide) (by decide)).2.1⟩

theorem lexList_unclassified (c : Char) (rest : List Char) (hc : ¬ Classified c)
    (hn : c ≠ NUL) : lexList (c :: rest) = (⟨.TOKEN_INVALID, 0⟩, 0) := by
  simp only [Classified, not_or] at hc
  obtain ⟨h1, h2, h3, h4, h5, h6, h7, h8, h9⟩ := hc
  simp [lexList, skipList, h1, h2, h3, h4, h5, h6, h7, h8, h9, hn]

/-- C16: when the first character after the whitespace at the cursor is none the tokenizer
knows and is not the terminator, `get_next_token` returns `Invalid` and leaves the cursor on
that character, only the whitespace passed; a call repeated there returns `Invalid` again and
leaves the state as it is. -/
theorem get_next_token_invalid (st : State) (ws rest : List Char) (c : Char)
    (hdrop : st.input.drop st.pos = ws ++ c :: rest) (hws : ∀ x ∈ ws, isspace x = true)
    (hc : ¬ Classified c) (hn : c ≠ NUL) :
    get_next_token st = (⟨.TOKEN_INVALID, 0⟩, { st with pos := st.pos + ws.length }) ∧
      charAt st.input (st.pos + ws.length) = c ∧
      get_next_token { st with pos := st.pos + ws.length }
        = (⟨.TOKEN_INVALID, 0⟩, { st with pos := st.pos + ws.length }) := by
  have hd2 : st.input.drop (st.pos + ws.length) = c :: rest := by
    have : st.input.drop (st.pos + ws.length) = (st.input.drop st.pos).drop ws.length := by
      rw [List.drop_drop, Nat.add_comm]
    rw [this, hdrop]
    simp
  refine ⟨?_, charAt_of_drop_cons hd2, ?_⟩
  · rw [get_next_token_eq, hdrop, lexList_spaces ws _ hws, lexList_unclassified c rest hc hn]
    simp
  · rw [get_next_token_eq]
    simp only []
    rw [hd2, lexList_unclassified c rest hc hn]
    simp

/-- Witness for C16 on the line `1 @2` with the cursor at 1. -/
theorem get_next_token_invalid_witness :
    get_next_token ⟨['1', ' ', '@', '2'], 1, ⟨.TOKEN_NUMBER, 1⟩⟩
      = (⟨.TOKEN_INVALID, 0⟩, ⟨['1', ' ', '@', '2'], 2, ⟨.TOKEN_NUMBER, 1⟩⟩) :=
  (get_next_token_invalid ⟨['1', ' ', '@', '2'], 1, ⟨.TOKEN_NUMBER, 1⟩⟩ [' '] ['2'] '@'
    (by decide) (by decide) (by decide) (by decide)).1

/-! ## A pair of parentheses around a line -/

theorem headD_mem_of_ne_nul {s : List Char} (h : s.headD NUL ≠ NUL) : s.headD NUL ∈ s := by
  cases s with
  | nil => exact absurd rfl h
  | cons c r => simp

theorem take_one_of_headD_ne_nul {s : List Char} (h : s.headD NUL ≠ NUL) :
    s.take 1 = [s.headD NUL] := by
  cases s with
  | nil => exact absurd rfl h
  | cons c r => simp

/-- The branches of the tokenizer, by the first character `h` behind the whitespace. -/
theorem lexList_cases (s : List Char) (h : Char) (hh : (s.drop (skipList s)).headD NUL = h) :
    (h = NUL ∧ lexList s = (⟨.TOKEN_END, 0⟩, skipList s)) ∨
    (h ≠ NUL ∧ (isdigit h = true ∨ h = '.') ∧ (lexList s).1.type = .TOKEN_NUMBER ∧
      (lexList s).2 = skipList s + (scanList (s.drop (skipList s)) 0 0).1) ∨
    (h ≠ NUL ∧ Classified h ∧ (lexList s).2 = skipList s + 1 ∧
      (lexList s).1.type ≠ .TOKEN_END ∧
      ((lexList s).1.type = .TOKEN_LPAREN → h = '(') ∧
      ((lexList s).1.type = .TOKEN_DIVIDE → h = '/')) ∨
    (h ≠ NUL ∧ ¬ Classified h ∧ lexList s = (⟨.TOKEN_INVALID, 0⟩, skipList s)) := by
  have hexit := skipList_exit s
  rw [hh] at hexit
  have key : lexList s =
      (if h = NUL then (⟨.TOKEN_END, 0⟩, skipList s)
      else if isdigit h = true ∨ h = '.' then
        (⟨.TOKEN_NUMBER, if (scanList (s.drop (skipList s)) 0 0).2.2 ≠ 0
            then (scanList (s.drop (skipList s)) 0 0).2.1
              / ((scanList (s.drop (skipList s)) 0 0).2.2 : ℚ)
            else (scanList (s.drop (skipList s)) 0 0).2.1⟩,
          skipList s + (scanList (s.drop (skipList s)) 0 0).1)
      else if h = '+' then (⟨.TOKEN_PLUS, 0⟩, skipList s + 1)
      else if h = '-' then (⟨.TOKEN_MINUS, 0⟩, skipList s + 1)
      else if h = '*' then (⟨.TOKEN_MULTIPLY, 0⟩, skipList s + 1)
      else if h = '/' then (⟨.TOKEN_DIVIDE, 0⟩, skipList s + 1)
      else if h = '(' then (⟨.TOKEN_LPAREN, 0⟩, skipList s + 1)
      else if h = ')' then (⟨.TOKEN_RPAREN, 0⟩, skipList s + 1)
      else (⟨.TOKEN_INVALID, 0⟩, skipList s)) := by
    simp only [lexList, hh]
  rw [key]
  by_cases h0 : h = NUL
  · left
    exact ⟨h0, by rw [if_pos h0]⟩
  · right
    rw [if_neg h0]
    by_cases h1 : isdigit h = true ∨ h = '.'
    · left
      rw [if_pos h1]
      exact ⟨h0, h1, rfl, rfl⟩
    · right
      rw [if_neg h1]
      have hsp : isspace h ≠ true := fun hs => hexit ⟨h0, hs⟩
      simp only [not_or] at h1
      by_cases h2 : h = '+'
      · left
        rw [if_pos h2]
        exact ⟨h0, by simp [Classified, h2], rfl, by simp, by simp, by simp⟩
      rw [if_neg h2]
      by_cases h3 : h = '-'
      · left
        rw [if_pos h3]
        exact ⟨h0, by simp [Classified, h3], rfl, by simp, by simp, by simp⟩
      rw [if_neg h3]
      by_cases h4 : h = '*'
      · left
        rw [if_pos h4]
        exact ⟨h0, by simp [Classified, h4], rfl, by simp, by simp, by simp⟩
      rw [if_neg h4]
      by_cases h5 : h = '/'
      · left
        rw [if_pos h5]
        exact ⟨h0, by simp [Classified, h5], rfl, by simp, by simp, fun _ => h5⟩
      rw [if_neg h5]
      by_cases h6 : h = '('
      · left
        rw [if_pos h6]
        exact ⟨h0, by simp [Classified, h6], rfl, by simp, fun _ => h6, by simp⟩
      rw [if_neg h6]
      by_cases h7 : h = ')'
      · left
        rw [if_pos h7]
        exact ⟨h0, by simp [Classified, h7], rfl, by simp, by simp, by simp⟩
      rw [if_neg h7]
      right
      refine ⟨h0, ?_, rfl⟩
      simp only [Classified, not_or]
      exact ⟨hsp, h1.1, h1.2, h2, h3, h4, h5, h6, h7⟩

theorem skipList_take (s : List Char) : ∀ c ∈ s.take (skipList s), isspace c = true := by
  induction s with
  | nil => simp [skipList]
  | cons x r ih =>
    by_cases hx : x ≠ NUL ∧ isspace x = true
    · rw [skipList, if_pos hx]
      intro c hc
      simp only [List.take_succ_cons, List.mem_cons] at hc
      rcases hc with h | h
      · rw [h]; exact hx.2
      · exact ih c h
    · rw [skipList, if_neg hx]
      simp

theorem scanList_take (s : List Char) : ∀ (v : ℚ) (dp : Int),
    ∀ c ∈ s.take (scanList s v dp).1, isdigit c = true ∨ c = '.' := by
  induction s with
  | nil => intro v dp; simp [scanList]
  | cons x r ih =>
    intro v dp
    by_cases hx : isdigit x = true ∨ (x = '.' ∧ dp = 0)
    · have hx' : isdigit x = true ∨ x = '.' := by
        rcases hx with h | h
        · exact Or.inl h
        · exact Or.inr h.1
      by_cases hd : x = '.'
      · rw [scanList, if_pos hx, if_pos hd]
        intro c hc
        simp only [List.take_succ_cons, List.mem_cons] at hc
        rcases hc with h | h
        · rw [h]; exact hx'
        · exact ih _ _ c h
      · rw [scanList, if_pos hx, if_neg hd]
        intro c hc
        simp only [List.take_succ_cons, List.mem_cons] at hc
        rcases hc with h | h
        · rw [h]; exact hx'
        · exact ih _ _ c h
    · rw [scanList, if_neg hx]
      simp

/-- Every character the tokenizer passes for one token is one it knows. -/
theorem lexList_take_classified (s : List Char) : ∀ c ∈ s.take (lexList s).2, Classified c := by
  have hsp : ∀ c ∈ s.take (skipList s), Classified c :=
    fun c hc => Or.inl (skipList_take s c hc)
  rcases lexList_cases s _ rfl with ⟨_, h⟩ | ⟨_, _, _, h⟩ | ⟨h0, hcl, h, _⟩ | ⟨_, _, h⟩
  · rw [h]; exact hsp
  · rw [h, List.take_add]
    intro c hc
    rcases List.mem_append.mp hc with hc | hc
    · exact hsp c hc
    · rcases scanList_take _ 0 0 c hc with hd | hd
      · exact Or.inr (Or.inl hd)
      · exact Or.inr (Or.inr (Or.inl hd))
  · rw [h, List.take_add, take_one_of_headD_ne_nul h0]
    intro c hc
    rcases List.mem_append.mp hc with hc | hc
    · exact hsp c hc
    · simp only [List.mem_singleton] at hc
      rw [hc]; exact hcl
  · rw [h]; exact hsp

/-- On a text with no NUL in it the token `End` is read at the end only. -/
theorem lexList_end_length (s : List Char) (hs : ∀ c ∈ s, c ≠ NUL)
    (h : (lexList s).1.type = .TOKEN_END) : (lexList s).2 = s.length := by
  rcases lexList_cases s _ rfl with ⟨h0, hl⟩ | ⟨_, _, ht, _⟩ | ⟨_, _, _, ht, _⟩ | ⟨_, _, hl⟩
  · rw [hl]
    apply skipList_eq_length_of_drop_nil
    by_contra hne
    exact headD_drop_ne_nul hs _ hne h0
  · rw [ht] at h; exact absurd h (by simp)
  · exact absurd h ht
  · rw [hl] at h; exact absurd h (by simp)

theorem lexList_lparen_mem (s : List Char) (h : (lexList s).1.type = .TOKEN_LPAREN) :
    '(' ∈ s := by
  rcases lexList_cases s _ rfl with ⟨_, hl⟩ | ⟨_, _, ht, _⟩ | ⟨h0, _, _, _, hp, _⟩ | ⟨_, _, hl⟩
  · rw [hl] at h; exact absurd h (by simp)
  · rw [ht] at h; exact absurd h (by simp)
  · have := headD_mem_of_ne_nul h0
    rw [hp h] at this
    exact List.mem_of_mem_drop this
  · rw [hl] at h; exact absurd h (by simp)

theorem lexList_divide_mem (s : List Char) (h : (lexList s).1.type = .TOKEN_DIVIDE) :
    '/' ∈ s := by
  rcases lexList_cases s _ rfl with ⟨_, hl⟩ | ⟨_, _, ht, _⟩ | ⟨h0, _, _, _, _, hp⟩ | ⟨_, _, hl⟩
  · rw [hl] at h; exact absurd h (by simp)
  · rw [ht] at h; exact absurd h (by simp)
  · have := headD_mem_of_ne_nul h0
    rw [hp h] at this
    exact List.mem_of_mem_drop this
  · rw [hl] at h; exact absurd h (by simp)

/-- The state after `next_token` is tracked when the characters before the cursor were
known ones. -/
theorem tracked_next_token {line : List Char} (hline : ∀ c ∈ line, c ≠ NUL) {st : State}
    (hin : st.input = line) (hpre : ∀ c ∈ line.take st.pos, Classified c) :
    Tracked line (next_token st) := by
  subst hin
  rw [next_token_eq]
  have hs : ∀ c ∈ st.input.drop st.pos, c ≠ NUL := fun c hc => hline c (List.mem_of_mem_drop hc)
  refine ⟨rfl, ?_, ?_, ?_, ?_⟩
  · simp only []
    rw [List.take_add]
    intro c hc
    rcases List.mem_append.mp hc with hc | hc
    · exact hpre c hc
    · exact lexList_take_classified _ c hc
  · intro hE
    have := lexList_end_length _ hs hE
    simp only []
    rw [this]
    simp only [List.length_drop]
    omega
  · intro hL
    exact List.mem_of_mem_drop (lexList_lparen_mem _ hL)
  · intro hD
    exact List.mem_of_mem_drop (lexList_divide_mem _ hD)

/-- A procedure that returns leaves a tracked state when it was entered in one. -/
theorem tracked_of_big {line : List Char} (hline : ∀ c ∈ line, c ≠ NUL) {c : Call}
    {st : State} {v : ℚ} {st1 : State} (h : Big c st (.ok (v, st1))) (hst : Tracked line st) :
    Tracked line st1 :=
  (big_transfer id (Tracked line) True
    (fun st hI => tracked_next_token hline hI.1 hI.2.1)
    (fun _ _ _ => rfl) (fun _ _ _ => rfl)
    (fun _ st _ hE => by simp [hE]) h v st1 rfl hst (Or.inl trivial)).2

/-- Where the two errors that are not "unexpected token" come from: "Expected closing
parenthesis" needs a `(` in the line, "Division by zero" a `/`. -/
theorem big_error_origin {line : List Char} (hline : ∀ c ∈ line, c ≠ NUL) {c : Call}
    {st : State} {r : Except Error (ℚ × State)} (h : Big c st r) :
    ∀ e, r = .error e → Tracked line st →
      (e = .expectedClosingParen → '(' ∈ line) ∧ (e = .divisionByZero → '/' ∈ line) := by
  have hnext : ∀ {st : State}, Tracked line st → Tracked line (next_token st) :=
    fun hI => tracked_next_token hline hI.1 hI.2.1
  induction h with
  | number h => intro e hr; cases hr
  | parenErr h he ih => intro e hr hst; cases hr; exact ih _ rfl (hnext hst)
  | parenOpen h he h1 ih =>
    intro e hr hst
    cases hr
    exact ⟨fun _ => hst.2.2.2.1 h, fun he => nomatch he⟩
  | paren h he h1 ih => intro e hr; cases hr
  | unexpected h h1 =>
    intro e hr hst
    cases hr
    exact ⟨fun he => (nomatch he), fun he => (nomatch he)⟩
  | mulErr h hf ih => intro e hr hst; cases hr; exact ih _ rfl (hnext hst)
  | mul h hf hl ih1 ih2 =>
    intro e hr hst
    exact ih2 e hr (tracked_of_big hline hf (hnext hst))
  | divErr h hf ih => intro e hr hst; cases hr; exact ih _ rfl (hnext hst)
  | divZero h hf ih =>
    intro e hr hst
    cases hr
    exact ⟨fun he => (nomatch he), fun _ => hst.2.2.2.2 h⟩
  | div h hf hv hl ih1 ih2 =>
    intro e hr hst
    exact ih2 e hr (tracked_of_big hline hf (hnext hst))
  | termDone h h1 => intro e hr; cases hr
  | termErr hf ih => intro e hr hst; cases hr; exact ih _ rfl hst
  | term hf hl ih1 ih2 =>
    intro e hr hst
    exact ih2 e hr (tracked_of_big hline hf hst)
  | plusErr h ht ih => intro e hr hst; cases hr; exact ih _ rfl (hnext hst)
  | plus h ht hl ih1 ih2 =>
    intro e hr hst
    exact ih2 e hr (tracked_of_big hline ht (hnext hst))
  | minusErr h ht ih => intro e hr hst; cases hr; exact ih _ rfl (hnext hst)
  | minus h ht hl ih1 ih2 =>
    intro e hr hst
    exact ih2 e hr (tracked_of_big hline ht (hnext hst))
  | exprDone h h1 => intro e hr; cases hr
  | exprErr ht ih => intro e hr hst; cases hr; exact ih _ rfl hst
  | expr ht hl ih1 ih2 =>
    intro e hr hst
    exact ih2 e hr (tracked_of_big hline ht hst)

/-! ## Lines with a character the tokenizer does not know -/

/-- A run, whatever it comes back with, is also a run from the states mapped by `φ`, when `φ`
keeps the token held and commutes with `next_token` at the states that do not hold `End`. -/
theorem big_map (φ : State → State) (Inv : State → Prop)
    (hInv : ∀ st, Inv st → Inv (next_token st))
    (hnext : ∀ st, Inv st → st.current_token.type ≠ .TOKEN_END →
      next_token (φ st) = φ (next_token st))
    (htok : ∀ st, Inv st → (φ st).current_token = st.current_token)
    {c : Call} {st : State} {r : Except Error (ℚ × State)} (h : Big c st r) :
    Inv st → Big c (φ st) (mapState φ r) ∧ (∀ v st1, r = .ok (v, st1) → Inv st1) := by
  induction h with
  | @number st h =>
    intro hI
    have hne : st.current_token.type ≠ .TOKEN_END := by rw [h]; simp
    have hB := @Big.number (φ st) (by rw [htok st hI]; exact h)
    rw [hnext st hI hne, htok st hI] at hB
    exact ⟨hB, fun v st1 hr => by cases hr; exact hInv st hI⟩
  | @parenErr st e h he ih =>
    intro hI
    have hne : st.current_token.type ≠ .TOKEN_END := by rw [h]; simp
    have h1 := (ih (hInv st hI)).1
    rw [← hnext st hI hne] at h1
    exact ⟨Big.parenErr (by rw [htok st hI]; exact h) h1, fun v st1 hr => by cases hr⟩
  | @parenOpen st st1 v h he hp ih =>
    intro hI
    have hne : st.current_token.type ≠ .TOKEN_END := by rw [h]; simp
    obtain ⟨h1, h2⟩ := ih (hInv st hI)
    rw [← hnext st hI hne] at h1
    have hI1 := h2 _ _ rfl
    exact ⟨Big.parenOpen (by rw [htok st hI]; exact h) h1 (by rw [htok st1 hI1]; exact hp),
      fun v st1 hr => by cases hr⟩
  | @paren st st1 v h he hp ih =>
    intro hI
    have hne : st.current_token.type ≠ .TOKEN_END := by rw [h]; simp
    have hne1 : st1.current_token.type ≠ .TOKEN_END := by rw [hp]; simp
    obtain ⟨h1, h2⟩ := ih (hInv st hI)
    rw [← hnext st hI hne] at h1
    have hI1 := h2 _ _ rfl
    have hB := Big.paren (by rw [htok st hI]; exact h) h1 (by rw [htok st1 hI1]; exact hp)
    rw [hnext st1 hI1 hne1] at hB
    exact ⟨hB, fun v st2 hr => by cases hr; exact hInv st1 hI1⟩
  | @unexpected st h h1 =>
    intro hI
    exact ⟨Big.unexpected (by rw [htok st hI]; exact h) (by rw [htok st hI]; exact h1),
      fun v st1 hr => by cases hr⟩
  | @mulErr st acc e h hf ih =>
    intro hI
    have hne : st.current_token.type ≠ .TOKEN_END := by rw [h]; simp
    have h1 := (ih (hInv st hI)).1
    rw [← hnext st hI hne] at h1
    exact ⟨Big.mulErr (by rw [htok st hI]; exact h) h1, fun v st1 hr => by cases hr⟩
  | @mul st st1 acc v r h hf hl ih1 ih2 =>
    intro hI
    have hne : st.current_token.type ≠ .TOKEN_END := by rw [h]; simp
    obtain ⟨h1, h2⟩ := ih1 (hInv st hI)
    rw [← hnext st hI hne] at h1
    obtain ⟨h3, h4⟩ := ih2 (h2 _ _ rfl)
    exact ⟨Big.mul (by rw [htok st hI]; exact h) h1 h3, h4⟩
  | @divErr st acc e h hf ih =>
    intro hI
    have hne : st.current_token.type ≠ .TOKEN_END := by rw [h]; simp
    have h1 := (ih (hInv st hI)).1
    rw [← hnext st hI hne] at h1
    exact ⟨Big.divErr (by rw [htok st hI]; exact h) h1, fun v st1 hr => by cases hr⟩
  | @divZero st st1 acc h hf ih =>
    intro hI
    have hne : st.current_token.type ≠ .TOKEN_END := by rw [h]; simp
    have h1 := (ih (hInv st hI)).1
    rw [← hnext st hI hne] at h1
    exact ⟨Big.divZero (by rw [htok st hI]; exact h) h1, fun v st1 hr => by cases hr⟩
  | @div st st1 acc v r h hf hv hl ih1 ih2 =>
    intro hI
    have hne : st.current_token.type ≠ .TOKEN_END := by rw [h]; simp
    obtain ⟨h1, h2⟩ := ih1 (hInv st hI)
    rw [← hnext st hI hne] at h1
    obtain ⟨h3, h4⟩ := ih2 (h2 _ _ rfl)
    exact ⟨Big.div (by rw [htok st hI]; exact h) h1 hv h3, h4⟩
  | @termDone st acc h h1 =>
    intro hI
    exact ⟨Big.termDone (by rw [htok st hI]; exact h) (by rw [htok st hI]; exact h1),
      fun v st1 hr => by cases hr; exact hI⟩
  | @termErr st e hf ih =>
    intro hI
    exact ⟨Big.termErr (ih hI).1, fun v st1 hr => by cases hr⟩
  | @term st st1 v r hf hl ih1 ih2 =>
    intro hI
    obtain ⟨h1, h2⟩ := ih1 hI
    obtain ⟨h3, h4⟩ := ih2 (h2 _ _ rfl)
    exact ⟨Big.term h1 h3, h4⟩
  | @plusErr st acc e h ht ih =>
    intro hI
    have hne : st.current_token.type ≠ .TOKEN_END := by rw [h]; simp
    have h1 := (ih (hInv st hI)).1
    rw [← hnext st hI hne] at h1
    exact ⟨Big.plusErr (by rw [htok st hI]; exact h) h1, fun v st1 hr => by cases hr⟩
  | @plus st st1 acc v r h ht hl ih1 ih2 =>
    intro hI
    have hne : st.current_token.type ≠ .TOKEN_END := by rw [h]; simp
    obtain ⟨h1, h2⟩ := ih1 (hInv st hI)
    rw [← hnext st hI hne] at h1
    obtain ⟨h3, h4⟩ := ih2 (h2 _ _ rfl)
    exact ⟨Big.plus (by rw [htok st hI]; exact h) h1 h3, h4⟩
  | @minusErr st acc e h ht ih =>
    intro hI
    have hne : st.current_token.type ≠ .TOKEN_END := by rw [h]; simp
    have h1 := (ih (hInv st hI)).1
    rw [← hnext st hI hne] at h1
    exact ⟨Big.minusErr (by rw [htok st hI]; exact h) h1, fun v st1 hr => by cases hr⟩
  | @minus st st1 acc v r h ht hl ih1 ih2 =>
    intro hI
    have hne : st.current_token.type ≠ .TOKEN_END := by rw [h]; simp
    obtain ⟨h1, h2⟩ := ih1 (hInv st hI)
    rw [← hnext st hI hne] at h1
    obtain ⟨h3, h4⟩ := ih2 (h2 _ _ rfl)
    exact ⟨Big.minus (by rw [htok st hI]; exact h) h1 h3, h4⟩
  | @exprDone st acc h h1 =>
    intro hI
    exact ⟨Big.exprDone (by rw [htok st hI]; exact h) (by rw [htok st hI]; exact h1),
      fun v st1 hr => by cases hr; exact hI⟩
  | @exprErr st e ht ih =>
    intro hI
    exact ⟨Big.exprErr (ih hI).1, fun v st1 hr => by cases hr⟩
  | @expr st st1 v r ht hl ih1 ih2 =>
    intro hI
    obtain ⟨h1, h2⟩ := ih1 hI
    obtain ⟨h3, h4⟩ := ih2 (h2 _ _ rfl)
    exact ⟨Big.expr h1 h3, h4⟩

/-! ## Whitespace around a line -/

theorem stops_of_spaces (w : List Char) (hw : ∀ c ∈ w, isspace c = true) : Stops w := by
  intro c hc
  have hm : c ∈ w := by
    cases w with
    | nil => simp at hc
    | cons x r => simp at hc; simp [hc]
  have hs := hw c hm
  constructor
  · cases hd : isdigit c with
    | false => rfl
    | true => rw [isspace_of_isdigit hd] at hs; exact absurd hs (by simp)
  · intro h
    rw [h] at hs
    exact absurd hs (by decide)

/-- The token read when whitespace follows the text: the same token, and at the end of the
text the cursor goes on to the end of the whitespace. -/
theorem lexList_append_spaces (d w : List Char) (hw : ∀ c ∈ w, isspace c = true) :
    lexList (d ++ w) =
      if skipList d = d.length then (⟨.TOKEN_END, 0⟩, d.length + w.length) else lexList d := by
  by_cases hd : skipList d = d.length
  · rw [if_pos hd]
    have h1 : skipList (d ++ w) = d.length + w.length := by
      rw [skipList_append, if_pos hd, skipList_spaces w hw]
    have h2 : (d ++ w).drop (d.length + w.length) = [] := by
      apply List.drop_of_length_le
      simp
    simp only [lexList, h1, h2]
    simp
  · rw [if_neg hd]
    have hle := skipList_le d
    have hne : d.drop (skipList d) ≠ [] := fun h => hd (skipList_eq_length_of_drop_nil h)
    have hd2 : (d ++ w).drop (skipList d) = d.drop (skipList d) ++ w := by
      rw [List.drop_append_of_le_length hle]
    have hh : (d.drop (skipList d) ++ w).headD NUL = (d.drop (skipList d)).headD NUL := by
      cases hx : d.drop (skipList d) with
      | nil => exact absurd hx hne
      | cons c r => rfl
    simp only [lexList, skipList_append, hd, if_false, hd2, hh,
      scanList_append _ _ (stops_of_spaces w hw)]

theorem lexList_of_skipList_eq_length (d : List Char) (h : skipList d = d.length) :
    lexList d = (⟨.TOKEN_END, 0⟩, d.length) := by
  have := lexList_append_spaces d [] (by simp)
  simpa [h] using this

theorem lexList_end_lt (d : List Char) (h : skipList d ≠ d.length)
    (hE : (lexList d).1.type = .TOKEN_END) : (lexList d).2 < d.length := by
  have hle := skipList_le d
  rcases lexList_cases d _ rfl with ⟨_, hl⟩ | ⟨_, _, ht, _⟩ | ⟨_, _, _, ht, _⟩ | ⟨_, _, hl⟩
  · rw [hl]; simp only []; omega
  · rw [ht] at hE; exact absurd hE (by simp)
  · exact absurd hE ht
  · rw [hl] at hE; exact absurd hE (by simp)

/-- Fetching a token on the line with whitespace around it, from a cursor within the line. -/
theorem next_token_pad (w1 w2 : List Char) (hw2 : ∀ c ∈ w2, isspace c = true) {s : List Char}
    {st : State} (hI : OnLine s st) (t : Token) :
    next_token ⟨w1 ++ (s ++ w2), w1.length + st.pos, t⟩ = pad w1 w2 (next_token st) := by
  obtain ⟨hin, hpos⟩ := hI
  subst hin
  have hd : (w1 ++ (st.input ++ w2)).drop (w1.length + st.pos)
      = st.input.drop st.pos ++ w2 := by
    rw [List.drop_append, List.drop_append_of_le_length hpos]
  have hlen : (st.input.drop st.pos).length = st.input.length - st.pos := by simp
  rw [next_token_eq, next_token_eq]
  simp only [pad]
  rw [hd, lexList_append_spaces _ _ hw2]
  by_cases hk : skipList (st.input.drop st.pos) = (st.input.drop st.pos).length
  · have hl := lexList_of_skipList_eq_length _ hk
    rw [if_pos hk, hl]
    have hc : st.input.length ≤ st.pos + (st.input.drop st.pos).length := by omega
    have hif : (if (TokenType.TOKEN_END = TokenType.TOKEN_END ∧
        st.input.length ≤ st.pos + (st.input.drop st.pos).length)
        then st.input.length + w2.length else st.pos + (st.input.drop st.pos).length)
        = st.input.length + w2.length := if_pos ⟨rfl, hc⟩
    show (⟨w1 ++ (st.input ++ w2),
        w1.length + st.pos + ((st.input.drop st.pos).length + w2.length),
        ⟨.TOKEN_END, 0⟩⟩ : State)
      = ⟨w1 ++ (st.input ++ w2),
        w1.length + (if (TokenType.TOKEN_END = TokenType.TOKEN_END ∧
          st.input.length ≤ st.pos + (st.input.drop st.pos).length)
          then st.input.length + w2.length else st.pos + (st.input.drop st.pos).length),
        ⟨.TOKEN_END, 0⟩⟩
    rw [hif]
    congr 1
    omega
  · rw [if_neg hk]
    have hc : ¬ ((lexList (st.input.drop st.pos)).1.type = TokenType.TOKEN_END ∧
        st.input.length ≤ st.pos + (lexList (st.input.drop st.pos)).2) := by
      rintro ⟨hE, hle⟩
      have := lexList_end_lt _ hk hE
      omega
    rw [if_neg hc]
    congr 1
    omega

theorem startState_pad (g g' : State) (w1 w2 s : List Char)
    (hw1 : ∀ c ∈ w1, isspace c = true) (hw2 : ∀ c ∈ w2, isspace c = true) :
    startState g' (w1 ++ s ++ w2) = pad w1 w2 (startState g s) := by
  have h := @next_token_pad w1 w2 hw2 s ⟨s, 0, g.current_token⟩
    ⟨rfl, Nat.zero_le _⟩ g'.current_token
  have h0 : next_token ⟨w1 ++ (s ++ w2), 0, g'.current_token⟩
      = next_token ⟨w1 ++ (s ++ w2), w1.length + 0, g'.current_token⟩ := by
    rw [next_token_eq, next_token_eq]
    simp only [List.drop_zero, Nat.add_zero, List.drop_left, lexList_spaces w1 _ hw1]
    simp
  simp only [startState, List.append_assoc]
  rw [h0]
  exact h

theorem finish_mapState (φ : State → State) (r : Except Error (ℚ × State))
    (h : ∀ v st1, r = .ok (v, st1) → (φ st1).current_token = st1.current_token) :
    finish (mapState φ r) = finish r := by
  cases r with
  | error e => rfl
  | ok p =>
    obtain ⟨v, st1⟩ := p
    simp only [mapState, finish, h v st1 rfl]

/-- Whitespace before and behind a line does not change what `eval` returns. -/
theorem eval_pad (g g' : State) (w1 w2 s : List Char)
    (hw1 : ∀ c ∈ w1, isspace c = true) (hw2 : ∀ c ∈ w2, isspace c = true) :
    eval g' (w1 ++ s ++ w2) = eval g s := by
  obtain ⟨r, hB, he⟩ := exists_big_eval g s
  have hon : OnLine s (startState g s) := by
    rw [startState_eq]; exact onLine_lexState s
  obtain ⟨hB', hI'⟩ := big_map (pad w1 w2) (OnLine s) (fun _ => onLine_next_token)
    (fun st hI hE => by
      have := next_token_pad w1 w2 hw2 hI st.current_token
      rw [← this]
      simp [pad, hE, hI.1])
    (fun _ _ => rfl) hB hon
  rw [← startState_pad g g' w1 w2 s hw1 hw2] at hB'
  rw [eval_of_big hB', he]
  exact finish_mapState _ _ (fun _ _ _ => rfl)

/-- C19: for every line `s` and all texts `w1`, `w2` of whitespace, `eval` of
`w1 ++ s ++ w2` has the outcome of `eval` of `s`, the same number or the same error; so has
the line with the newline of the read loop behind it. -/
theorem eval_whitespace_around (g g' : State) (w1 w2 s : List Char)
    (hw1 : ∀ c ∈ w1, isspace c = true) (hw2 : ∀ c ∈ w2, isspace c = true) :
    eval g' (w1 ++ s ++ w2) = eval g s ∧ eval g' (s ++ ['\n']) = eval g s := by
  refine ⟨eval_pad g g' w1 w2 s hw1 hw2, ?_⟩
  have := eval_pad g g' [] ['\n'] s (by simp) (by decide)
  simpa using this

/-- Witness for C19 on the line `1+ 2` with a space and a tab in front and a newline behind. -/
theorem eval_whitespace_around_witness :
    eval initState ([' ', '\t'] ++ ['1', '+', ' ', '2'] ++ ['\n'])
      = eval initState ['1', '+', ' ', '2'] :=
  (eval_whitespace_around initState initState [' ', '\t'] ['\n'] ['1', '+', ' ', '2']
    (by decide) (by decide)).1

/-! ## A point without digits -/

/-- C20: a `.` that no digit follows is read as a number: `get_next_token` at such a `.`
returns a `Number` token of value 0 and moves the cursor by one; on the line `.` it does so,
and `eval` of `.` returns 0 instead of failing; `5.` evaluates to 5 and `.5` to 5/10. -/
theorem get_next_token_lone_point (g : State) :
    (∀ (st : State) (rest : List Char), st.input.drop st.pos = '.' :: rest →
      (∀ c ∈ rest.head?, isdigit c = false) →
      get_next_token st = (⟨.TOKEN_NUMBER, 0⟩, { st with pos := st.pos + 1 })) ∧
      get_next_token ⟨['.'], 0, g.current_token⟩
        = (⟨.TOKEN_NUMBER, 0⟩, ⟨['.'], 1, g.current_token⟩) ∧
      eval g ['.'] = .ok 0 ∧ eval g ['5', '.'] = .ok 5 ∧ eval g ['.', '5'] = .ok (5 / 10) := by
  have key : ∀ (st : State) (rest : List Char), st.input.drop st.pos = '.' :: rest →
      (∀ c ∈ rest.head?, isdigit c = false) →
      get_next_token st = (⟨.TOKEN_NUMBER, 0⟩, { st with pos := st.pos + 1 }) := by
    intro st rest hdrop hrest
    have hp : pointAfter 0 ≠ 0 := by decide
    have hl := lexList_decimal [] [] rest (by simp) (by simp)
      (fun c hc => ⟨hrest c hc, fun _ => hp⟩)
    simp only [List.nil_append, List.length_nil, hp, ne_eq, not_false_eq_true, if_true,
      valueAfter, List.foldl_nil, zero_div] at hl
    rw [get_next_token_eq, hdrop, hl]
  refine ⟨key, ?_, ?_, ?_, ?_⟩
  · exact key ⟨['.'], 0, g.current_token⟩ [] rfl (by simp)
  · rw [eval_congr g initState]; decide!
  · rw [eval_congr g initState]; decide!
  · rw [eval_congr g initState]; decide!

/-- Witness for C20 on the line `(.)` with the cursor at 1. -/
theorem get_next_token_lone_point_witness :
    get_next_token ⟨['(', '.', ')'], 1, ⟨.TOKEN_LPAREN, 0⟩⟩
      = (⟨.TOKEN_NUMBER, 0⟩, ⟨['(', '.', ')'], 2, ⟨.TOKEN_LPAREN, 0⟩⟩) :=
  (get_next_token_lone_point initState).1 ⟨['(', '.', ')'], 1, ⟨.TOKEN_LPAREN, 0⟩⟩ [')'] rfl
    (by decide)

namespace Arith

section
variable {V : Type} [Arith V]

theorem scan_number_eq_any (s : List Char) : ∀ (input : List Char) (pos fuel : Nat) (v : V) (dp : Int),
    input.drop pos = s → s.length ≤ fuel →
    scan_number fuel input pos v dp = (pos + (scanList s v dp).1, (scanList s v dp).2) := by
  induction s with
  | nil =>
    intro input pos fuel v dp h _
    have hc := charAt_of_drop_nil h
    cases fuel with
    | zero => simp [scan_number, scanList]
    | succ f =>
      have h1 : isdigit NUL = false := by decide
      have h2 : NUL ≠ '.' := by decide
      simp [scan_number, scanList, hc, h1, h2]
  | cons c r ih =>
    intro input pos fuel v dp h hf
    cases fuel with
    | zero => simp at hf
    | succ f =>
      have hr := drop_succ_of_drop_cons h
      simp only [List.length_cons, Nat.add_le_add_iff_right] at hf
      simp only [scan_number, scanList, charAt_of_drop_cons h]
      split
      · split
        · rw [ih input (pos + 1) f _ _ hr hf]; simp; omega
        · rw [ih input (pos + 1) f _ _ hr hf]; simp; omega
      · rfl

theorem scanList_le_any (s : List Char) : ∀ (v : V) (dp : Int), (scanList s v dp).1 ≤ s.length := by
  induction s with
  | nil => simp [scanList]
  | cons c r ih =>
    intro v dp
    simp only [scanList, List.length_cons]
    split
    · split
      · have := ih v 1; simp only []; omega
      · have := ih (add (mul v (ofInt 10)) (ofInt ((c.toNat : Int) - 48)))
          (if dp ≠ 0 then wrap32 (dp * 10) else dp)
        simp only []; omega
    · simp

theorem get_next_token_eq_any (st : State V) :
    get_next_token st =
      ((lexList V (st.input.drop st.pos)).1,
        { st with pos := st.pos + (lexList V (st.input.drop st.pos)).2 }) := by
  have hlen : (st.input.drop st.pos).length ≤ st.input.length - st.pos := by simp
  have hskip := skip_spaces_eq (st.input.drop st.pos) st.input st.pos _ rfl hlen
  have hw := skipList_le (st.input.drop st.pos)
  have hdrop : st.input.drop (st.pos + skipList (st.input.drop st.pos))
      = (st.input.drop st.pos).drop (skipList (st.input.drop st.pos)) := by
    rw [List.drop_drop, Nat.add_comm]
  have hlen2 : ((st.input.drop st.pos).drop (skipList (st.input.drop st.pos))).length
      ≤ st.input.length - (st.pos + skipList (st.input.drop st.pos)) := by
    simp
  have hscan := scan_number_eq_any _ st.input (st.pos + skipList (st.input.drop st.pos)) _
    (ofInt 0 : V) 0
    hdrop hlen2
  simp only [get_next_token, lexList, hskip, hscan, charAt_eq_headD, hdrop]
  repeat' split
  all_goals simp [Nat.add_assoc]

/-- The state after `next_token`, by the characters left. -/
theorem next_token_eq_any (st : State V) :
    next_token st =
      ⟨st.input, st.pos + (lexList V (st.input.drop st.pos)).2,
        (lexList V (st.input.drop st.pos)).1⟩ := by
  simp [next_token, get_next_token_eq_any]

/-- A run that does not run out of fuel is a run of `Big`. -/
theorem big_of_run_any : ∀ (n : Nat) (c : Call V) (st : State V) (r : Except Error (V × State V)),
    run n c st = r → r ≠ .error .fuelExhausted → Big c st r := by
  intro n
  induction n with
  | zero =>
    intro c st r h hr
    cases c <;> simp [run, parse_factor, parse_term_loop, parse_term, parse_expression_loop,
      parse_expression] at h <;> exact absurd h.symm hr
  | succ n ih =>
    intro c st r h hr
    cases c with
    | factor =>
      simp only [run, parse_factor] at h
      by_cases h1 : st.current_token.type = .TOKEN_NUMBER
      · simp only [h1, if_true] at h
        subst h; exact Big.number h1
      · by_cases h2 : st.current_token.type = .TOKEN_LPAREN
        · simp only [h2, if_true] at h
          simp only [show (TokenType.TOKEN_LPAREN = TokenType.TOKEN_NUMBER) = False by simp, if_false] at h
          cases hE : parse_expression n (next_token st) with
          | error e =>
            rw [hE] at h; simp only at h; subst h
            exact Big.parenErr h2 (ih .expr _ _ hE hr)
          | ok p =>
            obtain ⟨v, st1⟩ := p
            rw [hE] at h; simp only at h
            have hB := ih .expr _ _ hE (by simp)
            by_cases h3 : st1.current_token.type = .TOKEN_RPAREN
            · simp only [h3, ne_eq, not_true_eq_false, if_false] at h
              subst h; exact Big.paren h2 hB h3
            · simp only [h3, ne_eq, not_false_eq_true, if_true] at h
              subst h; exact Big.parenOpen h2 hB h3
        · simp only [h1, h2, if_false] at h
          subst h; exact Big.unexpected h1 h2
    | termLoop acc =>
      simp only [run, parse_term_loop] at h
      by_cases h1 : st.current_token.type = .TOKEN_MULTIPLY
      · simp only [h1, if_true] at h
        cases hF : parse_factor n (next_token st) with
        | error e =>
          rw [hF] at h; simp only at h; subst h
          exact Big.mulErr h1 (ih .factor _ _ hF hr)
        | ok p =>
          obtain ⟨v, st1⟩ := p
          rw [hF] at h; simp only at h
          exact Big.mul h1 (ih .factor _ _ hF (by simp)) (ih (.termLoop _) _ _ h hr)
      · by_cases h2 : st.current_token.type = .TOKEN_DIVIDE
        · simp only [h2, if_true] at h
          simp only [show (TokenType.TOKEN_DIVIDE = TokenType.TOKEN_MULTIPLY) = False by simp, if_false] at h
          cases hF : parse_factor n (next_token st) with
          | error e =>
            rw [hF] at h; simp only at h; subst h
            exact Big.divErr h2 (ih .factor _ _ hF hr)
          | ok p =>
            obtain ⟨v, st1⟩ := p
            rw [hF] at h; simp only at h
            have hB := ih .factor _ _ hF (by simp)
            by_cases h3 : eq v (ofInt 0) = true
            · rw [if_pos h3] at h
              subst h; exact Big.divZero h2 hB h3
            · rw [if_neg h3] at h
              exact Big.div h2 hB h3 (ih (.termLoop _) _ _ h hr)
        · simp only [h1, h2, if_false] at h
          subst h; exact Big.termDone h1 h2
    | term =>
      simp only [run, parse_term] at h
      cases hF : parse_factor n st with
      | error e =>
        rw [hF] at h; simp only at h; subst h
        exact Big.termErr (ih .factor _ _ hF hr)
      | ok p =>
        obtain ⟨v, st1⟩ := p
        rw [hF] at h; simp only at h
        exact Big.term (ih .factor _ _ hF (by simp)) (ih (.termLoop _) _ _ h hr)
    | exprLoop acc =>
      simp only [run, parse_expression_loop] at h
      by_cases h1 : st.current_token.type = .TOKEN_PLUS
      · simp only [h1, if_true] at h
        cases hT : parse_term n (next_token st) with
        | error e =>
          rw [hT] at h; simp only at h; subst h
          exact Big.plusErr h1 (ih .term _ _ hT hr)
        | ok p =>
          obtain ⟨v, st1⟩ := p
          rw [hT] at h; simp only at h
          exact Big.plus h1 (ih .term _ _ hT (by simp)) (ih (.exprLoop _) _ _ h hr)
      · by_cases h2 : st.current_token.type = .TOKEN_MINUS
        · simp only [h2, if_true] at h
          simp only [show (TokenType.TOKEN_MINUS = TokenType.TOKEN_PLUS) = False by simp, if_false] at h
          cases hT : parse_term n (next_token st) with
          | error e =>
            rw [hT] at h; simp only at h; subst h
            exact Big.minusErr h2 (ih .term _ _ hT hr)
          | ok p =>
            obtain ⟨v, st1⟩ := p
            rw [hT] at h; simp only at h
            exact Big.minus h2 (ih .term _ _ hT (by simp)) (ih (.exprLoop _) _ _ h hr)
        · simp only [h1, h2, if_false] at h
          subst h; exact Big.exprDone h1 h2
    | expr =>
      simp only [run, parse_expression] at h
      cases hT : parse_term n st with
      | error e =>
        rw [hT] at h; simp only at h; subst h
        exact Big.exprErr (ih .term _ _ hT hr)
      | ok p =>
        obtain ⟨v, st1⟩ := p
        rw [hT] at h; simp only at h
        exact Big.expr (ih .term _ _ hT (by simp)) (ih (.exprLoop _) _ _ h hr)

theorem scanList_pos_any (c : Char) (r : List Char) (v : V) (h : isdigit c = true ∨ c = '.') :
    0 < (scanList (c :: r) v 0).1 := by
  have h' : isdigit c = true ∨ (c = '.' ∧ (0 : Int) = 0) := by
    rcases h with h | h
    · exact Or.inl h
    · exact Or.inr ⟨h, rfl⟩
  rw [scanList, if_pos h']
  split <;> simp

theorem lexList_le_any (s : List Char) : (lexList V s).2 ≤ s.length := by
  have hw := skipList_le s
  have hs := scanList_le_any (s.drop (skipList s)) (ofInt 0 : V) 0
  have hl : (s.drop (skipList s)).length = s.length - skipList s := by simp
  simp only [lexList]
  by_cases hc : (s.drop (skipList s)).headD NUL = NUL
  · simp only [hc, if_true]; exact hw
  · have hpos := headD_ne_nul_length hc
    simp only [hc, if_false]
    repeat' split
    all_goals simp only []
    all_goals omega

/-- Every token but `End` and `Invalid` moves the cursor. -/
theorem lexList_pos_any (s : List Char) (h1 : (lexList V s).1.type ≠ .TOKEN_END)
    (h2 : (lexList V s).1.type ≠ .TOKEN_INVALID) : 0 < (lexList V s).2 := by
  simp only [lexList] at h1 h2 ⊢
  by_cases hc : (s.drop (skipList s)).headD NUL = NUL
  · simp only [hc, if_true] at h1; exact absurd rfl h1
  · simp only [hc, if_false] at h2 ⊢
    by_cases hd : isdigit ((s.drop (skipList s)).headD NUL) = true
        ∨ (s.drop (skipList s)).headD NUL = '.'
    · simp only [hd, if_true]
      cases hs : s.drop (skipList s) with
      | nil => rw [hs] at hc; exact absurd rfl hc
      | cons c r =>
        rw [hs] at hd
        have := scanList_pos_any c r (ofInt 0 : V) hd
        omega
    · simp only [hd, if_false] at h2 ⊢
      repeat' split
      all_goals simp only []
      all_goals first
        | omega
        | (simp only [*, if_false] at h2; exact absurd rfl h2)

theorem weight_next_le_any (st : State V) : weight (next_token st) ≤ st.input.length - st.pos := by
  have hle := lexList_le_any (V := V) (st.input.drop st.pos)
  have hlen : (st.input.drop st.pos).length = st.input.length - st.pos := by simp
  rw [next_token_eq_any]
  simp only [weight]
  split
  · rename_i h
    have := lexList_pos_any _ h.1 h.2
    omega
  · omega

theorem weight_next_le_weight_any (st : State V) : weight (next_token st) ≤ weight st :=
  Nat.le_trans (weight_next_le_any st) (Nat.le_add_right _ _)

theorem weight_next_lt_any (st : State V) (h1 : st.current_token.type ≠ .TOKEN_END)
    (h2 : st.current_token.type ≠ .TOKEN_INVALID) : weight (next_token st) + 1 ≤ weight st := by
  have := weight_next_le_any st
  have hw : weight st = (st.input.length - st.pos) + 1 := by
    simp [weight, h1, h2]
  omega

/-- A procedure that returns leaves no more to read than it found. -/
theorem big_weight_le_any {c : Call V} {st : State V} {r : Except Error (V × State V)} (h : Big c st r) :
    ∀ (v : V) (st1 : State V), r = .ok (v, st1) → weight st1 ≤ weight st := by
  induction h with
  | number h =>
    intro v st1 hr; cases hr; exact weight_next_le_weight_any _
  | parenErr h he ih => intro v st1 hr; cases hr
  | parenOpen h he h1 ih => intro v st1 hr; cases hr
  | paren h he h1 ih =>
    intro v st1 hr; cases hr
    exact Nat.le_trans (weight_next_le_weight_any _)
      (Nat.le_trans (ih _ _ rfl) (weight_next_le_weight_any _))
  | unexpected h h1 => intro v st1 hr; cases hr
  | mulErr h hf ih => intro v st1 hr; cases hr
  | mul h hf hl ih1 ih2 =>
    intro v st1 hr
    exact Nat.le_trans (ih2 _ _ hr) (Nat.le_trans (ih1 _ _ rfl) (weight_next_le_weight_any _))
  | divErr h hf ih => intro v st1 hr; cases hr
  | divZero h hf hv ih => intro v st1 hr; cases hr
  | div h hf hv hl ih1 ih2 =>
    intro v st1 hr
    exact Nat.le_trans (ih2 _ _ hr) (Nat.le_trans (ih1 _ _ rfl) (weight_next_le_weight_any _))
  | termDone h h1 => intro v st1 hr; cases hr; exact Nat.le_refl _
  | termErr hf ih => intro v st1 hr; cases hr
  | term hf hl ih1 ih2 =>
    intro v st1 hr
    exact Nat.le_trans (ih2 _ _ hr) (ih1 _ _ rfl)
  | plusErr h ht ih => intro v st1 hr; cases hr
  | plus h ht hl ih1 ih2 =>
    intro v st1 hr
    exact Nat.le_trans (ih2 _ _ hr) (Nat.le_trans (ih1 _ _ rfl) (weight_next_le_weight_any _))
  | minusErr h ht ih => intro v st1 hr; cases hr
  | minus h ht hl ih1 ih2 =>
    intro v st1 hr
    exact Nat.le_trans (ih2 _ _ hr) (Nat.le_trans (ih1 _ _ rfl) (weight_next_le_weight_any _))
  | exprDone h h1 => intro v st1 hr; cases hr; exact Nat.le_refl _
  | exprErr ht ih => intro v st1 hr; cases hr
  | expr ht hl ih1 ih2 =>
    intro v st1 hr
    exact Nat.le_trans (ih2 _ _ hr) (ih1 _ _ rfl)

/-- A run of `Big` is the run of the procedure with any fuel from `bound` on. -/
theorem run_of_big_any {c : Call V} {st : State V} {r : Except Error (V × State V)} (h : Big c st r) :
    ∀ m, bound c st ≤ m → run m c st = r := by
  induction h with
  | @number st h =>
    intro m hm
    obtain ⟨k, rfl⟩ := exists_succ_of_pos (m := m) (by simp only [bound] at hm; omega)
    simp [run, parse_factor, h]
  | @parenErr st e h he ih =>
    intro m hm
    obtain ⟨k, rfl⟩ := exists_succ_of_pos (m := m) (by simp only [bound] at hm; omega)
    have hlt := weight_next_lt_any st (by rw [h]; simp) (by rw [h]; simp)
    have h1 := ih k (by simp only [bound] at hm ⊢; omega)
    simp only [run] at h1
    simp [run, parse_factor, h, h1]
  | @parenOpen st st1 v h he hp ih =>
    intro m hm
    obtain ⟨k, rfl⟩ := exists_succ_of_pos (m := m) (by simp only [bound] at hm; omega)
    have hlt := weight_next_lt_any st (by rw [h]; simp) (by rw [h]; simp)
    have h1 := ih k (by simp only [bound] at hm ⊢; omega)
    simp only [run] at h1
    simp [run, parse_factor, h, h1, hp]
  | @paren st st1 v h he hp ih =>
    intro m hm
    obtain ⟨k, rfl⟩ := exists_succ_of_pos (m := m) (by simp only [bound] at hm; omega)
    have hlt := weight_next_lt_any st (by rw [h]; simp) (by rw [h]; simp)
    have h1 := ih k (by simp only [bound] at hm ⊢; omega)
    simp only [run] at h1
    simp [run, parse_factor, h, h1, hp]
  | @unexpected st h h1 =>
    intro m hm
    obtain ⟨k, rfl⟩ := exists_succ_of_pos (m := m) (by simp only [bound] at hm; omega)
    simp [run, parse_factor, h, h1]
  | @mulErr st acc e h hf ih =>
    intro m hm
    obtain ⟨k, rfl⟩ := exists_succ_of_pos (m := m) (by simp only [bound] at hm; omega)
    have hlt := weight_next_lt_any st (by rw [h]; simp) (by rw [h]; simp)
    have h1 := ih k (by simp only [bound] at hm ⊢; omega)
    simp only [run] at h1
    simp [run, parse_term_loop, h, h1]
  | @mul st st1 acc v r h hf hl ih1 ih2 =>
    intro m hm
    obtain ⟨k, rfl⟩ := exists_succ_of_pos (m := m) (by simp only [bound] at hm; omega)
    have hlt := weight_next_lt_any st (by rw [h]; simp) (by rw [h]; simp)
    have hw := big_weight_le_any hf _ _ rfl
    have h1 := ih1 k (by simp only [bound] at hm ⊢; omega)
    have h2 := ih2 k (by simp only [bound] at hm ⊢; omega)
    simp only [run] at h1 h2
    simp [run, parse_term_loop, h, h1, h2]
  | @divErr st acc e h hf ih =>
    intro m hm
    obtain ⟨k, rfl⟩ := exists_succ_of_pos (m := m) (by simp only [bound] at hm; omega)
    have hlt := weight_next_lt_any st (by rw [h]; simp) (by rw [h]; simp)
    have h1 := ih k (by simp only [bound] at hm ⊢; omega)
    simp only [run] at h1
    simp [run, parse_term_loop, h, h1]
  | @divZero st st1 acc v h hf hv ih =>
    intro m hm
    obtain ⟨k, rfl⟩ := exists_succ_of_pos (m := m) (by simp only [bound] at hm; omega)
    have hlt := weight_next_lt_any st (by rw [h]; simp) (by rw [h]; simp)
    have h1 := ih k (by simp only [bound] at hm ⊢; omega)
    simp only [run] at h1
    simp [run, parse_term_loop, h, h1, hv]
  | @div st st1 acc v r h hf hv hl ih1 ih2 =>
    intro m hm
    obtain ⟨k, rfl⟩ := exists_succ_of_pos (m := m) (by simp only [bound] at hm; omega)
    have hlt := weight_next_lt_any st (by rw [h]; simp) (by rw [h]; simp)
    have hw := big_weight_le_any hf _ _ rfl
    have h1 := ih1 k (by simp only [bound] at hm ⊢; omega)
    have h2 := ih2 k (by simp only [bound] at hm ⊢; omega)
    simp only [run] at h1 h2
    simp [run, parse_term_loop, h, h1, h2, hv]
  | @termDone st acc h h1 =>
    intro m hm
    obtain ⟨k, rfl⟩ := exists_succ_of_pos (m := m) (by simp only [bound] at hm; omega)
    simp [run, parse_term_loop, h, h1]
  | @termErr st e hf ih =>
    intro m hm
    obtain ⟨k, rfl⟩ := exists_succ_of_pos (m := m) (by simp only [bound] at hm; omega)
    have h1 := ih k (by simp only [bound] at hm ⊢; omega)
    simp only [run] at h1
    simp [run, parse_term, h1]
  | @term st st1 v r hf hl ih1 ih2 =>
    intro m hm
    obtain ⟨k, rfl⟩ := exists_succ_of_pos (m := m) (by simp only [bound] at hm; omega)
    have hw := big_weight_le_any hf _ _ rfl
    have h1 := ih1 k (by simp only [bound] at hm ⊢; omega)
    have h2 := ih2 k (by simp only [bound] at hm ⊢; omega)
    simp only [run] at h1 h2
    simp [run, parse_term, h1, h2]
  | @plusErr st acc e h ht ih =>
    intro m hm
    obtain ⟨k, rfl⟩ := exists_succ_of_pos (m := m) (by simp only [bound] at hm; omega)
    have hlt := weight_next_lt_any st (by rw [h]; simp) (by rw [h]; simp)
    have h1 := ih k (by simp only [bound] at hm ⊢; omega)
    simp only [run] at h1
    simp [run, parse_expression_loop, h, h1]
  | @plus st st1 acc v r h ht hl ih1 ih2 =>
    intro m hm
    obtain ⟨k, rfl⟩ := exists_succ_of_pos (m := m) (by simp only [bound] at hm; omega)
    have hlt := weight_next_lt_any st (by rw [h]; simp) (by rw [h]; simp)
    have hw := big_weight_le_any ht _ _ rfl
    have h1 := ih1 k (by simp only [bound] at hm ⊢; omega)
    have h2 := ih2 k (by simp only [bound] at hm ⊢; omega)
    simp only [run] at h1 h2
    simp [run, parse_expression_loop, h, h1, h2]
  | @minusErr st acc e h ht ih =>
    intro m hm
    obtain ⟨k, rfl⟩ := exists_succ_of_pos (m := m) (by simp only [bound] at hm; omega)
    have hlt := weight_next_lt_any st (by rw [h]; simp) (by rw [h]; simp)
    have h1 := ih k (by simp only [bound] at hm ⊢; omega)
    simp only [run] at h1
    simp [run, parse_expression_loop, h, h1]
  | @minus st st1 acc v r h ht hl ih1 ih2 =>
    intro m hm
    obtain ⟨k, rfl⟩ := exists_succ_of_pos (m := m) (by simp only [bound] at hm; omega)
    have hlt := weight_next_lt_any st (by rw [h]; simp) (by rw [h]; simp)
    have hw := big_weight_le_any ht _ _ rfl
    have h1 := ih1 k (by simp only [bound] at hm ⊢; omega)
    have h2 := ih2 k (by simp only [bound] at hm ⊢; omega)
    simp only [run] at h1 h2
    simp [run, parse_expression_loop, h, h1, h2]
  | @exprDone st acc h h1 =>
    intro m hm
    obtain ⟨k, rfl⟩ := exists_succ_of_pos (m := m) (by simp only [bound] at hm; omega)
    simp [run, parse_expression_loop, h, h1]
  | @exprErr st e ht ih =>
    intro m hm
    obtain ⟨k, rfl⟩ := exists_succ_of_pos (m := m) (by simp only [bound] at hm; omega)
    have h1 := ih k (by simp only [bound] at hm ⊢; omega)
    simp only [run] at h1
    simp [run, parse_expression, h1]
  | @expr st st1 v r ht hl ih1 ih2 =>
    intro m hm
    obtain ⟨k, rfl⟩ := exists_succ_of_pos (m := m) (by simp only [bound] at hm; omega)
    have hw := big_weight_le_any ht _ _ rfl
    have h1 := ih1 k (by simp only [bound] at hm ⊢; omega)
    have h2 := ih2 k (by simp only [bound] at hm ⊢; omega)
    simp only [run] at h1 h2
    simp [run, parse_expression, h1, h2]

theorem eval_eq_any (g : State V) (line : List Char) :
    eval g line = finish (parse_expression (evalFuel line) (startState g line)) := by
  simp only [eval, finish, startState]

theorem weight_startState_any (g : State V) (line : List Char) :
    weight (startState g line) ≤ line.length := by
  have := weight_next_le_any { g with input := line, pos := 0 }
  simpa [startState] using this

/-- The outcome of `eval` from a run of `Big` of `parse_expression`. -/
theorem eval_of_big_any {g : State V} {line : List Char} {r : Except Error (V × State V)}
    (h : Big .expr (startState g line) r) : eval g line = finish r := by
  have hw := weight_startState_any g line
  have := run_of_big_any h (evalFuel line) (by simp only [bound, evalFuel]; omega)
  simp only [run] at this
  rw [eval_eq_any, this]

/-- A line `eval` returns a number for has a run of `Big` that ends on `End`. -/
theorem big_of_eval_any {g : State V} {line : List Char} {v : V} (h : eval g line = .ok v) :
    ∃ st1, Big .expr (startState g line) (.ok (v, st1)) ∧ st1.current_token.type = .TOKEN_END := by
  rw [eval_eq_any] at h
  cases hp : parse_expression (evalFuel line) (startState g line) with
  | error e => rw [hp] at h; simp [finish] at h
  | ok p =>
    obtain ⟨v1, st1⟩ := p
    rw [hp] at h
    simp only [finish] at h
    by_cases hE : st1.current_token.type = .TOKEN_END
    · simp only [hE, ne_eq, not_true_eq_false, if_false] at h
      cases h
      exact ⟨st1, big_of_run_any (evalFuel line) .expr _ _ (by simpa [run] using hp) (by simp), hE⟩
    · simp [hE] at h

theorem big_termLoop_end_any {acc : V} {st : State V} {r : Except Error (V × State V)}
    (h : Big (.termLoop acc) st r) (he : st.current_token.type = .TOKEN_END) : r = .ok (acc, st) := by
  cases h <;> simp_all

theorem big_exprLoop_end_any {acc : V} {st : State V} {r : Except Error (V × State V)}
    (h : Big (.exprLoop acc) st r) (he : st.current_token.type = .TOKEN_END) : r = .ok (acc, st) := by
  cases h <;> simp_all

/-- A run that returns is also a run from the states mapped by `φ`, when `φ` commutes with
`next_token` and keeps the token held, but for states holding `End`: there the token of `φ st`
is only required (when `inert` holds) to be none of the four operators. Without `inert` the
runs moved are those of `parse_factor` and those that do not end on `End`. -/
theorem big_transfer_any (φ : State V → State V) (Inv : State V → Prop) (inert : Prop)
    (hInv : ∀ st, Inv st → Inv (next_token st))
    (hnext : ∀ st, Inv st → st.current_token.type ≠ .TOKEN_END →
      next_token (φ st) = φ (next_token st))
    (htok : ∀ st, Inv st → st.current_token.type ≠ .TOKEN_END →
      (φ st).current_token = st.current_token)
    (hend : inert → ∀ st, Inv st → st.current_token.type = .TOKEN_END →
      (φ st).current_token.type ≠ .TOKEN_MULTIPLY ∧ (φ st).current_token.type ≠ .TOKEN_DIVIDE ∧
      (φ st).current_token.type ≠ .TOKEN_PLUS ∧ (φ st).current_token.type ≠ .TOKEN_MINUS)
    {c : Call V} {st : State V} {r : Except Error (V × State V)} (h : Big c st r) :
    ∀ (v : V) (st1 : State V), r = .ok (v, st1) → Inv st →
      (inert ∨ c = .factor ∨ st1.current_token.type ≠ .TOKEN_END) →
      Big c (φ st) (.ok (v, φ st1)) ∧ Inv st1 := by
  induction h with
  | @number st h =>
    intro v st1 hr hI _
    cases hr
    have hne : st.current_token.type ≠ .TOKEN_END := by rw [h]; simp
    have hB := @Big.number _ _ (φ st) (by rw [htok st hI hne]; exact h)
    rw [hnext st hI hne, htok st hI hne] at hB
    exact ⟨hB, hInv st hI⟩
  | parenErr h he ih => intro v st1 hr; cases hr
  | parenOpen h he h1 ih => intro v st1 hr; cases hr
  | @paren st st1 v h he h1 ih =>
    intro v' st2 hr hI _
    cases hr
    have hne : st.current_token.type ≠ .TOKEN_END := by rw [h]; simp
    have hne1 : st1.current_token.type ≠ .TOKEN_END := by rw [h1]; simp
    obtain ⟨hB, hI1⟩ := ih _ _ rfl (hInv st hI) (Or.inr (Or.inr hne1))
    rw [← hnext st hI hne] at hB
    have hB2 := @Big.paren _ _ (φ st) _ _ (by rw [htok st hI hne]; exact h) hB
      (by rw [htok st1 hI1 hne1]; exact h1)
    rw [hnext st1 hI1 hne1] at hB2
    exact ⟨hB2, hInv st1 hI1⟩
  | unexpected h h1 => intro v st1 hr; cases hr
  | mulErr h hf ih => intro v st1 hr; cases hr
  | @mul st st1 acc v r h hf hl ih1 ih2 =>
    intro v' st2 hr hI hc
    have hne : st.current_token.type ≠ .TOKEN_END := by rw [h]; simp
    obtain ⟨hB1, hI1⟩ := ih1 _ _ rfl (hInv st hI) (Or.inr (Or.inl rfl))
    have hc2 : inert ∨ Call.termLoop (mul acc v) = .factor ∨ st2.current_token.type ≠ .TOKEN_END := by
      rcases hc with hc | hc | hc
      · exact Or.inl hc
      · cases hc
      · exact Or.inr (Or.inr hc)
    obtain ⟨hB2, hI2⟩ := ih2 _ _ hr hI1 hc2
    rw [← hnext st hI hne] at hB1
    exact ⟨Big.mul (by rw [htok st hI hne]; exact h) hB1 hB2, hI2⟩
  | divErr h hf ih => intro v st1 hr; cases hr
  | divZero h hf hv ih => intro v st1 hr; cases hr
  | @div st st1 acc v r h hf hv hl ih1 ih2 =>
    intro v' st2 hr hI hc
    have hne : st.current_token.type ≠ .TOKEN_END := by rw [h]; simp
    obtain ⟨hB1, hI1⟩ := ih1 _ _ rfl (hInv st hI) (Or.inr (Or.inl rfl))
    have hc2 : inert ∨ Call.termLoop (div acc v) = .factor ∨ st2.current_token.type ≠ .TOKEN_END := by
      rcases hc with hc | hc | hc
      · exact Or.inl hc
      · cases hc
      · exact Or.inr (Or.inr hc)
    obtain ⟨hB2, hI2⟩ := ih2 _ _ hr hI1 hc2
    rw [← hnext st hI hne] at hB1
    exact ⟨Big.div (by rw [htok st hI hne]; exact h) hB1 hv hB2, hI2⟩
  | @termDone st acc h h1 =>
    intro v st1 hr hI hc
    cases hr
    refine ⟨?_, hI⟩
    by_cases hE : st.current_token.type = .TOKEN_END
    · have hin : inert := by
        rcases hc with hc | hc | hc
        · exact hc
        · cases hc
        · exact absurd hE hc
      obtain ⟨a, b, _, _⟩ := hend hin st hI hE
      exact Big.termDone a b
    · exact Big.termDone (by rw [htok st hI hE]; exact h) (by rw [htok st hI hE]; exact h1)
  | termErr hf ih => intro v st1 hr; cases hr
  | @term st st1 v r hf hl ih1 ih2 =>
    intro v' st2 hr hI hc
    obtain ⟨hB1, hI1⟩ := ih1 _ _ rfl hI (Or.inr (Or.inl rfl))
    have hc2 : inert ∨ Call.termLoop v = .factor ∨ st2.current_token.type ≠ .TOKEN_END := by
      rcases hc with hc | hc | hc
      · exact Or.inl hc
      · cases hc
      · exact Or.inr (Or.inr hc)
    obtain ⟨hB2, hI2⟩ := ih2 _ _ hr hI1 hc2
    exact ⟨Big.term hB1 hB2, hI2⟩
  | plusErr h ht ih => intro v st1 hr; cases hr
  | @plus st st1 acc v r h ht hl ih1 ih2 =>
    intro v' st2 hr hI hc
    have hne : st.current_token.type ≠ .TOKEN_END := by rw [h]; simp
    have hc1 : inert ∨ (Call.term : Call V) = .factor ∨ st1.current_token.type ≠ .TOKEN_END := by
      rcases hc with hc | hc | hc
      · exact Or.inl hc
      · cases hc
      · refine Or.inr (Or.inr ?_)
        intro hE
        have := big_exprLoop_end_any hl hE
        rw [hr] at this
        cases this
        exact hc hE
    have hc2 : inert ∨ Call.exprLoop (add acc v) = .factor ∨ st2.current_token.type ≠ .TOKEN_END := by
      rcases hc with hc | hc | hc
      · exact Or.inl hc
      · cases hc
      · exact Or.inr (Or.inr hc)
    obtain ⟨hB1, hI1⟩ := ih1 _ _ rfl (hInv st hI) hc1
    obtain ⟨hB2, hI2⟩ := ih2 _ _ hr hI1 hc2
    rw [← hnext st hI hne] at hB1
    exact ⟨Big.plus (by rw [htok st hI hne]; exact h) hB1 hB2, hI2⟩
  | minusErr h ht ih => intro v st1 hr; cases hr
  | @minus st st1 acc v r h ht hl ih1 ih2 =>
    intro v' st2 hr hI hc
    have hne : st.current_token.type ≠ .TOKEN_END := by rw [h]; simp
    have hc1 : inert ∨ (Call.term : Call V) = .factor ∨ st1.current_token.type ≠ .TOKEN_END := by
      rcases hc with hc | hc | hc
      · exact Or.inl hc
      · cases hc
      · refine Or.inr (Or.inr ?_)
        intro hE
        have := big_exprLoop_end_any hl hE
        rw [hr] at this
        cases this
        exact hc hE
    have hc2 : inert ∨ Call.exprLoop (sub acc v) = .factor ∨ st2.current_token.type ≠ .TOKEN_END := by
      rcases hc with hc | hc | hc
      · exact Or.inl hc
      · cases hc
      · exact Or.inr (Or.inr hc)
    obtain ⟨hB1, hI1⟩ := ih1 _ _ rfl (hInv st hI) hc1
    obtain ⟨hB2, hI2⟩ := ih2 _ _ hr hI1 hc2
    rw [← hnext st hI hne] at hB1
    exact ⟨Big.minus (by rw [htok st hI hne]; exact h) hB1 hB2, hI2⟩
  | @exprDone st acc h h1 =>
    intro v st1 hr hI hc
    cases hr
    refine ⟨?_, hI⟩
    by_cases hE : st.current_token.type = .TOKEN_END
    · have hin : inert := by
        rcases hc with hc | hc | hc
        · exact hc
        · cases hc
        · exact absurd hE hc
      obtain ⟨_, _, a, b⟩ := hend hin st hI hE
      exact Big.exprDone a b
    · exact Big.exprDone (by rw [htok st hI hE]; exact h) (by rw [htok st hI hE]; exact h1)
  | exprErr ht ih => intro v st1 hr; cases hr
  | @expr st st1 v r ht hl ih1 ih2 =>
    intro v' st2 hr hI hc
    have hc1 : inert ∨ (Call.term : Call V) = .factor ∨ st1.current_token.type ≠ .TOKEN_END := by
      rcases hc with hc | hc | hc
      · exact Or.inl hc
      · cases hc
      · refine Or.inr (Or.inr ?_)
        intro hE
        have := big_exprLoop_end_any hl hE
        rw [hr] at this
        cases this
        exact hc hE
    have hc2 : inert ∨ Call.exprLoop v = .factor ∨ st2.current_token.type ≠ .TOKEN_END := by
      rcases hc with hc | hc | hc
      · exact Or.inl hc
      · cases hc
      · exact Or.inr (Or.inr hc)
    obtain ⟨hB1, hI1⟩ := ih1 _ _ rfl hI hc1
    obtain ⟨hB2, hI2⟩ := ih2 _ _ hr hI1 hc2
    exact ⟨Big.expr hB1 hB2, hI2⟩

theorem next_token_shift_any (p : List Char) (st : State V) :
    next_token (shift p st) = shift p (next_token st) := by
  simp only [next_token_eq_any, shift, List.drop_append, Nat.add_assoc]

theorem big_shift_any (p : List Char) {c : Call V} {st : State V} {v : V} {st1 : State V}
    (h : Big c st (.ok (v, st1))) : Big c (shift p st) (.ok (v, shift p st1)) :=
  (big_transfer_any (shift p) (fun _ => True) True (fun _ _ => trivial)
    (fun st _ _ => next_token_shift_any p st) (fun _ _ _ => rfl)
    (fun _ st _ hE => by simp [shift, hE]) h v st1 rfl trivial (Or.inl trivial)).1

theorem scanList_append_any (s suf : List Char) (hsuf : Stops suf) : ∀ (v : V) (dp : Int),
    scanList (s ++ suf) v dp = scanList s v dp := by
  induction s with
  | nil =>
    intro v dp
    cases suf with
    | nil => rfl
    | cons c r =>
      have := hsuf c (by simp)
      simp [scanList, this.1, this.2]
  | cons c r ih =>
    intro v dp
    rw [List.cons_append]
    simp only [scanList, ih]

/-- The token read from a text with no NUL in it is the token read when more text follows,
unless it is `End`: then the token read is the first one of the text that follows. -/
theorem lexList_append_any (s suf : List Char) (hs : ∀ c ∈ s, c ≠ NUL) (hsuf : Stops suf) :
    lexList V (s ++ suf) =
      if (lexList V s).1.type = .TOKEN_END then ((lexList V suf).1, s.length + (lexList V suf).2)
      else lexList V s := by
  by_cases hw : skipList s = s.length
  · have hd : s.drop (skipList s) = [] := by rw [hw]; simp
    have hE : (lexList V s).1.type = .TOKEN_END := by
      simp [lexList, hd]
    have hd2 : (s ++ suf).drop (s.length + skipList suf) = suf.drop (skipList suf) := by
      simp [List.drop_append]
    rw [if_pos hE]
    simp only [lexList, skipList_append, hw, if_true, hd2]
    repeat' split
    all_goals simp [Nat.add_assoc]
  · have hd : s.drop (skipList s) ≠ [] := fun h => hw (skipList_eq_length_of_drop_nil h)
    have hn := headD_drop_ne_nul hs _ hd
    have hE : (lexList V s).1.type ≠ .TOKEN_END := by
      simp only [lexList, hn, if_false]
      repeat' split
      all_goals simp
    have hle := skipList_le s
    have hd2 : (s ++ suf).drop (skipList s) = s.drop (skipList s) ++ suf := by
      rw [List.drop_append_of_le_length hle]
    have hh : (s.drop (skipList s) ++ suf).headD NUL = (s.drop (skipList s)).headD NUL := by
      cases hx : s.drop (skipList s) with
      | nil => exact absurd hx hd
      | cons c r => rfl
    rw [if_neg hE]
    simp only [lexList, skipList_append, hw, if_false, hd2, hh, scanList_append_any _ _ hsuf]

theorem onLine_next_token_any {e : List Char} {st : State V} (h : OnLine e st) :
    OnLine e (next_token st) := by
  obtain ⟨h1, h2⟩ := h
  have hle := lexList_le_any (V := V) (st.input.drop st.pos)
  have hlen : (st.input.drop st.pos).length = st.input.length - st.pos := by simp
  subst h1
  rw [next_token_eq_any]
  refine ⟨rfl, ?_⟩
  simp only []
  omega

theorem next_token_extend_any {e suf : List Char} (he : ∀ c ∈ e, c ≠ NUL) (hsuf : Stops suf)
    {st : State V} (h : OnLine e st) (t : Token V) :
    next_token ⟨e ++ suf, st.pos, t⟩ = extend suf (next_token st) := by
  obtain ⟨h1, h2⟩ := h
  have hs : ∀ c ∈ e.drop st.pos, c ≠ NUL := fun c hc => he c (List.mem_of_mem_drop hc)
  have hd : (e ++ suf).drop st.pos = e.drop st.pos ++ suf := List.drop_append_of_le_length h2
  have hlen : (e.drop st.pos).length = e.length - st.pos := by simp
  simp only [next_token_eq_any, extend, hd, lexList_append_any _ _ hs hsuf, h1]
  by_cases hE : (lexList V (e.drop st.pos)).1.type = .TOKEN_END
  · simp only [hE, if_true, hlen]
    congr 1
    omega
  · simp only [hE, if_false]

/-- A run on the line `e` that returns, on the line `e ++ suf`. -/
theorem big_extend_any {e suf : List Char} (he : ∀ c ∈ e, c ≠ NUL) (hsuf : Stops suf)
    {c : Call V} {st : State V} {v : V} {st1 : State V} (h : Big c st (.ok (v, st1)))
    (hst : OnLine e st)
    (hc : ((lexList V suf).1.type ≠ .TOKEN_MULTIPLY ∧ (lexList V suf).1.type ≠ .TOKEN_DIVIDE ∧
            (lexList V suf).1.type ≠ .TOKEN_PLUS ∧ (lexList V suf).1.type ≠ .TOKEN_MINUS) ∨
          c = .factor ∨ st1.current_token.type ≠ .TOKEN_END) :
    Big c (extend suf st) (.ok (v, extend suf st1)) ∧ OnLine e st1 := by
  refine big_transfer_any (extend suf) (OnLine e) _ (fun _ => onLine_next_token_any) ?_ ?_ ?_
    h v st1 rfl hst hc
  · intro st hI hE
    rw [← next_token_extend_any he hsuf hI st.current_token]
    simp [extend, hE, hI.1]
  · intro st _ hE
    simp [extend, hE]
  · intro hin st _ hE
    simpa [extend, hE] using hin

theorem next_token_mk_any (p s : List Char) (t : Token V) :
    next_token ⟨p ++ s, p.length, t⟩ = lexState V p s := by
  simp [next_token_eq_any, lexState]

theorem startState_eq_any (g : State V) (line : List Char) : startState g line = lexState V [] line := by
  have := next_token_mk_any [] line g.current_token
  simpa [startState] using this

/-- Fetching the next token of `lexState V p s` when the token held is the text `a`. -/
theorem next_token_lexState_any (p a s : List Char) (h : (lexList V (a ++ s)).2 = a.length) :
    next_token (lexState V p (a ++ s)) = lexState V (p ++ a) s := by
  have := next_token_mk_any (p ++ a) s (lexList V (a ++ s)).1
  rw [← this]
  simp [lexState, h]

theorem shift_lexState_any (q p s : List Char) : shift q (lexState V p s) = lexState V (q ++ p) s := by
  simp [shift, lexState, Nat.add_assoc]

theorem extend_lexState_any (p s suf : List Char) (hs : ∀ c ∈ s, c ≠ NUL) (hsuf : Stops suf) :
    extend suf (lexState V p s) = lexState V p (s ++ suf) := by
  simp only [extend, lexState, lexList_append_any _ _ hs hsuf]
  by_cases hE : (lexList V s).1.type = .TOKEN_END
  · simp [hE, Nat.add_assoc]
  · simp [hE]

theorem onLine_lexState_any (s : List Char) : OnLine s (lexState V [] s) := by
  have := lexList_le_any (V := V) s
  simp only [OnLine, lexState]
  simp
  omega

theorem lexList_lparen_any (r : List Char) : lexList V ('(' :: r) = (⟨.TOKEN_LPAREN, ofInt 0⟩, 1) := by
  simp [lexList, skipList, isspace, isdigit, NUL]

theorem lexList_rparen_any (r : List Char) : lexList V (')' :: r) = (⟨.TOKEN_RPAREN, ofInt 0⟩, 1) := by
  simp [lexList, skipList, isspace, isdigit, NUL]

theorem lexList_slash_any (r : List Char) : lexList V ('/' :: r) = (⟨.TOKEN_DIVIDE, ofInt 0⟩, 1) := by
  simp [lexList, skipList, isspace, isdigit, NUL]

theorem extend_of_ne_end_any {suf : List Char} {st : State V} (h : st.current_token.type ≠ .TOKEN_END) :
    extend suf st = ⟨st.input ++ suf, st.pos, st.current_token⟩ := by
  simp [extend, h]

theorem next_token_extend_of_ne_end_any {e suf : List Char} (he : ∀ c ∈ e, c ≠ NUL)
    (hsuf : Stops suf) {st : State V} (hI : OnLine e st) (h : st.current_token.type ≠ .TOKEN_END) :
    next_token (extend suf st) = extend suf (next_token st) := by
  rw [extend_of_ne_end_any h, hI.1]
  exact next_token_extend_any he hsuf hI st.current_token

/-- A run on the line `e` that ends on `End`, on the line `e ++ suf`, when the loop of
`parse_term` entered on the first token of `suf` fails with `err`: the run of `parse_term` and
of `parse_expression` fails with `err` too (and the run of a loop, which for the loop of
`parse_expression` must not start on `End`). -/
theorem big_extend_error_any {e suf : List Char} (he : ∀ c ∈ e, c ≠ NUL) (hsuf : Stops suf)
    (err : Error)
    (hcont : ∀ acc, Big (.termLoop acc)
      ⟨e ++ suf, e.length + (lexList V suf).2, (lexList V suf).1⟩ (.error err))
    {c : Call V} {st : State V} {r : Except Error (V × State V)} (h : Big c st r) :
    ∀ (v : V) (st1 : State V), r = .ok (v, st1) → OnLine e st →
      st1.current_token.type = .TOKEN_END → c ≠ .factor →
      (∀ acc, c = .exprLoop acc → st.current_token.type ≠ .TOKEN_END) →
      Big c (extend suf st) (.error err) := by
  induction h with
  | number h => intro v st1 _ _ _ hc; exact absurd rfl hc
  | parenErr h he ih => intro v st1 hr; cases hr
  | parenOpen h he h1 ih => intro v st1 hr; cases hr
  | paren h he h1 ih => intro v st1 _ _ _ hc; exact absurd rfl hc
  | unexpected h h1 => intro v st1 hr; cases hr
  | mulErr h hf ih => intro v st1 hr; cases hr
  | @mul st st1 acc v r h hf hl ih1 ih2 =>
    intro v' st2 hr hI hE _ _
    have hne : st.current_token.type ≠ .TOKEN_END := by rw [h]; simp
    obtain ⟨hB1, hI1⟩ := big_extend_any he hsuf hf (onLine_next_token_any hI) (Or.inr (Or.inl rfl))
    rw [← next_token_extend_of_ne_end_any he hsuf hI hne] at hB1
    have h2 := ih2 v' st2 hr hI1 hE (by simp) (by intro a ha; cases ha)
    exact Big.mul (by rw [extend_of_ne_end_any hne]; exact h) hB1 h2
  | divErr h hf ih => intro v st1 hr; cases hr
  | divZero h hf hv ih => intro v st1 hr; cases hr
  | @div st st1 acc v r h hf hv hl ih1 ih2 =>
    intro v' st2 hr hI hE _ _
    have hne : st.current_token.type ≠ .TOKEN_END := by rw [h]; simp
    obtain ⟨hB1, hI1⟩ := big_extend_any he hsuf hf (onLine_next_token_any hI) (Or.inr (Or.inl rfl))
    rw [← next_token_extend_of_ne_end_any he hsuf hI hne] at hB1
    have h2 := ih2 v' st2 hr hI1 hE (by simp) (by intro a ha; cases ha)
    exact Big.div (by rw [extend_of_ne_end_any hne]; exact h) hB1 hv h2
  | @termDone st acc h h1 =>
    intro v st1 hr hI hE _ _
    cases hr
    have : extend suf st = ⟨e ++ suf, e.length + (lexList V suf).2, (lexList V suf).1⟩ := by
      simp [extend, hE, hI.1]
    rw [this]
    exact hcont acc
  | termErr hf ih => intro v st1 hr; cases hr
  | @term st st1 v r hf hl ih1 ih2 =>
    intro v' st2 hr hI hE _ _
    obtain ⟨hB1, hI1⟩ := big_extend_any he hsuf hf hI (Or.inr (Or.inl rfl))
    have h2 := ih2 v' st2 hr hI1 hE (by simp) (by intro a ha; cases ha)
    exact Big.term hB1 h2
  | plusErr h ht ih => intro v st1 hr; cases hr
  | @plus st st1 acc v r h ht hl ih1 ih2 =>
    intro v' st2 hr hI hE _ _
    have hne : st.current_token.type ≠ .TOKEN_END := by rw [h]; simp
    have htok : (extend suf st).current_token.type = .TOKEN_PLUS := by
      rw [extend_of_ne_end_any hne]; exact h
    by_cases hE1 : st1.current_token.type = .TOKEN_END
    · have h1 := ih1 v st1 rfl (onLine_next_token_any hI) hE1 (by simp) (by intro a ha; cases ha)
      rw [← next_token_extend_of_ne_end_any he hsuf hI hne] at h1
      exact Big.plusErr htok h1
    · obtain ⟨hB1, hI1⟩ := big_extend_any he hsuf ht (onLine_next_token_any hI) (Or.inr (Or.inr hE1))
      rw [← next_token_extend_of_ne_end_any he hsuf hI hne] at hB1
      have h2 := ih2 v' st2 hr hI1 hE (by simp) (fun _ _ => hE1)
      exact Big.plus htok hB1 h2
  | minusErr h ht ih => intro v st1 hr; cases hr
  | @minus st st1 acc v r h ht hl ih1 ih2 =>
    intro v' st2 hr hI hE _ _
    have hne : st.current_token.type ≠ .TOKEN_END := by rw [h]; simp
    have htok : (extend suf st).current_token.type = .TOKEN_MINUS := by
      rw [extend_of_ne_end_any hne]; exact h
    by_cases hE1 : st1.current_token.type = .TOKEN_END
    · have h1 := ih1 v st1 rfl (onLine_next_token_any hI) hE1 (by simp) (by intro a ha; cases ha)
      rw [← next_token_extend_of_ne_end_any he hsuf hI hne] at h1
      exact Big.minusErr htok h1
    · obtain ⟨hB1, hI1⟩ := big_extend_any he hsuf ht (onLine_next_token_any hI) (Or.inr (Or.inr hE1))
      rw [← next_token_extend_of_ne_end_any he hsuf hI hne] at hB1
      have h2 := ih2 v' st2 hr hI1 hE (by simp) (fun _ _ => hE1)
      exact Big.minus htok hB1 h2
  | @exprDone st acc h h1 =>
    intro v st1 hr _ hE _ hs
    cases hr
    exact absurd hE (hs acc rfl)
  | exprErr ht ih => intro v st1 hr; cases hr
  | @expr st st1 v r ht hl ih1 ih2 =>
    intro v' st2 hr hI hE _ _
    by_cases hE1 : st1.current_token.type = .TOKEN_END
    · have h1 := ih1 v st1 rfl hI hE1 (by simp) (by intro a ha; cases ha)
      exact Big.exprErr h1
    · obtain ⟨hB1, hI1⟩ := big_extend_any he hsuf ht hI (Or.inr (Or.inr hE1))
      have h2 := ih2 v' st2 hr hI1 hE (by simp) (fun _ _ => hE1)
      exact Big.expr hB1 h2

end

end Arith

/-! ## Division by a line that evaluates to zero -/

/-- C4: in every arithmetic of `double`, for every line `A` that evaluates successfully and every
line `Z` that evaluates successfully to a value `vz` that is zero by the source's own test
`vz == 0` (both C strings: no NUL inside), `eval` of `A ++ "/(" ++ Z ++ ")"` fails with the
"Division by zero" error, whatever the parentheses inside `A` and `Z`. -/
theorem eval_divide_by_zero {V : Type} [Arith V] (g gA gZ : Arith.State V) (A Z : List Char)
    (va vz : V) (hA : ∀ c ∈ A, c ≠ NUL) (hZ : ∀ c ∈ Z, c ≠ NUL)
    (ha : Arith.eval gA A = .ok va) (hz : Arith.eval gZ Z = .ok vz)
    (h0 : Arith.eq vz (Arith.ofInt 0) = true) :
    Arith.eval g (A ++ ['/', '('] ++ Z ++ [')']) = .error .divisionByZero ∧
      Error.kind .divisionByZero = some .DivisionByZero := by
  obtain ⟨stA, hBA, hEA⟩ := Arith.big_of_eval_any ha
  obtain ⟨stZ, hBZ, hEZ⟩ := Arith.big_of_eval_any hz
  rw [Arith.startState_eq_any] at hBA hBZ
  -- the run on `Z`, inside the parentheses
  have hZ1 := (Arith.big_extend_any hZ (stops_rparen []) hBZ (Arith.onLine_lexState_any Z)
    (Or.inl (by simp [Arith.lexList_rparen_any]))).1
  rw [Arith.extend_lexState_any [] Z [')'] hZ (stops_rparen [])] at hZ1
  have hZ2 := Arith.big_shift_any (A ++ ['/', '(']) hZ1
  rw [Arith.shift_lexState_any] at hZ2
  have hZtok : (Arith.shift (A ++ ['/', '(']) (Arith.extend [')'] stZ)).current_token.type
      = .TOKEN_RPAREN := by
    simp [Arith.shift, Arith.extend, hEZ, Arith.lexList_rparen_any]
  -- the factor `(Z)` after the `/`
  have hn1 : Arith.next_token (Arith.lexState V A ('/' :: '(' :: (Z ++ [')'])))
      = Arith.lexState V (A ++ ['/']) ('(' :: (Z ++ [')'])) :=
    Arith.next_token_lexState_any A ['/'] ('(' :: (Z ++ [')']))
      (by simp [Arith.lexList_slash_any])
  have hn2 : Arith.next_token (Arith.lexState V (A ++ ['/']) ('(' :: (Z ++ [')'])))
      = Arith.lexState V (A ++ ['/', '('] ++ []) (Z ++ [')']) := by
    have := Arith.next_token_lexState_any (V := V) (A ++ ['/']) ['('] (Z ++ [')'])
      (by simp [Arith.lexList_lparen_any])
    simpa using this
  have hF : Arith.Big .factor (Arith.lexState V (A ++ ['/']) ('(' :: (Z ++ [')'])))
      (.ok (vz, Arith.next_token (Arith.shift (A ++ ['/', '(']) (Arith.extend [')'] stZ)))) :=
    Arith.Big.paren (by simp [Arith.lexState, Arith.lexList_lparen_any])
      (by rw [hn2]; exact hZ2) hZtok
  have hcont : ∀ acc, Arith.Big (.termLoop acc)
      ⟨A ++ '/' :: '(' :: (Z ++ [')']),
        A.length + (Arith.lexList V ('/' :: '(' :: (Z ++ [')']))).2,
        (Arith.lexList V ('/' :: '(' :: (Z ++ [')']))).1⟩ (.error .divisionByZero) := by
    intro acc
    exact @Arith.Big.divZero _ _ (Arith.lexState V A ('/' :: '(' :: (Z ++ [')']))) _ _ _
      (by simp [Arith.lexState, Arith.lexList_slash_any]) (by rw [hn1]; exact hF) h0
  have hD := Arith.big_extend_error_any hA (stops_slash _) .divisionByZero hcont hBA va stA rfl
    (Arith.onLine_lexState_any A) hEA (by simp) (by intro a ha; cases ha)
  rw [Arith.extend_lexState_any [] A _ hA (stops_slash _), ← Arith.startState_eq_any g] at hD
  have hline : A ++ ['/', '('] ++ Z ++ [')'] = A ++ '/' :: '(' :: (Z ++ [')']) := by simp
  rw [hline, Arith.eval_of_big_any hD]
  exact ⟨rfl, rfl⟩

/-- Witness for C4 on the line `1/(2-2)`, in the exact arithmetic of `ℚ`. -/
theorem eval_divide_by_zero_witness :
    Arith.eval (Arith.initState ℚ) ['1'] = .ok 1 ∧
      Arith.eval (Arith.initState ℚ) ['2', '-', '2'] = .ok 0 ∧
      Arith.eq (0 : ℚ) (Arith.ofInt 0) = true ∧
      Arith.eval (Arith.initState ℚ) (['1'] ++ ['/', '('] ++ ['2', '-', '2'] ++ [')'])
        = .error .divisionByZero :=
  ⟨by decide!, by decide!, by decide!,
    (eval_divide_by_zero (Arith.initState ℚ) (Arith.initState ℚ) (Arith.initState ℚ)
      ['1'] ['2', '-', '2'] 1 0
      (by decide) (by decide) (by decide!) (by decide!) (by decide!)).1⟩

/-! ## The two arithmetics on lines with a computed divisor -/

/-- In IEEE arithmetic `0.1+0.2-0.3` is `2 ^ -54`, not zero, and the quotient `1/(0.1+0.2-0.3)`
is `2 ^ 54`; in exact arithmetic the divisor is zero. -/
theorem eval_rounded_divisor :
    Arith.eval (Arith.initState Binary64) ['0', '.', '1', '+', '0', '.', '2', '-', '0', '.', '3']
        = .ok (.finite false (1 / 18014398509481984)) ∧
      Arith.eval (Arith.initState Binary64)
          ['1', '/', '(', '0', '.', '1', '+', '0', '.', '2', '-', '0', '.', '3', ')']
        = .ok (.finite false 18014398509481984) ∧
      Arith.eval (Arith.initState ℚ)
          ['1', '/', '(', '0', '.', '1', '+', '0', '.', '2', '-', '0', '.', '3', ')']
        = .error .divisionByZero := by
  decide!

/-- In IEEE arithmetic the literal `9007199254740993` is read as `2 ^ 53`, as
`9007199254740992` is, so the difference is zero; in exact arithmetic it is 1. -/
theorem eval_absorbed_divisor :
    Arith.eval (Arith.initState Binary64)
          ['9', '0', '0', '7', '1', '9', '9', '2', '5', '4', '7', '4', '0', '9', '9', '3', '-',
            '9', '0', '0', '7', '1', '9', '9', '2', '5', '4', '7', '4', '0', '9', '9', '2']
        = .ok (.finite false 0) ∧
      Arith.eval (Arith.initState Binary64)
          ['1', '/', '(',
            '9', '0', '0', '7', '1', '9', '9', '2', '5', '4', '7', '4', '0', '9', '9', '3', '-',
            '9', '0', '0', '7', '1', '9', '9', '2', '5', '4', '7', '4', '0', '9', '9', '2', ')']
        = .error .divisionByZero ∧
      Arith.eval (Arith.initState ℚ)
          ['1', '/', '(',
            '9', '0', '0', '7', '1', '9', '9', '2', '5', '4', '7', '4', '0', '9', '9', '3', '-',
            '9', '0', '0', '7', '1', '9', '9', '2', '5', '4', '7', '4', '0', '9', '9', '2', ')']
        = .ok 1 := by
  decide!

/-! ## The first embedding is the embedding over the exact arithmetic of `ℚ` -/

theorem ofInt_rat (i : Int) : (Arith.ofInt i : ℚ) = (i : ℚ) := rfl

theorem push_digit_rat (value : ℚ) (c : Char) (h : isdigit c = true) :
    Arith.add (Arith.mul value (Arith.ofInt 10)) (Arith.ofInt ((c.toNat : Int) - 48))
      = value * 10 + digitVal c := by
  have h48 : 48 ≤ c.toNat := by
    simp only [isdigit, Bool.and_eq_true, decide_eq_true_eq] at h
    exact h.1
  show value * ((10 : Int) : ℚ) + (((c.toNat : Int) - 48 : Int) : ℚ) = value * 10 + digitVal c
  simp only [digitVal, Nat.cast_sub h48]
  push_cast
  rfl

theorem scan_number_rat (fuel : Nat) : ∀ (input : List Char) (pos : Nat) (value : ℚ) (dp : Int),
    Arith.scan_number fuel input pos value dp = scan_number fuel input pos value dp := by
  induction fuel with
  | zero => intro input pos value dp; rfl
  | succ n ih =>
    intro input pos value dp
    simp only [Arith.scan_number, scan_number]
    split
    · rename_i h
      split
      · exact ih _ _ _ _
      · rename_i hdot
        have hd : isdigit (charAt input pos) = true := by
          rcases h with h | h
          · exact h
          · exact absurd h.1 hdot
        rw [push_digit_rat value _ hd]
        exact ih _ _ _ _
    · rfl

theorem div_rat (x y : ℚ) : Arith.div x y = x / y := rfl

theorem next_token_rat (st : Arith.State ℚ) :
    next_token (toState st) = toState (Arith.next_token st) := by
  simp only [next_token, get_next_token, Arith.next_token, Arith.get_next_token, toState,
    scan_number_rat, ofInt_rat, div_rat, Int.cast_zero]
  repeat' split
  all_goals rfl

theorem type_toState (st : Arith.State ℚ) :
    (toState st).current_token.type = st.current_token.type := rfl

theorem value_toState (st : Arith.State ℚ) :
    (toState st).current_token.value = st.current_token.value := rfl

theorem eq_zero_rat (v : ℚ) : (Arith.eq v (Arith.ofInt 0) = true) ↔ v = 0 := by
  show decide (v = ((0 : Int) : ℚ)) = true ↔ v = 0
  simp

/-- The five procedures of the parser over the exact arithmetic of `ℚ` are those of the first
embedding, with every fuel. -/
theorem parse_rat (n : Nat) :
    (∀ st, parse_factor n (toState st) = toOutcome (Arith.parse_factor n st)) ∧
    (∀ r st, parse_term_loop n r (toState st) = toOutcome (Arith.parse_term_loop n r st)) ∧
    (∀ st, parse_term n (toState st) = toOutcome (Arith.parse_term n st)) ∧
    (∀ r st, parse_expression_loop n r (toState st)
      = toOutcome (Arith.parse_expression_loop n r st)) ∧
    (∀ st, parse_expression n (toState st) = toOutcome (Arith.parse_expression n st)) := by
  induction n with
  | zero =>
    refine ⟨?_, ?_, ?_, ?_, ?_⟩ <;> intros <;> rfl
  | succ n ih =>
    obtain ⟨ihF, ihTL, ihT, ihEL, ihE⟩ := ih
    refine ⟨?_, ?_, ?_, ?_, ?_⟩
    · intro st
      simp only [parse_factor, Arith.parse_factor, type_toState, value_toState, next_token_rat,
        ihE]
      by_cases h1 : st.current_token.type = .TOKEN_NUMBER
      · rw [if_pos h1, if_pos h1]; rfl
      · rw [if_neg h1, if_neg h1]
        by_cases h2 : st.current_token.type = .TOKEN_LPAREN
        · rw [if_pos h2, if_pos h2]
          cases Arith.parse_expression n (Arith.next_token st) with
          | error e => rfl
          | ok p =>
            obtain ⟨v, st1⟩ := p
            simp only [toOutcome, type_toState, next_token_rat]
            split <;> rfl
        · rw [if_neg h2, if_neg h2]; rfl
    · intro r st
      simp only [parse_term_loop, Arith.parse_term_loop, type_toState, next_token_rat, ihF]
      by_cases h1 : st.current_token.type = .TOKEN_MULTIPLY
      · rw [if_pos h1, if_pos h1]
        cases Arith.parse_factor n (Arith.next_token st) with
        | error e => rfl
        | ok p =>
          obtain ⟨v, st1⟩ := p
          simp only [toOutcome]
          exact ihTL _ _
      · rw [if_neg h1, if_neg h1]
        by_cases h2 : st.current_token.type = .TOKEN_DIVIDE
        · rw [if_pos h2, if_pos h2]
          cases Arith.parse_factor n (Arith.next_token st) with
          | error e => rfl
          | ok p =>
            obtain ⟨v, st1⟩ := p
            simp only [toOutcome]
            by_cases h3 : v = 0
            · rw [if_pos h3, if_pos ((eq_zero_rat v).2 h3)]
            · rw [if_neg h3, if_neg (fun h => h3 ((eq_zero_rat v).1 h))]
              exact ihTL _ _
        · rw [if_neg h2, if_neg h2]; rfl
    · intro st
      simp only [parse_term, Arith.parse_term, ihF]
      cases Arith.parse_factor n st with
      | error e => rfl
      | ok p =>
        obtain ⟨v, st1⟩ := p
        simp only [toOutcome]
        exact ihTL _ _
    · intro r st
      simp only [parse_expression_loop, Arith.parse_expression_loop, type_toState,
        next_token_rat, ihT]
      by_cases h1 : st.current_token.type = .TOKEN_PLUS
      · rw [if_pos h1, if_pos h1]
        cases Arith.parse_term n (Arith.next_token st) with
        | error e => rfl
        | ok p =>
          obtain ⟨v, st1⟩ := p
          simp only [toOutcome]
          exact ihEL _ _
      · rw [if_neg h1, if_neg h1]
        by_cases h2 : st.current_token.type = .TOKEN_MINUS
        · rw [if_pos h2, if_pos h2]
          cases Arith.parse_term n (Arith.next_token st) with
          | error e => rfl
          | ok p =>
            obtain ⟨v, st1⟩ := p
            simp only [toOutcome]
            exact ihEL _ _
        · rw [if_neg h2, if_neg h2]; rfl
    · intro st
      simp only [parse_expression, Arith.parse_expression, ihT]
      cases Arith.parse_term n st with
      | error e => rfl
      | ok p =>
        obtain ⟨v, st1⟩ := p
        simp only [toOutcome]
        exact ihEL _ _

/-- The function `eval` over the exact arithmetic of `ℚ` is the `eval` of the first embedding. -/
theorem eval_rat (g : Arith.State ℚ) (line : List Char) :
    Arith.eval g line = eval (toState g) line := by
  have hs : next_token { toState g with input := line, pos := 0 }
      = toState (Arith.next_token { g with input := line, pos := 0 }) :=
    next_token_rat { g with input := line, pos := 0 }
  simp only [eval, Arith.eval, hs, (parse_rat (evalFuel line)).2.2.2.2]
  cases Arith.parse_expression (evalFuel line)
      (Arith.next_token { g with input := line, pos := 0 }) with
  | error e => rfl
  | ok p =>
    obtain ⟨v, st1⟩ := p
    simp only [toOutcome, type_toState]

end Bcalc
